import Mathlib

/-!
# Search server: a shallow embedding of `search_server.h` / `search_server.cpp`

The C++ class `SearchServer` keeps an inverted index (`word_to_document_freqs_`),
a forward index (`document_to_word_freqs_`), the document metadata
(`documents_`) and the set of ids (`document_ids_`).  This file translates the
member functions into pure functions on an explicit state.

Modelling conventions.

* `std::string` / `std::string_view` is a list of characters (`Str`); a C++
  `char` is a Lean `Char`, compared by its code.
* `double` is an arbitrary linearly ordered field `R` (exact arithmetic); the
  natural logarithm `std::log` is a parameter `ln : R → R`.  Every theorem holds
  for every such `R` and `ln`, in particular for the real numbers.
* where the rounding of `double` decides a property (the term frequencies that
  `AddDocument` stores), the arithmetic is rounded by a function `fl : R → R`
  applied to the result of every operation (`AddDocumentFl`, `HistoryFl`);
  `roundDouble` is the rounding of IEEE 754 binary64 on the rationals, and
  `fl x = x` gives back the exact functions.
* `std::sort` is the algorithm of the GNU C++ library (`std::__sort` of
  `bits/stl_algo.h`: introsort, then the final insertion sort), translated
  function by function, so that it returns the list the library returns also
  for a comparator that is no strict weak ordering; the execution policy does
  not enter it.
* `std::map` and `std::set` are finite maps and sets with ascending iteration
  (`OrderedMap`, `OrderedSet`).
* an exception is a value of `Error`; a mutating member function returns an
  `Outcome`: the state the object is left in, and the exception if one was
  thrown.
-/

set_option linter.unusedSectionVars false

namespace SearchEngine

/-- A byte string (`std::string`, `std::string_view`). -/
abbrev Str := List Char

/-! ## `std::map` and `std::set` -/

/-- Model of `std::map<K, V>`: the bindings are kept in a list, the first
binding of a key is the one in force; iteration (`toList`) is by ascending
key. -/
structure OrderedMap (K V : Type) where
  entries : List (K × V)

namespace OrderedMap

variable {K V : Type} [LinearOrder K]

/-- The map with no binding (a default-constructed `std::map`). -/
def empty : OrderedMap K V := ⟨[]⟩

/-- Lookup in a list of bindings. -/
def lookup : List (K × V) → K → Option V
  | [], _ => none
  | (a, v) :: rest, k => if k = a then some v else lookup rest k

/-- The value bound to `k` (`find`, and `at` when the result is `none` means
`std::out_of_range`). -/
def find? (m : OrderedMap K V) (k : K) : Option V := lookup m.entries k

/-- Translation of `count(k) > 0`. -/
def count (m : OrderedMap K V) (k : K) : Bool := (m.find? k).isSome

/-- Translation of `erase(k)`. -/
def erase (m : OrderedMap K V) (k : K) : OrderedMap K V :=
  ⟨m.entries.filter (fun p => decide (p.1 ≠ k))⟩

/-- Bind `k` to `v`, replacing a previous binding (what `m[k] = v` does). -/
def insert (m : OrderedMap K V) (k : K) (v : V) : OrderedMap K V :=
  ⟨(k, v) :: (m.erase k).entries⟩

/-- Translation of `emplace(k, v)`: no effect when `k` is already bound. -/
def emplace (m : OrderedMap K V) (k : K) (v : V) : OrderedMap K V :=
  if m.count k then m else m.insert k v

/-- The bound keys, ascending, each once. -/
def keys (m : OrderedMap K V) : List K :=
  ((m.entries.map Prod.fst).dedup).insertionSort (fun a b => a ≤ b)

/-- The bindings in iteration order (ascending key). -/
def toList (m : OrderedMap K V) : List (K × V) :=
  (keys m).filterMap (fun k => (m.find? k).map (fun v => (k, v)))

/-- Translation of `size()`. -/
def size (m : OrderedMap K V) : Nat := (keys m).length

end OrderedMap

/-- Model of `std::set<K>`; iteration (`toList`) is ascending. -/
structure OrderedSet (K : Type) where
  elems : List K

namespace OrderedSet

variable {K : Type} [LinearOrder K]

/-- The empty set. -/
def empty : OrderedSet K := ⟨[]⟩

/-- Translation of `count(k) > 0`. -/
def contains (s : OrderedSet K) (k : K) : Bool := decide (k ∈ s.elems)

/-- Translation of `insert(k)` / `emplace(k)`. -/
def insert (s : OrderedSet K) (k : K) : OrderedSet K :=
  if s.contains k then s else ⟨k :: s.elems⟩

/-- Translation of `erase(k)`. -/
def erase (s : OrderedSet K) (k : K) : OrderedSet K :=
  ⟨s.elems.filter (fun a => decide (a ≠ k))⟩

/-- The elements in iteration order (ascending), each once. -/
def toList (s : OrderedSet K) : List K :=
  (s.elems.dedup).insertionSort (fun a b => a ≤ b)

/-- Translation of `size()`. -/
def size (s : OrderedSet K) : Nat := (toList s).length

end OrderedSet

/-- Modelled from the spec: the sharded accumulator `ConcurrentMap<int, double>`
of `concurrent_map.h`, which is not among the sources.  The spec requires of
its merge "the same totals as fully sequential accumulation"; the accumulator is
taken as one ordinary map from document id to relevance. -/
abbrev ConcurrentMap (R : Type) := OrderedMap Int R

/-- Modelled from the spec: `operator[]` of the missing `ConcurrentMap`
followed by `ref_to_value += x`; an absent key starts from `0`. -/
def ConcurrentMap.add {R : Type} [LinearOrderedField R] (m : ConcurrentMap R) (key : Int)
    (x : R) : ConcurrentMap R :=
  OrderedMap.insert m key ((OrderedMap.find? m key).getD 0 + x)

/-- Modelled from the spec: `BuildOrdinaryMap` of the missing `ConcurrentMap`,
the merge of the shards into one ordinary map. -/
def ConcurrentMap.BuildOrdinaryMap {R : Type} (m : ConcurrentMap R) : OrderedMap Int R := m

/-! ## `std::sort` and `std::unique`

`std::sort` is modelled by its implementation in the GNU C++ library
(`std::__sort` of `bits/stl_algo.h` and the heap functions of
`bits/stl_heap.h`): an introsort loop over the ranges of more than 16
elements, followed by an insertion sort over the whole range.  The array
`[first, last)` is a list, an iterator `first + i` is the index `i`.  The
model follows the library also where the comparator is not a strict weak
ordering; an index that would leave the array reads nothing and stops the
loop. -/

/-- Translation of `std::iter_swap(first + i, first + j)`. -/
def iter_swap {α : Type} (a : List α) (i j : Nat) : List α :=
  match a[i]?, a[j]? with
  | some x, some y => (a.set i y).set j x
  | _, _ => a

/-- The test `comp(first + i, first + j)`; false when an index is outside the
array. -/
def compAt {α : Type} (comp : α → α → Bool) (a : List α) (i j : Nat) : Bool :=
  match a[i]?, a[j]? with
  | some x, some y => comp x y
  | _, _ => false

/-- The assignment `*(first + i) = std::move(*(first + j))`. -/
def moveTo {α : Type} (a : List α) (i j : Nat) : List α :=
  match a[j]? with
  | some y => a.set i y
  | none => a

/-- Translation of `std::__unguarded_linear_insert`: `val` walks toward the
front past every element it goes before.  The sorted range is given in reverse,
the element next to `val` first. -/
def unguarded_linear_insert {α : Type} (comp : α → α → Bool) (val : α) : List α → List α
  | [] => [val]
  | next :: rest =>
    if comp val next then next :: unguarded_linear_insert comp val rest else val :: next :: rest

/-- The loop of `std::__insertion_sort` over the elements after the first; the
sorted range is kept in reverse, so `*first` is its last element: an element
that goes before `*first` is moved to the front, any other is inserted by
`__unguarded_linear_insert`. -/
def insertion_sort_loop {α : Type} (comp : α → α → Bool) : List α → List α → List α
  | [], sorted => sorted
  | val :: rest, sorted =>
    match sorted.getLast? with
    | some first =>
      if comp val first then insertion_sort_loop comp rest (sorted ++ [val])
      else insertion_sort_loop comp rest (unguarded_linear_insert comp val sorted)
    | none => insertion_sort_loop comp rest [val]

/-- Translation of `std::__insertion_sort`. -/
def insertion_sort {α : Type} (comp : α → α → Bool) : List α → List α
  | [] => []
  | x :: rest => (insertion_sort_loop comp rest [x]).reverse

/-- Translation of `std::__unguarded_insertion_sort`: every element of the
first list is inserted into the sorted range, given in reverse. -/
def unguarded_insertion_sort {α : Type} (comp : α → α → Bool) : List α → List α → List α
  | [], sorted => sorted
  | val :: rest, sorted =>
    unguarded_insertion_sort comp rest (unguarded_linear_insert comp val sorted)

/-- The constant `_S_threshold`. -/
def S_threshold : Nat := 16

/-- Translation of `std::__final_insertion_sort`. -/
def final_insertion_sort {α : Type} (comp : α → α → Bool) (a : List α) : List α :=
  if a.length > S_threshold then
    (unguarded_insertion_sort comp (a.drop S_threshold)
      (insertion_sort comp (a.take S_threshold)).reverse).reverse
  else insertion_sort comp a

/-- Translation of `std::__move_median_to_first(result, a, b, c, comp)`. -/
def move_median_to_first {α : Type} (comp : α → α → Bool) (arr : List α)
    (result a b c : Nat) : List α :=
  if compAt comp arr a b then
    if compAt comp arr b c then iter_swap arr result b
    else if compAt comp arr a c then iter_swap arr result c
    else iter_swap arr result a
  else if compAt comp arr a c then iter_swap arr result a
  else if compAt comp arr b c then iter_swap arr result c
  else iter_swap arr result b

/-- The loop `while (comp(first, pivot)) ++first;` of
`std::__unguarded_partition`: the index it stops at. -/
def scanUp {α : Type} (comp : α → α → Bool) (a : List α) (pivot first : Nat) : Nat :=
  if compAt comp a first pivot = true ∧ first < a.length then
    scanUp comp a pivot (first + 1)
  else first
termination_by a.length - first
decreasing_by omega

/-- The loop `while (comp(pivot, last)) --last;` of
`std::__unguarded_partition`: the index it stops at. -/
def scanDown {α : Type} (comp : α → α → Bool) (a : List α) (pivot last : Nat) : Nat :=
  if compAt comp a pivot last = true ∧ 0 < last then scanDown comp a pivot (last - 1) else last
termination_by last
decreasing_by omega

/-- Translation of `std::__unguarded_partition(first, last, pivot, comp)`: the
array it leaves and the index it returns. -/
def unguarded_partition {α : Type} (comp : α → α → Bool) (a : List α)
    (first last pivot : Nat) : List α × Nat :=
  if h : scanUp comp a pivot first < scanDown comp a pivot (last - 1) then
    unguarded_partition comp
      (iter_swap a (scanUp comp a pivot first) (scanDown comp a pivot (last - 1)))
      (scanUp comp a pivot first + 1) (scanDown comp a pivot (last - 1)) pivot
  else (a, scanUp comp a pivot first)
termination_by last
decreasing_by
  have hle : ∀ l, scanDown comp a pivot l ≤ l := by
    intro l
    induction l using Nat.strong_induction_on with
    | _ n ih =>
      rw [scanDown]
      split
      · have := ih (n - 1) (by omega)
        omega
      · exact Nat.le_refl _
  have := hle (last - 1)
  omega

/-- Translation of `std::__unguarded_partition_pivot`. -/
def unguarded_partition_pivot {α : Type} (comp : α → α → Bool) (a : List α)
    (first last : Nat) : List α × Nat :=
  let mid := first + (last - first) / 2
  unguarded_partition comp (move_median_to_first comp a first (first + 1) mid (last - 1))
    (first + 1) last first

/-- Translation of `std::__push_heap(first, holeIndex, topIndex, value, comp)`. -/
def push_heap {α : Type} (comp : α → α → Bool) (a : List α) (first holeIndex topIndex : Nat)
    (value : α) : List α :=
  if holeIndex > topIndex ∧
      (match a[first + (holeIndex - 1) / 2]? with
        | some x => comp x value
        | none => false) = true then
    push_heap comp (moveTo a (first + holeIndex) (first + (holeIndex - 1) / 2)) first
      ((holeIndex - 1) / 2) topIndex value
  else a.set (first + holeIndex) value
termination_by holeIndex
decreasing_by omega

/-- The child the hole moves to in the first loop of `std::__adjust_heap`: the
second child `2 * (secondChild + 1)`, or the child before it when the second
goes before that one. -/
def heapChild {α : Type} (comp : α → α → Bool) (a : List α) (first secondChild : Nat) : Nat :=
  if compAt comp a (first + 2 * (secondChild + 1)) (first + (2 * (secondChild + 1) - 1)) then
    2 * (secondChild + 1) - 1
  else 2 * (secondChild + 1)

/-- The first loop of `std::__adjust_heap`: the array, `holeIndex` and
`secondChild` it ends with. -/
def adjust_heap_loop {α : Type} (comp : α → α → Bool) (a : List α) (first len : Nat)
    (holeIndex secondChild : Nat) : List α × Nat × Nat :=
  if secondChild < (len - 1) / 2 then
    adjust_heap_loop comp
      (moveTo a (first + holeIndex) (first + heapChild comp a first secondChild))
      first len (heapChild comp a first secondChild) (heapChild comp a first secondChild)
  else (a, holeIndex, secondChild)
termination_by len - secondChild
decreasing_by
  unfold heapChild
  split <;> omega

/-- Translation of `std::__adjust_heap(first, holeIndex, len, value, comp)`. -/
def adjust_heap {α : Type} (comp : α → α → Bool) (a : List α) (first holeIndex len : Nat)
    (value : α) : List α :=
  let r := adjust_heap_loop comp a first len holeIndex holeIndex
  if len % 2 = 0 ∧ r.2.2 = (len - 2) / 2 then
    push_heap comp (moveTo r.1 (first + r.2.1) (first + (2 * (r.2.2 + 1) - 1))) first
      (2 * (r.2.2 + 1) - 1) holeIndex value
  else push_heap comp r.1 first r.2.1 holeIndex value

/-- Translation of `std::__pop_heap(first, last, result, comp)`. -/
def pop_heap {α : Type} (comp : α → α → Bool) (a : List α) (first last result : Nat) : List α :=
  match a[result]? with
  | some value => adjust_heap comp (moveTo a result first) first 0 (last - first) value
  | none => a

/-- The loop of `std::__make_heap`, from `parent` down to `0`. -/
def make_heap_loop {α : Type} (comp : α → α → Bool) (first len : Nat) : Nat → List α → List α
  | 0, a =>
    match a[first]? with
    | some value => adjust_heap comp a first 0 len value
    | none => a
  | parent + 1, a =>
    match a[first + (parent + 1)]? with
    | some value =>
      make_heap_loop comp first len parent (adjust_heap comp a first (parent + 1) len value)
    | none => a

/-- Translation of `std::__make_heap(first, last, comp)`. -/
def make_heap {α : Type} (comp : α → α → Bool) (a : List α) (first last : Nat) : List α :=
  if last - first < 2 then a
  else make_heap_loop comp first (last - first) ((last - first - 2) / 2) a

/-- The loop of `std::__heap_select` over `[i, last)`, `n` elements. -/
def heap_select_loop {α : Type} (comp : α → α → Bool) (first middle : Nat) :
    Nat → Nat → List α → List α
  | 0, _, a => a
  | n + 1, i, a =>
    heap_select_loop comp first middle n (i + 1)
      (if compAt comp a i first then pop_heap comp a first middle i else a)

/-- Translation of `std::__heap_select(first, middle, last, comp)`. -/
def heap_select {α : Type} (comp : α → α → Bool) (a : List α) (first middle last : Nat) :
    List α :=
  heap_select_loop comp first middle (last - middle) middle (make_heap comp a first middle)

/-- Translation of `std::__sort_heap(first, last, comp)`. -/
def sort_heap {α : Type} (comp : α → α → Bool) (a : List α) (first last : Nat) : List α :=
  if last - first > 1 then
    sort_heap comp (pop_heap comp a first (last - 1) (last - 1)) first (last - 1)
  else a
termination_by last - first
decreasing_by omega

/-- Translation of `std::__partial_sort(first, middle, last, comp)`. -/
def partial_sort {α : Type} (comp : α → α → Bool) (a : List α) (first middle last : Nat) :
    List α :=
  sort_heap comp (heap_select comp a first middle last) first middle

/-- Translation of `std::__introsort_loop(first, last, depth_limit, comp)`; every
pass of its loop decrements `depth_limit`. -/
def introsort_loop {α : Type} (comp : α → α → Bool) : Nat → List α → Nat → Nat → List α
  | 0, a, first, last =>
    if last - first > S_threshold then partial_sort comp a first last last else a
  | depth_limit + 1, a, first, last =>
    if last - first > S_threshold then
      introsort_loop comp depth_limit
        (introsort_loop comp depth_limit (unguarded_partition_pivot comp a first last).1
          (unguarded_partition_pivot comp a first last).2 last)
        first (unguarded_partition_pivot comp a first last).2
    else a

/-- Halving `n` while it is at least `2`, at most `k` times: the number of
halvings. -/
def lgLoop : Nat → Nat → Nat
  | 0, _ => 0
  | k + 1, n => if n ≥ 2 then lgLoop k (n / 2) + 1 else 0

/-- Translation of `std::__lg`: the position of the highest set bit of `n`
(`n` halvings are more than `n` admits). -/
def lg (n : Nat) : Nat := lgLoop n n

/-- Model of `std::sort(first, last, comp)`, with the strict comparator `comp`
(`comp a b` reads "`a` goes before `b`"): translation of `std::__sort`. -/
def sort {α : Type} (comp : α → α → Bool) (a : List α) : List α :=
  if a.isEmpty then a
  else final_insertion_sort comp (introsort_loop comp (lg a.length * 2) a 0 a.length)

/-- The loop of `std::unique`: `prev` is the last element kept. -/
def uniqueLoop {α : Type} [DecidableEq α] (prev : α) : List α → List α
  | [] => []
  | y :: rest => if prev = y then uniqueLoop prev rest else y :: uniqueLoop y rest

/-- Model of `std::unique` followed by `erase`: of every run of equal
consecutive elements the first is kept. -/
def unique {α : Type} [DecidableEq α] : List α → List α
  | [] => []
  | x :: rest => x :: uniqueLoop x rest

/-! ## Documents -/

/-- Translation of `enum class DocumentStatus`. -/
inductive DocumentStatus where
  | ACTUAL
  | IRRELEVANT
  | BANNED
  | REMOVED
  deriving DecidableEq, Repr

/-- The exceptions the server throws. -/
inductive Error where
  | invalid_argument
  | out_of_range
  deriving DecidableEq, Repr

/-- Translation of `struct Document`. -/
structure Document (R : Type) where
  id : Int
  relevance : R
  rating : Int
  deriving DecidableEq, Repr

/-- Translation of `SearchServer::DocumentData`. -/
structure DocumentData where
  rating : Int
  status : DocumentStatus
  deriving DecidableEq, Repr

/-- Translation of `MAX_RESULT_DOCUMENT_COUNT`. -/
def MAX_RESULT_DOCUMENT_COUNT : Nat := 5

/-! ## Tokenizer -/

/-- The loop of `SplitIntoWords`: `word` is the word being built; a space
closes it, any other character is appended to it.  The body of the
`string_view` overload declared in `string_processing.h` is not among the
sources; this is the `SplitIntoWords` of `main.cpp`. -/
def SplitIntoWordsLoop : List Char → Str → List Str
  | [], word => if word.isEmpty then [] else [word]
  | c :: rest, word =>
    if c = ' ' then
      if word.isEmpty then SplitIntoWordsLoop rest []
      else word :: SplitIntoWordsLoop rest []
    else SplitIntoWordsLoop rest (word ++ [c])

/-- Translation of `SplitIntoWords`: the maximal runs of characters other than
the space, in order. -/
def SplitIntoWords (text : Str) : List Str := SplitIntoWordsLoop text []

/-- Translation of `SearchServer::IsValidWord`: no character `c` with
`c >= '\0' && c < ' '`. -/
def IsValidWord (word : Str) : Bool :=
  word.all (fun c => !(decide (0 ≤ c.toNat) && decide (c.toNat < 32)))

/-- Translation of `MakeUniqueNonEmptyStrings`. -/
def MakeUniqueNonEmptyStrings (strings : List Str) : OrderedSet Str :=
  strings.foldl (fun acc sv => if sv ≠ [] then acc.insert sv else acc) OrderedSet.empty

/-- Wrap an integer into the range of a 32-bit `int`. -/
def toInt32 (x : Int) : Int := (x + 2147483648) % 4294967296 - 2147483648

/-- Translation of `SearchServer::ComputeAverageRating`: the sum is an `int`
(wrapping), the quotient truncates toward zero. -/
def ComputeAverageRating (ratings : List Int) : Int :=
  if ratings.isEmpty then 0
  else Int.tdiv (ratings.foldl (fun rating_sum rating => toInt32 (rating_sum + rating)) 0)
    (toInt32 ratings.length)

/-! ## The server state -/

/-- The data members of `class SearchServer`. -/
structure SearchServer (R : Type) where
  stop_words_ : OrderedSet Str
  word_to_document_freqs_ : OrderedMap Str (OrderedMap Int R)
  documents_ : OrderedMap Int DocumentData
  document_ids_ : OrderedSet Int
  document_to_word_freqs_ : OrderedMap Int (OrderedMap Str R)

/-- The result of a mutating member function: the state the server is left in
and the exception thrown, if any. -/
structure Outcome (R : Type) where
  state : SearchServer R
  error : Option Error

/-- Translation of `struct QueryWord`. -/
structure QueryWord where
  data : Str
  is_minus : Bool
  is_stop : Bool
  deriving DecidableEq, Repr

/-- Translation of `struct Query`. -/
structure Query where
  plus_words : List Str
  minus_words : List Str
  deriving DecidableEq, Repr

namespace SearchServer

variable {R : Type} [LinearOrderedField R]

/-- Translation of `EPSILON = 1e-6`. -/
def EPSILON : R := 1 / 1000000

/-- Translation of the constructor from a container of stop words. -/
def create (stop_words : List Str) : Except Error (SearchServer R) :=
  let stop_words_ := MakeUniqueNonEmptyStrings stop_words
  if stop_words_.toList.all IsValidWord then
    .ok ⟨stop_words_, OrderedMap.empty, OrderedMap.empty, OrderedSet.empty, OrderedMap.empty⟩
  else .error .invalid_argument

/-- Translation of the constructor from a text of stop words. -/
def createFromText (stop_words_text : Str) : Except Error (SearchServer R) :=
  create (SplitIntoWords stop_words_text)

/-- Translation of `IsStopWord`. -/
def IsStopWord (s : SearchServer R) (word : Str) : Bool := s.stop_words_.contains word

/-- The loop of `SplitIntoWordsNoStop` over the words of the text. -/
def SplitIntoWordsNoStopLoop (s : SearchServer R) : List Str → Except Error (List Str)
  | [] => .ok []
  | word :: rest =>
    if !IsValidWord word then .error .invalid_argument
    else
      match SplitIntoWordsNoStopLoop s rest with
      | .error e => .error e
      | .ok words => if !s.IsStopWord word then .ok (word :: words) else .ok words

/-- Translation of `SplitIntoWordsNoStop`. -/
def SplitIntoWordsNoStop (s : SearchServer R) (text : Str) : Except Error (List Str) :=
  SplitIntoWordsNoStopLoop s (SplitIntoWords text)

/-- Translation of `GetDocumentCount`. -/
def GetDocumentCount (s : SearchServer R) : Nat := s.documents_.size

/-- Translation of `GetWordFrequencies`. -/
def GetWordFrequencies (s : SearchServer R) (document_id : Int) : OrderedMap Str R :=
  if s.document_to_word_freqs_.count document_id then
    (s.document_to_word_freqs_.find? document_id).getD OrderedMap.empty
  else OrderedMap.empty

/-- One pass of the loop of `AddDocument`, in exact arithmetic:
`word_to_document_freqs_[word][document_id] += inv_word_count` and
`document_to_word_freqs_[document_id][word] += inv_word_count`.  The rounding of
`double` is in `addWordFl`. -/
def addWord (document_id : Int) (inv_word_count : R) (s : SearchServer R) (word : Str) :
    SearchServer R :=
  let postings := (s.word_to_document_freqs_.find? word).getD OrderedMap.empty
  let row := (s.document_to_word_freqs_.find? document_id).getD OrderedMap.empty
  { s with
    word_to_document_freqs_ := s.word_to_document_freqs_.insert word
      (postings.insert document_id ((postings.find? document_id).getD 0 + inv_word_count))
    document_to_word_freqs_ := s.document_to_word_freqs_.insert document_id
      (row.insert word ((row.find? word).getD 0 + inv_word_count)) }

/-- Translation of `SearchServer::AddDocument`, in exact arithmetic (the
rounding of `double` is in `AddDocumentFl`). -/
def AddDocument (s : SearchServer R) (document_id : Int) (document : Str)
    (status : DocumentStatus) (ratings : List Int) : Outcome R :=
  if !IsValidWord document then ⟨s, some .invalid_argument⟩
  else if document_id < 0 ∨ s.documents_.count document_id = true then
    ⟨s, some .invalid_argument⟩
  else
    match s.SplitIntoWordsNoStop document with
    | .error e => ⟨s, some e⟩
    | .ok words =>
      let inv_word_count : R := 1 / (words.length : R)
      let s1 := words.foldl (addWord document_id inv_word_count) s
      ⟨{ s1 with
          documents_ := s1.documents_.emplace document_id ⟨ComputeAverageRating ratings, status⟩
          document_ids_ := s1.document_ids_.insert document_id }, none⟩

/-- One pass of the loop of `AddDocument` in rounded arithmetic.  The function
`fl` is the rounding a floating-point operation ends with (for `double`, to
the nearest binary64 number), so `x += inv_word_count` stores
`fl (x + inv_word_count)`; `addWord` is the case of exact arithmetic,
`fl x = x`. -/
def addWordFl (fl : R → R) (document_id : Int) (inv_word_count : R) (s : SearchServer R)
    (word : Str) : SearchServer R :=
  let postings := (s.word_to_document_freqs_.find? word).getD OrderedMap.empty
  let row := (s.document_to_word_freqs_.find? document_id).getD OrderedMap.empty
  { s with
    word_to_document_freqs_ := s.word_to_document_freqs_.insert word
      (postings.insert document_id (fl ((postings.find? document_id).getD 0 + inv_word_count)))
    document_to_word_freqs_ := s.document_to_word_freqs_.insert document_id
      (row.insert word (fl ((row.find? word).getD 0 + inv_word_count))) }

/-- Translation of `SearchServer::AddDocument` in arithmetic rounded by `fl`:
`inv_word_count` is the rounded quotient `1.0 / words.size()`.  `AddDocument` is
the case of exact arithmetic, `fl x = x`. -/
def AddDocumentFl (fl : R → R) (s : SearchServer R) (document_id : Int) (document : Str)
    (status : DocumentStatus) (ratings : List Int) : Outcome R :=
  if !IsValidWord document then ⟨s, some .invalid_argument⟩
  else if document_id < 0 ∨ s.documents_.count document_id = true then
    ⟨s, some .invalid_argument⟩
  else
    match s.SplitIntoWordsNoStop document with
    | .error e => ⟨s, some e⟩
    | .ok words =>
      let inv_word_count : R := fl (1 / (words.length : R))
      let s1 := words.foldl (addWordFl fl document_id inv_word_count) s
      ⟨{ s1 with
          documents_ := s1.documents_.emplace document_id ⟨ComputeAverageRating ratings, status⟩
          document_ids_ := s1.document_ids_.insert document_id }, none⟩

/-- The loop of `RemoveDocument` over the words of the forward-index row:
`word_to_document_freqs_.at(word).erase(document_id)`. -/
def erasePostingsOf (document_id : Int) : List Str → SearchServer R → Outcome R
  | [], s => ⟨s, none⟩
  | word :: rest, s =>
    match s.word_to_document_freqs_.find? word with
    | none => ⟨s, some .out_of_range⟩
    | some postings =>
      erasePostingsOf document_id rest
        { s with word_to_document_freqs_ :=
            s.word_to_document_freqs_.insert word (postings.erase document_id) }

/-- Translation of `RemoveDocument(int)` (and of the `sequenced_policy`
overload, which calls it). -/
def RemoveDocument (s : SearchServer R) (document_id : Int) : Outcome R :=
  match s.document_to_word_freqs_.find? document_id with
  | none => ⟨s, some .out_of_range⟩
  | some row =>
    let r := erasePostingsOf document_id (row.toList.map Prod.fst) s
    match r.error with
    | some e => ⟨r.state, some e⟩
    | none =>
      ⟨{ r.state with
          document_to_word_freqs_ := r.state.document_to_word_freqs_.erase document_id
          document_ids_ := r.state.document_ids_.erase document_id
          documents_ := r.state.documents_.erase document_id }, none⟩

/-- Translation of `RemoveDocument(parallel_policy, int)`; the erasures of the
`for_each` touch different terms and are taken in the order of the row. -/
def RemoveDocumentPar (s : SearchServer R) (document_id : Int) : Outcome R :=
  if !s.document_to_word_freqs_.count document_id then ⟨s, none⟩
  else
    match s.document_to_word_freqs_.find? document_id with
    | none => ⟨s, some .out_of_range⟩
    | some row =>
      let r := erasePostingsOf document_id (row.toList.map Prod.fst) s
      match r.error with
      | some e => ⟨r.state, some e⟩
      | none =>
        ⟨{ r.state with
            document_ids_ := r.state.document_ids_.erase document_id
            documents_ := r.state.documents_.erase document_id }, none⟩

/-- Translation of `ParseQueryWord`. -/
def ParseQueryWord (s : SearchServer R) (text : Str) : Except Error QueryWord :=
  if text.isEmpty then .error .invalid_argument
  else
    let is_minus : Bool := decide (text.head? = some '-')
    let word : Str := if is_minus then text.drop 1 else text
    if word.isEmpty || decide (word.head? = some '-') || !IsValidWord word then
      .error .invalid_argument
    else .ok ⟨word, is_minus, s.IsStopWord word⟩

/-- The loop of `ParseQuery` over the words of the query text. -/
def ParseQueryLoop (s : SearchServer R) : List Str → Query → Except Error Query
  | [], result => .ok result
  | word :: rest, result =>
    match s.ParseQueryWord word with
    | .error e => .error e
    | .ok query_word =>
      if !query_word.is_stop then
        if query_word.is_minus then
          ParseQueryLoop s rest { result with minus_words := result.minus_words ++ [query_word.data] }
        else
          ParseQueryLoop s rest { result with plus_words := result.plus_words ++ [query_word.data] }
      else ParseQueryLoop s rest result

/-- Translation of `ParseQuery(text, sort_flag)`. -/
def ParseQuery (s : SearchServer R) (text : Str) (sort_flag : Bool) : Except Error Query :=
  match s.ParseQueryLoop (SplitIntoWords text) ⟨[], []⟩ with
  | .error e => .error e
  | .ok result =>
    if sort_flag then
      .ok ⟨unique (sort (fun a b => decide (a < b)) result.plus_words),
           unique (sort (fun a b => decide (a < b)) result.minus_words)⟩
    else .ok result

/-- Translation of `ComputeWordInverseDocumentFreq`:
`log(GetDocumentCount() * 1.0 / word_to_document_freqs_.at(word).size())`. -/
def ComputeWordInverseDocumentFreq (s : SearchServer R) (ln : R → R) (word : Str) :
    Except Error R :=
  match s.word_to_document_freqs_.find? word with
  | none => .error .out_of_range
  | some postings => .ok (ln ((s.GetDocumentCount : R) * 1 / (postings.size : R)))

/-- The inner loop of the plus-word phase of `FindAllDocuments`, over the
postings of one word:
`document_to_relevance_par[document_id].ref_to_value += term_freq * idf`
for the documents the predicate accepts. -/
def accumulatePostings (s : SearchServer R) (document_predicate : Int → DocumentStatus → Int → Bool)
    (inverse_document_freq : R) : List (Int × R) → ConcurrentMap R → Except Error (ConcurrentMap R)
  | [], acc => .ok acc
  | (document_id, term_freq) :: rest, acc =>
    match s.documents_.find? document_id with
    | none => .error .out_of_range
    | some document =>
      if document_predicate document_id document.status document.rating then
        accumulatePostings s document_predicate inverse_document_freq rest
          (acc.add document_id (term_freq * inverse_document_freq))
      else accumulatePostings s document_predicate inverse_document_freq rest acc

/-- The plus-word phase of `FindAllDocuments`: the `for_each` over
`query.plus_words`, taken in the order of the list. -/
def accumulatePlusWords (s : SearchServer R) (ln : R → R)
    (document_predicate : Int → DocumentStatus → Int → Bool) :
    List Str → ConcurrentMap R → Except Error (ConcurrentMap R)
  | [], acc => .ok acc
  | word :: rest, acc =>
    if s.word_to_document_freqs_.count word then
      match s.ComputeWordInverseDocumentFreq ln word with
      | .error e => .error e
      | .ok inverse_document_freq =>
        match s.word_to_document_freqs_.find? word with
        | none => .error .out_of_range
        | some postings =>
          match accumulatePostings s document_predicate inverse_document_freq postings.toList acc with
          | .error e => .error e
          | .ok acc1 => accumulatePlusWords s ln document_predicate rest acc1
    else accumulatePlusWords s ln document_predicate rest acc

/-- The inner loop of the minus-word phase: erase the documents of the
postings of one word from `document_to_relevance`. -/
def erasePostings : List (Int × R) → OrderedMap Int R → OrderedMap Int R
  | [], acc => acc
  | (document_id, _) :: rest, acc =>
    erasePostings rest (if acc.count document_id then acc.erase document_id else acc)

/-- The minus-word phase of `FindAllDocuments`. -/
def excludeMinusWords (s : SearchServer R) : List Str → OrderedMap Int R → Except Error (OrderedMap Int R)
  | [], acc => .ok acc
  | word :: rest, acc =>
    if s.word_to_document_freqs_.count word then
      match s.word_to_document_freqs_.find? word with
      | none => .error .out_of_range
      | some postings => excludeMinusWords s rest (erasePostings postings.toList acc)
    else excludeMinusWords s rest acc

/-- The last loop of `FindAllDocuments`: one `Document` per entry of
`document_to_relevance`, with the rating of `documents_.at(document_id)`. -/
def collectDocuments (s : SearchServer R) : List (Int × R) → Except Error (List (Document R))
  | [] => .ok []
  | (document_id, relevance) :: rest =>
    match s.documents_.find? document_id with
    | none => .error .out_of_range
    | some data =>
      match collectDocuments s rest with
      | .error e => .error e
      | .ok docs => .ok (⟨document_id, relevance, data.rating⟩ :: docs)

/-- Translation of `FindAllDocuments`. -/
def FindAllDocuments (s : SearchServer R) (ln : R → R) (query : Query)
    (document_predicate : Int → DocumentStatus → Int → Bool) : Except Error (List (Document R)) :=
  match accumulatePlusWords s ln document_predicate query.plus_words OrderedMap.empty with
  | .error e => .error e
  | .ok document_to_relevance_par =>
    match excludeMinusWords s query.minus_words document_to_relevance_par.BuildOrdinaryMap with
    | .error e => .error e
    | .ok document_to_relevance => collectDocuments s document_to_relevance.toList

/-- The comparator of the `std::sort` call in `FindTopDocuments`. -/
def compareDocuments (lhs rhs : Document R) : Bool :=
  if |lhs.relevance - rhs.relevance| < EPSILON then decide (lhs.rating > rhs.rating)
  else decide (lhs.relevance > rhs.relevance)

/-- Translation of `FindTopDocuments(policy, raw_query, document_predicate)`. -/
def FindTopDocuments (s : SearchServer R) (ln : R → R) (raw_query : Str)
    (document_predicate : Int → DocumentStatus → Int → Bool) : Except Error (List (Document R)) :=
  match s.ParseQuery raw_query true with
  | .error e => .error e
  | .ok query =>
    match s.FindAllDocuments ln query document_predicate with
    | .error e => .error e
    | .ok matched_documents =>
      let sorted := sort compareDocuments matched_documents
      if sorted.length > MAX_RESULT_DOCUMENT_COUNT then .ok (sorted.take MAX_RESULT_DOCUMENT_COUNT)
      else .ok sorted

/-- Translation of `FindTopDocuments(raw_query, status)`. -/
def FindTopDocumentsByStatus (s : SearchServer R) (ln : R → R) (raw_query : Str)
    (status : DocumentStatus) : Except Error (List (Document R)) :=
  s.FindTopDocuments ln raw_query (fun _ document_status _ => decide (document_status = status))

/-- Translation of `FindTopDocuments(raw_query)`. -/
def FindTopDocumentsActual (s : SearchServer R) (ln : R → R) (raw_query : Str) :
    Except Error (List (Document R)) :=
  s.FindTopDocumentsByStatus ln raw_query DocumentStatus.ACTUAL

/-- Translation of the lambda `word_checker` of the parallel `MatchDocument`:
the word is in the inverted index and has a posting for the document. -/
def wordChecker (s : SearchServer R) (document_id : Int) (word : Str) : Bool :=
  match s.word_to_document_freqs_.find? word with
  | none => false
  | some postings => postings.count document_id

/-- The loop of the sequential `MatchDocument` over `query.minus_words`; the
result is true when the loop returns early.  A word not in the inverted index
(`count(word) == 0`) is skipped, so the `at(word)` that follows finds it. -/
def matchMinusWords (s : SearchServer R) (document_id : Int) : List Str → Bool
  | [] => false
  | word :: rest =>
    match s.word_to_document_freqs_.find? word with
    | none => matchMinusWords s document_id rest
    | some postings =>
      if postings.count document_id then true else matchMinusWords s document_id rest

/-- The loop of the sequential `MatchDocument` over `query.plus_words`: the
words pushed to `matched_words`, in order. -/
def matchPlusWords (s : SearchServer R) (document_id : Int) : List Str → List Str
  | [] => []
  | word :: rest =>
    match s.word_to_document_freqs_.find? word with
    | none => matchPlusWords s document_id rest
    | some postings =>
      if postings.count document_id then word :: matchPlusWords s document_id rest
      else matchPlusWords s document_id rest

/-- Translation of `MatchDocument(sequenced_policy, raw_query, document_id)`
(and of the overload without a policy, which calls it). -/
def MatchDocument (s : SearchServer R) (raw_query : Str) (document_id : Int) :
    Except Error (List Str × DocumentStatus) :=
  if s.document_ids_.contains document_id = false then .error .out_of_range
  else
    match s.ParseQuery raw_query true with
    | .error e => .error e
    | .ok query =>
      match s.documents_.find? document_id with
      | none => .error .out_of_range
      | some data =>
        if matchMinusWords s document_id query.minus_words then .ok ([], data.status)
        else .ok (matchPlusWords s document_id query.plus_words, data.status)

/-- Translation of `MatchDocument(parallel_policy, raw_query, document_id)`:
`any_of` over the minus-words, then `copy_if`, `sort`, `unique` and `erase`
over the plus-words. -/
def MatchDocumentPar (s : SearchServer R) (raw_query : Str) (document_id : Int) :
    Except Error (List Str × DocumentStatus) :=
  if !s.document_ids_.contains document_id then .error .out_of_range
  else
    match s.ParseQuery raw_query false with
    | .error e => .error e
    | .ok query =>
      match s.documents_.find? document_id with
      | none => .error .out_of_range
      | some data =>
        if query.minus_words.any (wordChecker s document_id) then .ok ([], data.status)
        else
          .ok (unique (sort (fun a b => decide (a < b))
            (query.plus_words.filter (wordChecker s document_id))), data.status)

/-- The set `document_words` of the loop of `RemoveDuplicates`, as the
ascending list of its elements: the words of the row `GetWordFrequencies(id)`. -/
def documentWords (s : SearchServer R) (document_id : Int) : List Str :=
  (((s.GetWordFrequencies document_id).toList.map Prod.fst).foldl
    (fun document_words word => document_words.insert word) OrderedSet.empty).toList

/-- The first loop of `RemoveDuplicates`, over the ids in ascending order:
`documents` holds the word sets seen, `duplicates` the ids whose word set was
seen before. -/
def findDuplicates (s : SearchServer R) : List Int → OrderedSet Int → List (List Str) →
    OrderedSet Int
  | [], duplicates, _ => duplicates
  | document_id :: rest, duplicates, documents =>
    if decide (s.documentWords document_id ∈ documents) then
      findDuplicates s rest (duplicates.insert document_id) documents
    else findDuplicates s rest duplicates (s.documentWords document_id :: documents)

/-- The second loop of `RemoveDuplicates`: `RemoveDocument(id)` for every
duplicate; an exception ends the loop. -/
def removeAll : List Int → SearchServer R → Outcome R
  | [], s => ⟨s, none⟩
  | document_id :: rest, s =>
    match (s.RemoveDocument document_id).error with
    | some e => ⟨(s.RemoveDocument document_id).state, some e⟩
    | none => removeAll rest (s.RemoveDocument document_id).state

/-- Translation of `RemoveDuplicates(search_server)`. -/
def RemoveDuplicates (s : SearchServer R) : Outcome R :=
  removeAll (findDuplicates s s.document_ids_.toList OrderedSet.empty []).toList s

/-! ### Observations on a state, used to state the properties -/

/-- The term frequency the inverted index holds for `(word, document_id)`. -/
def posting (s : SearchServer R) (word : Str) (document_id : Int) : Option R :=
  (s.word_to_document_freqs_.find? word).bind (fun postings => postings.find? document_id)

/-- The term frequency the forward index holds for `(document_id, word)`. -/
def rowEntry (s : SearchServer R) (document_id : Int) (word : Str) : Option R :=
  (s.document_to_word_freqs_.find? document_id).bind (fun row => row.find? word)

/-- The number of postings of `word` (its document frequency). -/
def documentFrequency (s : SearchServer R) (word : Str) : Nat :=
  ((s.word_to_document_freqs_.find? word).map (fun postings => postings.size)).getD 0

/-- The indexable tokens of a text: its words that are not stop words, in
order, with repetitions. -/
def indexableWords (s : SearchServer R) (text : Str) : List Str :=
  (SplitIntoWords text).filter (fun w => !s.IsStopWord w)

/-- The representation invariant of the server. -/
structure WellFormed (s : SearchServer R) : Prop where
  ids_documents : ∀ d, s.documents_.count d = s.document_ids_.contains d
  posting_live : ∀ w d tf, s.posting w d = some tf → s.documents_.count d = true
  posting_row : ∀ w d tf, s.posting w d = some tf → ∃ tf1, s.rowEntry d w = some tf1
  no_stop_key : ∀ w, s.word_to_document_freqs_.count w = true → s.IsStopWord w = false
  no_stop_row : ∀ d w tf, s.rowEntry d w = some tf → s.IsStopWord w = false
  row_term : ∀ d w tf, s.rowEntry d w = some tf → s.word_to_document_freqs_.count w = true

/-- A query word stripped of one leading `-`. -/
def stripMinus (w : Str) : Str := if w.head? = some '-' then w.drop 1 else w

/-- A malformed query word: stripped of one leading `-` it is empty, or starts
with `-`, or contains a character with code below 0x20. -/
def malformedTerm (w : Str) : Prop :=
  stripMinus w = [] ∨ (stripMinus w).head? = some '-' ∨ ∃ c ∈ stripMinus w, c.toNat < 0x20

/-- The plus-terms among a list of query words: the words without a leading
`-` that are not stop words. -/
def plusTermsOf (s : SearchServer R) (words : List Str) : List Str :=
  words.filter (fun w => !decide (w.head? = some '-') && !s.IsStopWord w)

/-- The minus-terms among a list of query words: the words with a leading `-`,
stripped of it, that are not stop words. -/
def minusTermsOf (s : SearchServer R) (words : List Str) : List Str :=
  ((words.filter (fun w => decide (w.head? = some '-'))).map (fun w => w.drop 1)).filter
    (fun w => !s.IsStopWord w)

/-- The plus-terms of a query text, with repetitions, in the order of the text. -/
def plusTerms (s : SearchServer R) (raw_query : Str) : List Str :=
  s.plusTermsOf (SplitIntoWords raw_query)

/-- The minus-terms of a query text, with repetitions, in the order of the text. -/
def minusTerms (s : SearchServer R) (raw_query : Str) : List Str :=
  s.minusTermsOf (SplitIntoWords raw_query)

/-- The term frequency `tf(t, d)`: the value of the posting of `t` for `d`. -/
def termFrequency (s : SearchServer R) (t : Str) (d : Int) : R := (s.posting t d).getD 0

/-- The inverse document frequency `idf(t) = ln(N / df(t))`, with `N` the
document count and `df(t)` the number of postings of `t`. -/
def inverseDocumentFrequency (s : SearchServer R) (ln : R → R) (t : Str) : R :=
  ln ((s.GetDocumentCount : R) / (s.documentFrequency t : R))

/-- The TF-IDF relevance of document `d` for a query text: the sum, over the
distinct plus-terms of the query that have a posting for `d`, of
`tf(t, d) * idf(t)`. -/
def relevanceOf (s : SearchServer R) (ln : R → R) (raw_query : Str) (d : Int) : R :=
  ((((s.plusTerms raw_query).dedup).filter (fun t => (s.posting t d).isSome)).map
    (fun t => s.termFrequency t d * s.inverseDocumentFrequency ln t)).sum

/-- The document predicate on the stored status and rating of `d`; false for
an id without metadata. -/
def accepts (s : SearchServer R) (document_predicate : Int → DocumentStatus → Int → Bool)
    (d : Int) : Bool :=
  match s.documents_.find? d with
  | some data => document_predicate d data.status data.rating
  | none => false

/-- What one plus-term adds to the relevance of `d`, if anything. -/
def termScore (s : SearchServer R) (ln : R → R)
    (document_predicate : Int → DocumentStatus → Int → Bool) (t : Str) (d : Int) : Option R :=
  if s.accepts document_predicate d then
    (s.posting t d).map (fun tf => tf * s.inverseDocumentFrequency ln t)
  else none

/-- The effect of `m[k] += x` on the entry of the key, when something is added. -/
def bump (o : Option R) (c : Option R) : Option R :=
  match c with
  | none => o
  | some x => some (o.getD 0 + x)

/-- The rating stored for a document (0 for an id without metadata). -/
def ratingOf (s : SearchServer R) (d : Int) : Int :=
  ((s.documents_.find? d).map (fun data => data.rating)).getD 0

/-- The entry of `d` in the candidate map `document_to_relevance` after both
phases of `FindAllDocuments`: none when a minus-word has a posting for `d`,
else the accumulated plus-word score, if any. -/
def score (s : SearchServer R) (ln : R → R)
    (document_predicate : Int → DocumentStatus → Int → Bool) (query : Query) (d : Int) :
    Option R :=
  if query.minus_words.any (fun t => (s.posting t d).isSome) then none
  else query.plus_words.foldl (fun o t => bump o (s.termScore ln document_predicate t d)) none

/-- The id is in the live-id set `document_ids_`. -/
def isLive (s : SearchServer R) (document_id : Int) : Bool := s.document_ids_.contains document_id

/-- The document qualifies for a parsed query under a predicate: it is live,
the predicate accepts its stored status and rating, some plus-word has a
posting for it and no minus-word has one. -/
def qualifies (s : SearchServer R) (document_predicate : Int → DocumentStatus → Int → Bool)
    (query : Query) (d : Int) : Bool :=
  s.isLive d && s.accepts document_predicate d &&
    query.plus_words.any (fun t => (s.posting t d).isSome) &&
    !query.minus_words.any (fun t => (s.posting t d).isSome)

end SearchServer

/-! ## Call histories -/

/-- A call of a mutating member function. -/
inductive Op where
  | add (document_id : Int) (document : Str) (status : DocumentStatus) (ratings : List Int)
  | remove (document_id : Int)
  | removePar (document_id : Int)

/-- The call is an `AddDocument` with the given id. -/
def Op.adds (document_id : Int) : Op → Bool
  | .add d _ _ _ => decide (d = document_id)
  | _ => false

/-- The call is an `AddDocument`. -/
def Op.isAdd : Op → Bool
  | .add _ _ _ _ => true
  | _ => false

/-- The call is a `RemoveDocument` with the parallel strategy. -/
def Op.isRemovePar : Op → Bool
  | .removePar _ => true
  | _ => false

/-- The effect of a call. -/
def applyOp {R : Type} [LinearOrderedField R] (s : SearchServer R) : Op → Outcome R
  | .add document_id document status ratings => s.AddDocument document_id document status ratings
  | .remove document_id => s.RemoveDocument document_id
  | .removePar document_id => s.RemoveDocumentPar document_id

/-- The sentence `History ops s` says that `s` is the state of a server after
construction and the successful calls `ops` (the latest first).  A call that
throws is not recorded. -/
inductive History {R : Type} [LinearOrderedField R] : List Op → SearchServer R → Prop
  | create (stop_words : List Str) (s : SearchServer R) :
      SearchServer.create stop_words = .ok s → History [] s
  | call (ops : List Op) (s : SearchServer R) (op : Op) :
      History ops s → (applyOp s op).error = none → History (op :: ops) (applyOp s op).state

/-- The sentence `Steps s ops s1` says that the successful calls `ops` (the
latest first) lead from the state `s` to the state `s1`. -/
inductive Steps {R : Type} [LinearOrderedField R] :
    SearchServer R → List Op → SearchServer R → Prop
  | refl (s : SearchServer R) : Steps s [] s
  | call (s : SearchServer R) (ops : List Op) (s1 : SearchServer R) (op : Op) :
      Steps s ops s1 → (applyOp s1 op).error = none → Steps s (op :: ops) (applyOp s1 op).state

/-- The effect of a call in arithmetic rounded by `fl`. -/
def applyOpFl {R : Type} [LinearOrderedField R] (fl : R → R) (s : SearchServer R) : Op → Outcome R
  | .add document_id document status ratings =>
    s.AddDocumentFl fl document_id document status ratings
  | .remove document_id => s.RemoveDocument document_id
  | .removePar document_id => s.RemoveDocumentPar document_id

/-- The sentence `HistoryFl fl ops s` says that `s` is the state of a server
after construction and the successful calls `ops` (the latest first), in
arithmetic rounded by `fl`. -/
inductive HistoryFl {R : Type} [LinearOrderedField R] (fl : R → R) :
    List Op → SearchServer R → Prop
  | create (stop_words : List Str) (s : SearchServer R) :
      SearchServer.create stop_words = .ok s → HistoryFl fl [] s
  | call (ops : List Op) (s : SearchServer R) (op : Op) :
      HistoryFl fl ops s → (applyOpFl fl s op).error = none →
      HistoryFl fl (op :: ops) (applyOpFl fl s op).state

/-- The value `k` executions of `x += inv` leave in `x`, from `start`, in
arithmetic rounded by `fl`. -/
def accumulate {R : Type} [LinearOrderedField R] (fl : R → R) (inv : R) (k : Nat) (start : R) : R :=
  (fun x => fl (x + inv))^[k] start

/-- A state the server can be in. -/
def Reachable {R : Type} [LinearOrderedField R] (s : SearchServer R) : Prop :=
  ∃ ops, History ops s

/-! ## Sample servers -/

/-- A freshly constructed server over the rationals with the stop words `in`
and `the`. -/
def sampleEmpty : SearchServer ℚ :=
  ⟨MakeUniqueNonEmptyStrings ["in".toList, "the".toList], OrderedMap.empty, OrderedMap.empty,
    OrderedSet.empty, OrderedMap.empty⟩

/-- The calls that build `sampleTwo`, the latest first. -/
def sampleTwoOps : List Op :=
  [Op.add 1 "fluffy cat fluffy tail".toList DocumentStatus.ACTUAL [7, 2, 7],
   Op.add 42 "cat in the city".toList DocumentStatus.ACTUAL [1, 2, 3]]

/-- A server holding two documents. -/
def sampleTwo : SearchServer ℚ :=
  (applyOp (applyOp sampleEmpty
    (Op.add 42 "cat in the city".toList DocumentStatus.ACTUAL [1, 2, 3])).state
    (Op.add 1 "fluffy cat fluffy tail".toList DocumentStatus.ACTUAL [7, 2, 7])).state

/-- The calls that build `sampleServer`, the latest first. -/
def sampleOps : List Op :=
  Op.add 2 "dog cat eyes".toList DocumentStatus.BANNED [5, -12, 2, 1] :: sampleTwoOps

/-- A stand-in for the logarithm on the rationals, for evaluating the sample
server (`0` at `1`, increasing). -/
def sampleLn : ℚ → ℚ := fun x => x - 1

/-- A server holding three documents. -/
def sampleServer : SearchServer ℚ :=
  (applyOp sampleTwo (Op.add 2 "dog cat eyes".toList DocumentStatus.BANNED [5, -12, 2, 1])).state

/-- The calls that build `sampleBlanks`, the latest first. -/
def sampleBlanksOps : List Op :=
  [Op.add 10 "cat cat".toList DocumentStatus.ACTUAL [],
   Op.add 9 "cat".toList DocumentStatus.ACTUAL [],
   Op.add 8 "the in".toList DocumentStatus.ACTUAL [],
   Op.add 7 "in the".toList DocumentStatus.ACTUAL []]

/-- A server with four documents; the texts of 7 and 8 hold stop words only. -/
def sampleBlanks : SearchServer ℚ :=
  (applyOp (applyOp (applyOp (applyOp sampleEmpty
    (Op.add 7 "in the".toList DocumentStatus.ACTUAL [])).state
    (Op.add 8 "the in".toList DocumentStatus.ACTUAL [])).state
    (Op.add 9 "cat".toList DocumentStatus.ACTUAL [])).state
    (Op.add 10 "cat cat".toList DocumentStatus.ACTUAL [])).state

/-- The calls that build `sampleStale`, the latest first. -/
def sampleStaleOps : List Op :=
  [Op.removePar 1, Op.add 1 "cat".toList DocumentStatus.ACTUAL [4]]

/-- A server whose only document was removed with the parallel strategy. -/
def sampleStale : SearchServer ℚ :=
  (applyOp (applyOp sampleEmpty (Op.add 1 "cat".toList DocumentStatus.ACTUAL [4])).state
    (Op.removePar 1)).state

/-- The server `sampleTwo` after `RemoveDocument(1)`. -/
def sampleAfterRemoval : SearchServer ℚ := (applyOp sampleTwo (Op.remove 1)).state

/-! ## Binary64 rounding -/

/-- The fraction `num / den` rounded to the nearest natural number, a tie to the
even one. -/
def roundHalfEven (num den : Nat) : Nat :=
  if 2 * (num % den) < den then num / den
  else if den < 2 * (num % den) then num / den + 1
  else if (num / den) % 2 = 0 then num / den
  else num / den + 1

/-- The exponent `e` of the positive fraction `p / d` for a significand of 53
bits: `2^52 ≤ (p / d) / 2^e < 2^53`. -/
def exponent53 (p d : Nat) : Int :=
  if p * 2 ^ (-((lg p : Int) - (lg d : Int) - 52)).toNat <
      2 ^ 52 * (d * 2 ^ ((lg p : Int) - (lg d : Int) - 52).toNat) then
    (lg p : Int) - (lg d : Int) - 52 - 1
  else (lg p : Int) - (lg d : Int) - 52

/-- The positive fraction `p / d` rounded to a significand of 53 bits:
`m * 2^e` with `m` the rounded quotient of `p / d` by `2^e`. -/
def roundPos (p d : Nat) : ℚ :=
  ((roundHalfEven (p * 2 ^ (-(exponent53 p d)).toNat) (d * 2 ^ (exponent53 p d).toNat) *
    2 ^ (exponent53 p d).toNat : Nat) : ℚ) / ((2 ^ (-(exponent53 p d)).toNat : Nat) : ℚ)

/-- Rounding to the nearest `double` (IEEE 754 binary64, ties to even) of a
rational number.  The exponent range is not bounded: overflow and subnormal
numbers are outside the model. -/
def roundDouble (x : ℚ) : ℚ :=
  if x = 0 then 0
  else if 0 < x then roundPos x.num.toNat x.den
  else -roundPos (-x).num.toNat x.den

/-- A text of ten words, three of them `a`. -/
def sampleTenWords : Str := "a a a b c d e f g h".toList

/-- A text of nine words `a`. -/
def sampleNineWords : Str := "a a a a a a a a a".toList

/-- The server after `AddDocument(1, "a a a b c d e f g h", ACTUAL, {})` on the
empty sample server, in binary64 arithmetic. -/
def sampleTen : SearchServer ℚ :=
  (applyOpFl roundDouble sampleEmpty (Op.add 1 sampleTenWords DocumentStatus.ACTUAL [])).state

/-- The server after `AddDocument(1, "a a a a a a a a a", ACTUAL, {})` on the
empty sample server, in binary64 arithmetic. -/
def sampleNine : SearchServer ℚ :=
  (applyOpFl roundDouble sampleEmpty (Op.add 1 sampleNineWords DocumentStatus.ACTUAL [])).state

end SearchEngine

/-! # Properties -/

namespace SearchEngine

/-! ## Finite maps and sets -/

namespace OrderedMap

variable {K V : Type} [LinearOrder K]

theorem lookup_filter_ne (l : List (K × V)) (k k1 : K) :
    lookup (l.filter (fun p => decide (p.1 ≠ k))) k1 = if k1 = k then none else lookup l k1 := by
  induction l with
  | nil => simp [lookup]
  | cons p rest ih =>
    obtain ⟨a, v⟩ := p
    rw [List.filter_cons]
    by_cases ha : a = k
    · have hd : decide ((a, v).1 ≠ k) = false := by simp [ha]
      rw [hd, if_neg (by simp), ih]
      by_cases hk : k1 = k
      · simp [hk]
      · have : ¬ k1 = a := by rw [ha]; exact hk
        simp [hk, lookup, this]
    · have hd : decide ((a, v).1 ≠ k) = true := by simp [ha]
      rw [hd, if_pos rfl]
      simp only [lookup, ih]
      by_cases hk : k1 = k
      · subst hk
        have : ¬ k1 = a := fun h => ha h.symm
        simp [this]
      · simp [hk]

theorem lookup_isSome_iff (l : List (K × V)) (k : K) :
    (lookup l k).isSome = true ↔ k ∈ l.map Prod.fst := by
  induction l with
  | nil => simp [lookup]
  | cons p rest ih =>
    obtain ⟨a, v⟩ := p
    by_cases hk : k = a
    · simp [lookup, hk]
    · simp [lookup, hk, ih]

@[simp] theorem find?_empty (k : K) : (empty : OrderedMap K V).find? k = none := rfl

theorem find?_erase (m : OrderedMap K V) (k k1 : K) :
    (m.erase k).find? k1 = if k1 = k then none else m.find? k1 :=
  lookup_filter_ne m.entries k k1

theorem find?_insert (m : OrderedMap K V) (k : K) (v : V) (k1 : K) :
    (m.insert k v).find? k1 = if k1 = k then some v else m.find? k1 := by
  have he := find?_erase m k k1
  simp only [find?] at he
  by_cases hk : k1 = k
  · simp [insert, find?, lookup, hk]
  · simp only [insert, find?, lookup, hk, if_false, he]

theorem find?_emplace (m : OrderedMap K V) (k : K) (v : V) (k1 : K) :
    (m.emplace k v).find? k1 =
      if k1 = k then some ((m.find? k).getD v) else m.find? k1 := by
  unfold emplace
  by_cases hc : m.count k = true
  · rw [if_pos hc]
    by_cases hk : k1 = k
    · subst hk
      simp only [count, Option.isSome_iff_exists] at hc
      obtain ⟨w, hw⟩ := hc
      simp [hw]
    · simp [hk]
  · rw [if_neg hc, find?_insert]
    by_cases hk : k1 = k
    · simp only [count, Bool.not_eq_true, Option.not_isSome, Option.isNone_iff_eq_none] at hc
      simp [hk, hc]
    · simp [hk]

theorem count_eq_true_iff (m : OrderedMap K V) (k : K) :
    m.count k = true ↔ ∃ v, m.find? k = some v := by
  simp [count, Option.isSome_iff_exists]

theorem count_eq_false_iff (m : OrderedMap K V) (k : K) :
    m.count k = false ↔ m.find? k = none := by
  simp [count]

theorem mem_keys (m : OrderedMap K V) (k : K) :
    k ∈ m.keys ↔ ∃ v, m.find? k = some v := by
  unfold keys
  rw [(List.perm_insertionSort _ _).mem_iff, List.mem_dedup, ← lookup_isSome_iff,
    Option.isSome_iff_exists]
  rfl

theorem nodup_keys (m : OrderedMap K V) : m.keys.Nodup := by
  unfold keys
  exact (List.perm_insertionSort _ _).nodup_iff.mpr (List.nodup_dedup _)

theorem sorted_keys (m : OrderedMap K V) : m.keys.Sorted (fun a b => a ≤ b) :=
  List.sorted_insertionSort _ _

theorem map_fst_filterMap_find (f : K → Option V) (l : List K)
    (h : ∀ k ∈ l, ∃ v, f k = some v) :
    (l.filterMap (fun k => (f k).map (fun v => (k, v)))).map Prod.fst = l := by
  induction l with
  | nil => rfl
  | cons a rest ih =>
    obtain ⟨v, hv⟩ := h a (List.mem_cons_self _ _)
    have ih1 := ih (fun k hk => h k (List.mem_cons_of_mem _ hk))
    simp [List.filterMap_cons, hv, ih1]

theorem map_fst_toList (m : OrderedMap K V) : m.toList.map Prod.fst = m.keys :=
  map_fst_filterMap_find _ _ (fun k hk => (mem_keys m k).mp hk)

theorem mem_toList (m : OrderedMap K V) (k : K) (v : V) :
    (k, v) ∈ m.toList ↔ m.find? k = some v := by
  unfold toList
  rw [List.mem_filterMap]
  constructor
  · rintro ⟨a, _, ha⟩
    cases hf : m.find? a with
    | none => simp [hf] at ha
    | some w =>
      simp only [hf, Option.map_some', Option.some.injEq, Prod.mk.injEq] at ha
      obtain ⟨rfl, rfl⟩ := ha
      exact hf
  · intro h
    exact ⟨k, (mem_keys m k).mpr ⟨v, h⟩, by simp [h]⟩

theorem nodup_map_fst_toList (m : OrderedMap K V) : (m.toList.map Prod.fst).Nodup := by
  rw [map_fst_toList]
  exact nodup_keys m

theorem length_toList (m : OrderedMap K V) : m.toList.length = m.size := by
  have := congrArg List.length (map_fst_toList m)
  simpa [size] using this

end OrderedMap

namespace OrderedSet

variable {K : Type} [LinearOrder K]

theorem contains_iff (s : OrderedSet K) (k : K) : s.contains k = true ↔ k ∈ s.elems := by
  simp [contains]

theorem contains_insert (s : OrderedSet K) (k k1 : K) :
    (s.insert k).contains k1 = (decide (k1 = k) || s.contains k1) := by
  unfold insert
  by_cases h : s.contains k = true
  · rw [if_pos h]
    by_cases hk : k1 = k
    · subst hk
      simp [h]
    · simp [hk]
  · rw [if_neg h]
    simp [contains]

theorem contains_erase (s : OrderedSet K) (k k1 : K) :
    (s.erase k).contains k1 = (!decide (k1 = k) && s.contains k1) := by
  by_cases hk : k1 = k
  · simp [erase, contains, hk]
  · simp [erase, contains, hk]

theorem mem_toList_iff_contains (s : OrderedSet K) (k : K) : k ∈ s.toList ↔ s.contains k = true := by
  unfold toList
  rw [(List.perm_insertionSort _ _).mem_iff, List.mem_dedup, contains_iff]

end OrderedSet

/-! ## Sorting and `unique` -/

theorem cons_set_perm {α : Type} (t : List α) (j : Nat) (x y : α) (h : t[j]? = some y) :
    (y :: t.set j x).Perm (x :: t) := by
  induction t generalizing j with
  | nil => simp at h
  | cons z rest ih =>
    cases j with
    | zero =>
      simp only [List.getElem?_cons_zero, Option.some.injEq] at h
      subst h
      exact List.Perm.swap x z rest
    | succ j =>
      simp only [List.getElem?_cons_succ] at h
      rw [List.set_cons_succ]
      exact ((List.Perm.swap z y _).trans (List.Perm.cons z (ih j h))).trans
        (List.Perm.swap x z rest)

theorem set_set_perm {α : Type} (a : List α) (i j : Nat) (x y : α) (hi : a[i]? = some x)
    (hj : a[j]? = some y) : ((a.set i y).set j x).Perm a := by
  induction a generalizing i j with
  | nil => simp at hi
  | cons z rest ih =>
    cases i with
    | zero =>
      simp only [List.getElem?_cons_zero, Option.some.injEq] at hi
      subst hi
      cases j with
      | zero =>
        simp only [List.getElem?_cons_zero, Option.some.injEq] at hj
        subst hj
        exact List.Perm.refl _
      | succ j =>
        simp only [List.getElem?_cons_succ] at hj
        exact cons_set_perm rest j z y hj
    | succ i =>
      simp only [List.getElem?_cons_succ] at hi
      cases j with
      | zero =>
        simp only [List.getElem?_cons_zero, Option.some.injEq] at hj
        subst hj
        exact cons_set_perm rest i z x hi
      | succ j =>
        simp only [List.getElem?_cons_succ] at hj
        exact List.Perm.cons z (ih i j hi hj)

theorem iter_swap_perm {α : Type} (a : List α) (i j : Nat) : (iter_swap a i j).Perm a := by
  unfold iter_swap
  cases hi : a[i]? with
  | none => exact List.Perm.refl _
  | some x =>
    cases hj : a[j]? with
    | none => exact List.Perm.refl _
    | some y => exact set_set_perm a i j x y hi hj

theorem length_moveTo {α : Type} (a : List α) (i j : Nat) : (moveTo a i j).length = a.length := by
  unfold moveTo
  cases a[j]? <;> simp

/-- Moving the element at `c` into the hole at `h` and filling `c` is a
transposition of the array with the hole filled. -/
theorem set_moveTo_perm {α : Type} (a : List α) (h c : Nat) (v : α) (hne : h ≠ c)
    (hh : h < a.length) (hc : c < a.length) :
    ((moveTo a h c).set c v).Perm (a.set h v) := by
  unfold moveTo
  have hcv : a[c]? = some a[c] := List.getElem?_eq_getElem hc
  rw [hcv]
  have h1 : (a.set h v)[h]? = some v := by
    rw [List.getElem?_set_self (by simpa using hh)]
  have h2 : (a.set h v)[c]? = some a[c] := by
    rw [List.getElem?_set_ne hne, hcv]
  have := set_set_perm (a.set h v) h c v a[c] h1 h2
  rwa [List.set_set] at this

theorem push_heap_perm {α : Type} (comp : α → α → Bool) (first topIndex : Nat) (value : α) :
    ∀ (holeIndex : Nat) (a : List α), first + holeIndex < a.length →
      (push_heap comp a first holeIndex topIndex value).Perm (a.set (first + holeIndex) value) := by
  intro holeIndex
  induction holeIndex using Nat.strong_induction_on with
  | _ n ih =>
    intro a hn
    rw [push_heap]
    split
    · rename_i hc
      have hlt : (n - 1) / 2 < n := by omega
      refine (ih ((n - 1) / 2) hlt _ (by rw [length_moveTo]; omega)).trans ?_
      exact set_moveTo_perm a (first + n) (first + (n - 1) / 2) value (by omega) hn (by omega)
    · exact List.Perm.refl _

theorem heapChild_bounds {α : Type} (comp : α → α → Bool) (a : List α) (first secondChild : Nat) :
    2 * secondChild + 1 ≤ heapChild comp a first secondChild ∧
      heapChild comp a first secondChild ≤ 2 * secondChild + 2 := by
  unfold heapChild
  split <;> omega

theorem adjust_heap_loop_spec {α : Type} (comp : α → α → Bool) (first len : Nat) :
    ∀ (n : Nat) (a : List α) (holeIndex secondChild : Nat), len - secondChild = n →
      first + len ≤ a.length → holeIndex ≤ secondChild → secondChild < len →
      (adjust_heap_loop comp a first len holeIndex secondChild).1.length = a.length ∧
      (adjust_heap_loop comp a first len holeIndex secondChild).2.1 ≤
        (adjust_heap_loop comp a first len holeIndex secondChild).2.2 ∧
      (adjust_heap_loop comp a first len holeIndex secondChild).2.2 < len ∧
      ∀ v, ((adjust_heap_loop comp a first len holeIndex secondChild).1.set
        (first + (adjust_heap_loop comp a first len holeIndex secondChild).2.1) v).Perm
          (a.set (first + holeIndex) v) := by
  intro n
  induction n using Nat.strong_induction_on with
  | _ n ih =>
    intro a holeIndex secondChild hn hlen hhole hsc
    rw [adjust_heap_loop]
    split
    · rename_i hc
      obtain ⟨hb1, hb2⟩ := heapChild_bounds comp a first secondChild
      have hchild : heapChild comp a first secondChild < len := by omega
      obtain ⟨h1, h2, h3, h4⟩ := ih (len - heapChild comp a first secondChild) (by omega)
        (moveTo a (first + holeIndex) (first + heapChild comp a first secondChild))
        (heapChild comp a first secondChild) (heapChild comp a first secondChild) rfl
        (by rw [length_moveTo]; exact hlen) (Nat.le_refl _) hchild
      refine ⟨by rw [h1, length_moveTo], h2, h3, fun v => (h4 v).trans ?_⟩
      exact set_moveTo_perm a (first + holeIndex) (first + heapChild comp a first secondChild) v
        (by omega) (by omega) (by omega)
    · exact ⟨rfl, hhole, hsc, fun v => List.Perm.refl _⟩

theorem adjust_heap_perm {α : Type} (comp : α → α → Bool) (a : List α)
    (first holeIndex len : Nat) (value : α) (hlen : first + len ≤ a.length)
    (hhole : holeIndex < len) :
    (adjust_heap comp a first holeIndex len value).Perm (a.set (first + holeIndex) value) := by
  obtain ⟨h1, h2, h3, h4⟩ := adjust_heap_loop_spec comp first len _ a holeIndex holeIndex rfl
    hlen (Nat.le_refl _) hhole
  unfold adjust_heap
  simp only
  split
  · rename_i hc
    have hlast : 2 * ((adjust_heap_loop comp a first len holeIndex holeIndex).2.2 + 1) - 1 < len := by
      omega
    refine (push_heap_perm comp first holeIndex value _ _ (by rw [length_moveTo, h1]; omega)).trans ?_
    refine (set_moveTo_perm _ _ _ value (by omega) (by rw [h1]; omega) (by rw [h1]; omega)).trans ?_
    exact h4 value
  · exact (push_heap_perm comp first holeIndex value _ _ (by rw [h1]; omega)).trans (h4 value)

theorem length_adjust_heap {α : Type} (comp : α → α → Bool) (a : List α)
    (first holeIndex len : Nat) (value : α) (hlen : first + len ≤ a.length)
    (hhole : holeIndex < len) : (adjust_heap comp a first holeIndex len value).length = a.length := by
  rw [(adjust_heap_perm comp a first holeIndex len value hlen hhole).length_eq, List.length_set]

theorem pop_heap_perm {α : Type} (comp : α → α → Bool) (a : List α) (first last result : Nat)
    (hfirst : first < last) (hlast : last ≤ a.length) :
    (pop_heap comp a first last result).Perm a := by
  unfold pop_heap
  cases hr : a[result]? with
  | none => exact List.Perm.refl _
  | some value =>
    simp only
    have hf : a[first]? = some a[first] := List.getElem?_eq_getElem (by omega)
    refine (adjust_heap_perm comp _ first 0 (last - first) value
      (by rw [length_moveTo]; omega) (by omega)).trans ?_
    unfold moveTo
    rw [hf]
    exact set_set_perm a result first value a[first] hr hf

theorem set_eq_self {α : Type} (a : List α) (i : Nat) (v : α) (h : a[i]? = some v) :
    a.set i v = a := by
  induction a generalizing i with
  | nil => rfl
  | cons z rest ih =>
    cases i with
    | zero =>
      simp only [List.getElem?_cons_zero, Option.some.injEq] at h
      rw [List.set_cons_zero, h]
    | succ i =>
      simp only [List.getElem?_cons_succ] at h
      rw [List.set_cons_succ, ih i h]

theorem make_heap_loop_perm {α : Type} (comp : α → α → Bool) (first len : Nat) :
    ∀ (parent : Nat) (a : List α), first + len ≤ a.length → parent < len →
      (make_heap_loop comp first len parent a).Perm a := by
  intro parent
  induction parent with
  | zero =>
    intro a hlen hp
    unfold make_heap_loop
    cases hv : a[first]? with
    | none => exact List.Perm.refl _
    | some value =>
      simp only
      refine (adjust_heap_perm comp a first 0 len value hlen hp).trans ?_
      rw [Nat.add_zero]
      exact List.Perm.of_eq (set_eq_self a first value hv)
  | succ parent ih =>
    intro a hlen hp
    unfold make_heap_loop
    cases hv : a[first + (parent + 1)]? with
    | none => exact List.Perm.refl _
    | some value =>
      simp only
      have hperm := adjust_heap_perm comp a first (parent + 1) len value hlen hp
      refine (ih _ (by rw [length_adjust_heap comp a first (parent + 1) len value hlen hp]; exact hlen)
        (by omega)).trans ?_
      refine hperm.trans ?_
      exact List.Perm.of_eq (set_eq_self a _ value hv)

theorem make_heap_perm {α : Type} (comp : α → α → Bool) (a : List α) (first last : Nat)
    (hlast : last ≤ a.length) : (make_heap comp a first last).Perm a := by
  unfold make_heap
  split
  · exact List.Perm.refl _
  · exact make_heap_loop_perm comp first (last - first) _ a (by omega) (by omega)

theorem heap_select_loop_perm {α : Type} (comp : α → α → Bool) (first middle : Nat)
    (hfirst : first < middle) :
    ∀ (n i : Nat) (a : List α), middle ≤ a.length →
      (heap_select_loop comp first middle n i a).Perm a := by
  intro n
  induction n with
  | zero =>
    intro i a _
    exact List.Perm.refl _
  | succ n ih =>
    intro i a hmid
    unfold heap_select_loop
    split
    · have hp := pop_heap_perm comp a first middle i hfirst hmid
      exact (ih (i + 1) _ (by rw [hp.length_eq]; exact hmid)).trans hp
    · exact ih (i + 1) a hmid

theorem heap_select_perm {α : Type} (comp : α → α → Bool) (a : List α)
    (first middle last : Nat) (hfirst : first < middle) (hmid : middle ≤ a.length) :
    (heap_select comp a first middle last).Perm a := by
  unfold heap_select
  have hp := make_heap_perm comp a first middle hmid
  exact (heap_select_loop_perm comp first middle hfirst _ _ _
    (by rw [hp.length_eq]; exact hmid)).trans hp

theorem sort_heap_perm {α : Type} (comp : α → α → Bool) (first : Nat) :
    ∀ (n last : Nat) (a : List α), last - first = n → last ≤ a.length →
      (sort_heap comp a first last).Perm a := by
  intro n
  induction n using Nat.strong_induction_on with
  | _ n ih =>
    intro last a hn hlast
    rw [sort_heap]
    split
    · have hp := pop_heap_perm comp a first (last - 1) (last - 1) (by omega) (by omega)
      exact (ih (last - 1 - first) (by omega) (last - 1) _ rfl
        (by rw [hp.length_eq]; omega)).trans hp
    · exact List.Perm.refl _

theorem partial_sort_perm {α : Type} (comp : α → α → Bool) (a : List α)
    (first middle last : Nat) (hfirst : first < middle) (hmid : middle ≤ a.length) :
    (partial_sort comp a first middle last).Perm a := by
  unfold partial_sort
  have hp := heap_select_perm comp a first middle last hfirst hmid
  exact (sort_heap_perm comp first _ middle _ rfl (by rw [hp.length_eq]; exact hmid)).trans hp

theorem move_median_to_first_perm {α : Type} (comp : α → α → Bool) (arr : List α)
    (result a b c : Nat) : (move_median_to_first comp arr result a b c).Perm arr := by
  unfold move_median_to_first
  repeat' split
  all_goals exact iter_swap_perm _ _ _

theorem scanUp_le {α : Type} (comp : α → α → Bool) (a : List α) (pivot : Nat) :
    ∀ (n first : Nat), a.length - first = n → first ≤ a.length →
      scanUp comp a pivot first ≤ a.length := by
  intro n
  induction n using Nat.strong_induction_on with
  | _ n ih =>
    intro first hn hfirst
    rw [scanUp]
    split
    · exact ih (a.length - (first + 1)) (by omega) (first + 1) rfl (by omega)
    · exact hfirst

theorem scanDown_le {α : Type} (comp : α → α → Bool) (a : List α) (pivot : Nat) :
    ∀ last : Nat, scanDown comp a pivot last ≤ last := by
  intro last
  induction last using Nat.strong_induction_on with
  | _ n ih =>
    rw [scanDown]
    split
    · have := ih (n - 1) (by omega)
      omega
    · exact Nat.le_refl _

theorem unguarded_partition_spec {α : Type} (comp : α → α → Bool) (pivot : Nat) :
    ∀ (last : Nat) (a : List α) (first : Nat), first ≤ a.length → last ≤ a.length →
      (unguarded_partition comp a first last pivot).1.Perm a ∧
      (unguarded_partition comp a first last pivot).2 ≤ a.length := by
  intro last
  induction last using Nat.strong_induction_on with
  | _ n ih =>
    intro a first hfirst hlast
    rw [unguarded_partition]
    have hup := scanUp_le comp a pivot _ first rfl hfirst
    split
    · rename_i hc
      have hdown := scanDown_le comp a pivot (n - 1)
      have hp := iter_swap_perm a (scanUp comp a pivot first) (scanDown comp a pivot (n - 1))
      obtain ⟨h1, h2⟩ := ih (scanDown comp a pivot (n - 1)) (by omega) _
        (scanUp comp a pivot first + 1) (by rw [hp.length_eq]; omega)
        (by rw [hp.length_eq]; omega)
      exact ⟨h1.trans hp, by rw [← hp.length_eq]; exact h2⟩
    · exact ⟨List.Perm.refl _, hup⟩

theorem unguarded_partition_pivot_spec {α : Type} (comp : α → α → Bool) (a : List α)
    (first last : Nat) (hfirst : first < a.length) (hlast : last ≤ a.length) :
    (unguarded_partition_pivot comp a first last).1.Perm a ∧
    (unguarded_partition_pivot comp a first last).2 ≤ a.length := by
  unfold unguarded_partition_pivot
  simp only
  have hp := move_median_to_first_perm comp a first (first + 1) (first + (last - first) / 2)
    (last - 1)
  obtain ⟨h1, h2⟩ := unguarded_partition_spec comp first last _ (first + 1)
    (by rw [hp.length_eq]; omega) (by rw [hp.length_eq]; exact hlast)
  exact ⟨h1.trans hp, by rw [← hp.length_eq]; exact h2⟩

theorem introsort_loop_perm {α : Type} (comp : α → α → Bool) :
    ∀ (depth_limit : Nat) (a : List α) (first last : Nat), last ≤ a.length →
      (introsort_loop comp depth_limit a first last).Perm a := by
  intro depth_limit
  induction depth_limit with
  | zero =>
    intro a first last hlast
    unfold introsort_loop
    split
    · rename_i hc
      exact partial_sort_perm comp a first last last (by unfold S_threshold at hc; omega) hlast
    · exact List.Perm.refl _
  | succ depth_limit ih =>
    intro a first last hlast
    unfold introsort_loop
    split
    · rename_i hc
      obtain ⟨h1, h2⟩ := unguarded_partition_pivot_spec comp a first last
        (by unfold S_threshold at hc; omega) hlast
      have h3 := ih (unguarded_partition_pivot comp a first last).1
        (unguarded_partition_pivot comp a first last).2 last (by rw [h1.length_eq]; exact hlast)
      have h4 := ih _ first (unguarded_partition_pivot comp a first last).2
        (by rw [h3.length_eq, h1.length_eq]; exact h2)
      exact (h4.trans h3).trans h1
    · exact List.Perm.refl _

theorem unguarded_linear_insert_perm {α : Type} (comp : α → α → Bool) (val : α)
    (sorted : List α) : (unguarded_linear_insert comp val sorted).Perm (val :: sorted) := by
  induction sorted with
  | nil => exact List.Perm.refl _
  | cons next rest ih =>
    unfold unguarded_linear_insert
    split
    · exact (List.Perm.cons next ih).trans (List.Perm.swap val next rest)
    · exact List.Perm.refl _

theorem insertion_sort_loop_perm {α : Type} (comp : α → α → Bool) (rest sorted : List α) :
    (insertion_sort_loop comp rest sorted).Perm (rest ++ sorted) := by
  induction rest generalizing sorted with
  | nil => exact List.Perm.refl _
  | cons val rest ih =>
    unfold insertion_sort_loop
    have hmid : (rest ++ val :: sorted).Perm (val :: rest ++ sorted) := by
      exact List.perm_middle
    cases hlast : sorted.getLast? with
    | none =>
      have : sorted = [] := by simpa using hlast
      subst this
      exact (ih [val]).trans hmid
    | some first =>
      simp only
      split
      · refine (ih (sorted ++ [val])).trans ?_
        refine List.Perm.trans ?_ hmid
        exact List.Perm.append_left rest (List.perm_append_singleton val sorted)
      · refine (ih _).trans ?_
        refine List.Perm.trans ?_ hmid
        exact List.Perm.append_left rest (unguarded_linear_insert_perm comp val sorted)

theorem insertion_sort_perm {α : Type} (comp : α → α → Bool) (a : List α) :
    (insertion_sort comp a).Perm a := by
  cases a with
  | nil => exact List.Perm.refl _
  | cons x rest =>
    unfold insertion_sort
    refine (List.reverse_perm _).trans ((insertion_sort_loop_perm comp rest [x]).trans ?_)
    exact List.perm_append_singleton x rest

theorem unguarded_insertion_sort_perm {α : Type} (comp : α → α → Bool) (rest sorted : List α) :
    (unguarded_insertion_sort comp rest sorted).Perm (rest ++ sorted) := by
  induction rest generalizing sorted with
  | nil => exact List.Perm.refl _
  | cons val rest ih =>
    unfold unguarded_insertion_sort
    refine (ih _).trans ?_
    have hmid : (rest ++ val :: sorted).Perm (val :: rest ++ sorted) := by
      exact List.perm_middle
    refine List.Perm.trans ?_ hmid
    exact List.Perm.append_left rest (unguarded_linear_insert_perm comp val sorted)

theorem final_insertion_sort_perm {α : Type} (comp : α → α → Bool) (a : List α) :
    (final_insertion_sort comp a).Perm a := by
  unfold final_insertion_sort
  split
  · refine (List.reverse_perm _).trans ((unguarded_insertion_sort_perm comp _ _).trans ?_)
    refine (List.perm_append_comm).trans ?_
    refine ((List.reverse_perm _).trans (insertion_sort_perm comp _)).append_right _ |>.trans ?_
    rw [List.take_append_drop]
  · exact insertion_sort_perm comp a

theorem sort_perm {α : Type} (comp : α → α → Bool) (l : List α) : (sort comp l).Perm l := by
  unfold sort
  split
  · exact List.Perm.refl _
  · exact (final_insertion_sort_perm comp _).trans
      (introsort_loop_perm comp _ l 0 l.length (Nat.le_refl _))

theorem mem_sort {α : Type} (comp : α → α → Bool) (l : List α) (x : α) :
    x ∈ sort comp l ↔ x ∈ l := (sort_perm comp l).mem_iff

theorem length_sort {α : Type} (comp : α → α → Bool) (l : List α) :
    (sort comp l).length = l.length := (sort_perm comp l).length_eq

theorem head?_unguarded_linear_insert {α : Type} (comp : α → α → Bool) (val : α)
    (sorted : List α) :
    (unguarded_linear_insert comp val sorted).head? = some val ∨
      (unguarded_linear_insert comp val sorted).head? = sorted.head? := by
  cases sorted with
  | nil => exact Or.inl rfl
  | cons next rest =>
    unfold unguarded_linear_insert
    split
    · exact Or.inr rfl
    · exact Or.inl rfl

/-- The insertion keeps a range, given in reverse, in which no element goes
before its predecessor, for a comparator that never holds in both directions. -/
theorem chain_unguarded_linear_insert {α : Type} (comp : α → α → Bool)
    (hasym : ∀ a b, comp a b = true → comp b a = false) (val : α) (sorted : List α)
    (h : sorted.Chain' (fun later earlier => comp later earlier = false)) :
    (unguarded_linear_insert comp val sorted).Chain'
      (fun later earlier => comp later earlier = false) := by
  induction sorted with
  | nil => exact List.chain'_singleton val
  | cons next rest ih =>
    unfold unguarded_linear_insert
    split
    · rename_i hc
      rw [List.chain'_cons'] at h ⊢
      refine ⟨?_, ih h.2⟩
      intro z hz
      rcases head?_unguarded_linear_insert comp val rest with hx | hx
      · rw [hx] at hz
        cases hz
        exact hasym val next hc
      · rw [hx] at hz
        exact h.1 z hz
    · rename_i hc
      rw [List.chain'_cons']
      exact ⟨fun z hz => by cases hz; simpa using hc, h⟩

theorem chain_insertion_sort_loop {α : Type} (comp : α → α → Bool)
    (hasym : ∀ a b, comp a b = true → comp b a = false) (rest sorted : List α)
    (h : sorted.Chain' (fun later earlier => comp later earlier = false)) :
    (insertion_sort_loop comp rest sorted).Chain'
      (fun later earlier => comp later earlier = false) := by
  induction rest generalizing sorted with
  | nil => exact h
  | cons val rest ih =>
    unfold insertion_sort_loop
    cases hlast : sorted.getLast? with
    | none => exact ih [val] (List.chain'_singleton val)
    | some first =>
      simp only
      split
      · rename_i hc
        apply ih
        apply List.Chain'.append h (List.chain'_singleton val)
        intro x hx y hy
        rw [hlast] at hx
        cases hx
        cases hy
        exact hasym val first hc
      · exact ih _ (chain_unguarded_linear_insert comp hasym val sorted h)

theorem chain_insertion_sort {α : Type} (comp : α → α → Bool)
    (hasym : ∀ a b, comp a b = true → comp b a = false) (a : List α) :
    (insertion_sort comp a).Chain' (fun x y => comp y x = false) := by
  cases a with
  | nil => exact List.chain'_nil
  | cons x rest =>
    unfold insertion_sort
    rw [List.chain'_reverse]
    exact chain_insertion_sort_loop comp hasym rest [x] (List.chain'_singleton x)

theorem chain_unguarded_insertion_sort {α : Type} (comp : α → α → Bool)
    (hasym : ∀ a b, comp a b = true → comp b a = false) (rest sorted : List α)
    (h : sorted.Chain' (fun later earlier => comp later earlier = false)) :
    (unguarded_insertion_sort comp rest sorted).Chain'
      (fun later earlier => comp later earlier = false) := by
  induction rest generalizing sorted with
  | nil => exact h
  | cons val rest ih =>
    unfold unguarded_insertion_sort
    exact ih _ (chain_unguarded_linear_insert comp hasym val sorted h)

/-- The last pass of `std::sort` leaves a list in which no element goes before
its predecessor, whatever the list it starts from, for a comparator that never
holds in both directions. -/
theorem chain_final_insertion_sort {α : Type} (comp : α → α → Bool)
    (hasym : ∀ a b, comp a b = true → comp b a = false) (a : List α) :
    (final_insertion_sort comp a).Chain' (fun x y => comp y x = false) := by
  unfold final_insertion_sort
  split
  · rw [List.chain'_reverse]
    apply chain_unguarded_insertion_sort comp hasym
    rw [List.chain'_reverse]
    exact chain_insertion_sort comp hasym (a.take S_threshold)
  · exact chain_insertion_sort comp hasym a

theorem chain_sort {α : Type} (comp : α → α → Bool)
    (hasym : ∀ a b, comp a b = true → comp b a = false) (l : List α) :
    (sort comp l).Chain' (fun a b => comp b a = false) := by
  unfold sort
  split
  · rename_i hc
    have : l = [] := by simpa using hc
    subst this
    exact List.chain'_nil
  · exact chain_final_insertion_sort comp hasym _

theorem sorted_sort_lt {α : Type} [LinearOrder α] (l : List α) :
    (sort (fun a b => decide (a < b)) l).Sorted (fun a b => a ≤ b) := by
  have h := chain_sort (fun a b : α => decide (a < b))
    (fun a b hab => by
      simp only [decide_eq_true_eq, decide_eq_false_iff_not, not_lt] at hab ⊢
      exact le_of_lt hab) l
  have h2 : (sort (fun a b : α => decide (a < b)) l).Chain' (fun a b => a ≤ b) := by
    refine List.Chain'.imp ?_ h
    intro a b hab
    simpa using hab
  exact List.chain'_iff_pairwise.mp h2

theorem mem_of_mem_uniqueLoop {α : Type} [DecidableEq α] (l : List α) (prev x : α)
    (h : x ∈ uniqueLoop prev l) : x ∈ l := by
  induction l generalizing prev with
  | nil => simp [uniqueLoop] at h
  | cons y rest ih =>
    unfold uniqueLoop at h
    by_cases hp : prev = y
    · rw [if_pos hp] at h
      exact List.mem_cons_of_mem _ (ih prev h)
    · rw [if_neg hp] at h
      rcases List.mem_cons.mp h with h1 | h1
      · rw [h1]
        exact List.mem_cons_self _ _
      · exact List.mem_cons_of_mem _ (ih y h1)

theorem mem_uniqueLoop_of_mem {α : Type} [DecidableEq α] (l : List α) (prev x : α)
    (h : x ∈ l) : x = prev ∨ x ∈ uniqueLoop prev l := by
  induction l generalizing prev with
  | nil => simp at h
  | cons y rest ih =>
    unfold uniqueLoop
    by_cases hp : prev = y
    · rw [if_pos hp]
      rcases List.mem_cons.mp h with h1 | h1
      · exact Or.inl (h1.trans hp.symm)
      · exact ih prev h1
    · rw [if_neg hp]
      rcases List.mem_cons.mp h with h1 | h1
      · exact Or.inr (by rw [h1]; exact List.mem_cons_self _ _)
      · rcases ih y h1 with h2 | h2
        · exact Or.inr (by rw [h2]; exact List.mem_cons_self _ _)
        · exact Or.inr (List.mem_cons_of_mem _ h2)

theorem mem_unique {α : Type} [DecidableEq α] (l : List α) (x : α) : x ∈ unique l ↔ x ∈ l := by
  cases l with
  | nil => simp [unique]
  | cons y rest =>
    unfold unique
    constructor
    · intro h
      rcases List.mem_cons.mp h with h1 | h1
      · rw [h1]
        exact List.mem_cons_self _ _
      · exact List.mem_cons_of_mem _ (mem_of_mem_uniqueLoop rest y x h1)
    · intro h
      rcases List.mem_cons.mp h with h1 | h1
      · rw [h1]
        exact List.mem_cons_self _ _
      · rcases mem_uniqueLoop_of_mem rest y x h1 with h2 | h2
        · rw [h2]
          exact List.mem_cons_self _ _
        · exact List.mem_cons_of_mem _ h2

theorem sorted_uniqueLoop {α : Type} [dec : DecidableEq α] [LinearOrder α] (l : List α) (prev : α)
    (hl : l.Sorted (fun a b => a ≤ b)) (hp : ∀ z ∈ l, prev ≤ z) :
    (∀ z ∈ @uniqueLoop α dec prev l, prev < z) ∧
      (@uniqueLoop α dec prev l).Sorted (fun a b => a < b) := by
  induction l generalizing prev with
  | nil => simp [uniqueLoop]
  | cons y rest ih =>
    have hrest : rest.Sorted (fun a b => a ≤ b) := hl.of_cons
    have hy : ∀ z ∈ rest, y ≤ z := fun z hz => List.rel_of_sorted_cons hl z hz
    unfold uniqueLoop
    by_cases hpy : prev = y
    · rw [if_pos hpy]
      exact ih prev hrest (fun z hz => hp z (List.mem_cons_of_mem _ hz))
    · rw [if_neg hpy]
      have hlt : prev < y := lt_of_le_of_ne (hp y (List.mem_cons_self _ _)) hpy
      obtain ⟨h1, h2⟩ := ih y hrest hy
      constructor
      · intro z hz
        rcases List.mem_cons.mp hz with h3 | h3
        · rw [h3]
          exact hlt
        · exact lt_trans hlt (h1 z h3)
      · exact List.sorted_cons.mpr ⟨h1, h2⟩

theorem nodup_unique_of_sorted {α : Type} [dec : DecidableEq α] [LinearOrder α] (l : List α)
    (hl : l.Sorted (fun a b => a ≤ b)) : (@unique α dec l).Nodup := by
  cases l with
  | nil => simp [unique]
  | cons y rest =>
    unfold unique
    obtain ⟨h1, h2⟩ := sorted_uniqueLoop rest y hl.of_cons
      (fun z hz => List.rel_of_sorted_cons hl z hz)
    have : (y :: @uniqueLoop α dec y rest).Sorted (fun a b => a < b) :=
      List.sorted_cons.mpr ⟨h1, h2⟩
    exact this.nodup

theorem nodup_unique_sort {α : Type} [dec : DecidableEq α] [LinearOrder α] (l : List α) :
    (@unique α dec (sort (fun a b => decide (a < b)) l)).Nodup :=
  nodup_unique_of_sorted _ (sorted_sort_lt l)

theorem mem_unique_sort {α : Type} [dec : DecidableEq α] [LinearOrder α] (l : List α) (x : α) :
    x ∈ @unique α dec (sort (fun a b => decide (a < b)) l) ↔ x ∈ l := by
  rw [mem_unique, mem_sort]

/-! ## Tokenizer and validation -/

theorem mem_SplitIntoWordsLoop (text : List Char) (word : Str) (c : Char) :
    (∃ w ∈ SplitIntoWordsLoop text word, c ∈ w) ↔ (c ∈ word ∨ (c ∈ text ∧ c ≠ ' ')) := by
  induction text generalizing word with
  | nil =>
    cases word with
    | nil => simp [SplitIntoWordsLoop]
    | cons a l => simp [SplitIntoWordsLoop]
  | cons ch rest ih =>
    unfold SplitIntoWordsLoop
    by_cases hch : ch = ' '
    · rw [if_pos hch]
      subst hch
      cases word with
      | nil =>
        rw [List.isEmpty_nil, if_pos rfl, ih]
        by_cases hc : c = ' '
        · simp [hc]
        · simp [hc]
      | cons a l =>
        rw [List.isEmpty_cons, if_neg (by simp), List.exists_mem_cons_iff, ih]
        by_cases hc : c = ' '
        · simp [hc]
        · simp [hc]
    · rw [if_neg hch, ih]
      by_cases hc : c = ch
      · subst hc
        simp [hch]
      · simp [hc]

theorem mem_SplitIntoWords (text : Str) (c : Char) :
    (∃ w ∈ SplitIntoWords text, c ∈ w) ↔ (c ∈ text ∧ c ≠ ' ') := by
  simp [SplitIntoWords, mem_SplitIntoWordsLoop]

theorem IsValidWord_iff (word : Str) : IsValidWord word = true ↔ ∀ c ∈ word, ¬ c.toNat < 32 := by
  simp [IsValidWord]

theorem IsValidWord_eq_false_iff (word : Str) :
    IsValidWord word = false ↔ ∃ c ∈ word, c.toNat < 32 := by
  rw [← Bool.not_eq_true, IsValidWord_iff]
  push_neg
  rfl

theorem IsValidWord_iff_words (text : Str) :
    IsValidWord text = true ↔ ∀ w ∈ SplitIntoWords text, IsValidWord w = true := by
  simp only [IsValidWord_iff]
  constructor
  · intro h w hw c hc
    exact h c ((mem_SplitIntoWords text c).mp ⟨w, hw, hc⟩).1
  · intro h c hc hlt
    have hne : c ≠ ' ' := by
      intro hsp
      rw [hsp] at hlt
      exact absurd hlt (by decide)
    obtain ⟨w, hw, hcw⟩ := (mem_SplitIntoWords text c).mpr ⟨hc, hne⟩
    exact h w hw c hcw hlt

/-! ## `AddDocument` -/

namespace SearchServer

variable {R : Type} [LinearOrderedField R]

theorem SplitIntoWordsNoStopLoop_ok (s : SearchServer R) (ws : List Str)
    (h : ∀ w ∈ ws, IsValidWord w = true) :
    s.SplitIntoWordsNoStopLoop ws = .ok (ws.filter (fun w => !s.IsStopWord w)) := by
  induction ws with
  | nil => rfl
  | cons w rest ih =>
    have hw : IsValidWord w = true := h w (List.mem_cons_self _ _)
    have ih1 := ih (fun x hx => h x (List.mem_cons_of_mem _ hx))
    unfold SplitIntoWordsNoStopLoop
    rw [ih1]
    by_cases hs : s.IsStopWord w = true
    · simp [hw, hs, List.filter_cons]
    · simp [hw, hs, List.filter_cons]

theorem SplitIntoWordsNoStop_ok (s : SearchServer R) (text : Str) (h : IsValidWord text = true) :
    s.SplitIntoWordsNoStop text = .ok (s.indexableWords text) :=
  SplitIntoWordsNoStopLoop_ok s _ ((IsValidWord_iff_words text).mp h)

theorem AddDocument_error (s : SearchServer R) (document_id : Int) (document : Str)
    (status : DocumentStatus) (ratings : List Int) :
    (s.AddDocument document_id document status ratings).error =
      if IsValidWord document = false ∨ document_id < 0 ∨ s.documents_.count document_id = true
      then some Error.invalid_argument else none := by
  unfold AddDocument
  by_cases hv : IsValidWord document = true
  · by_cases hid : document_id < 0 ∨ s.documents_.count document_id = true
    · simp [hv, hid]
    · rw [SplitIntoWordsNoStop_ok s document hv]
      simp [hv, hid]
  · simp [hv]

theorem AddDocument_state (s : SearchServer R) (document_id : Int) (document : Str)
    (status : DocumentStatus) (ratings : List Int)
    (h : (s.AddDocument document_id document status ratings).error = none) :
    (s.AddDocument document_id document status ratings).state =
      { (s.indexableWords document).foldl
          (addWord document_id (1 / ((s.indexableWords document).length : R))) s with
        documents_ := ((s.indexableWords document).foldl
          (addWord document_id (1 / ((s.indexableWords document).length : R))) s).documents_.emplace
            document_id ⟨ComputeAverageRating ratings, status⟩
        document_ids_ := ((s.indexableWords document).foldl
          (addWord document_id (1 / ((s.indexableWords document).length : R))) s).document_ids_.insert
            document_id } := by
  rw [AddDocument_error] at h
  by_cases hc : IsValidWord document = false ∨ document_id < 0 ∨ s.documents_.count document_id = true
  · simp [hc] at h
  · have hv : IsValidWord document = true := by
      cases hv : IsValidWord document with
      | true => rfl
      | false => exact absurd (Or.inl hv) hc
    have hid : ¬ (document_id < 0 ∨ s.documents_.count document_id = true) :=
      fun h1 => hc (Or.inr h1)
    unfold AddDocument
    rw [SplitIntoWordsNoStop_ok s document hv]
    simp [hv, hid]

theorem AddDocument_state_of_error (s : SearchServer R) (document_id : Int) (document : Str)
    (status : DocumentStatus) (ratings : List Int) (e : Error)
    (h : (s.AddDocument document_id document status ratings).error = some e) :
    (s.AddDocument document_id document status ratings).state = s := by
  unfold AddDocument at h ⊢
  by_cases hv : IsValidWord document = true
  · by_cases hid : document_id < 0 ∨ s.documents_.count document_id = true
    · simp [hv, hid]
    · rw [SplitIntoWordsNoStop_ok s document hv] at h
      simp [hv, hid] at h
  · simp [hv]

/-! ### The loop of `AddDocument` -/

theorem posting_addWord (s : SearchServer R) (document_id : Int) (inv : R) (word : Str)
    (w : Str) (d : Int) :
    (addWord document_id inv s word).posting w d =
      if w = word ∧ d = document_id then some ((s.posting word document_id).getD 0 + inv)
      else s.posting w d := by
  unfold posting addWord
  simp only [OrderedMap.find?_insert]
  by_cases hw : w = word
  · subst hw
    by_cases hd : d = document_id
    · subst hd
      cases hf : s.word_to_document_freqs_.find? w <;> simp [OrderedMap.find?_insert]
    · cases hf : s.word_to_document_freqs_.find? w <;> simp [OrderedMap.find?_insert, hd]
  · simp [hw]

theorem rowEntry_addWord (s : SearchServer R) (document_id : Int) (inv : R) (word : Str)
    (d : Int) (w : Str) :
    (addWord document_id inv s word).rowEntry d w =
      if w = word ∧ d = document_id then some ((s.rowEntry document_id word).getD 0 + inv)
      else s.rowEntry d w := by
  unfold rowEntry addWord
  simp only [OrderedMap.find?_insert]
  by_cases hd : d = document_id
  · subst hd
    by_cases hw : w = word
    · subst hw
      cases hf : s.document_to_word_freqs_.find? d <;> simp [OrderedMap.find?_insert]
    · cases hf : s.document_to_word_freqs_.find? d <;> simp [OrderedMap.find?_insert, hw]
  · simp [hd]

theorem count_addWord (s : SearchServer R) (document_id : Int) (inv : R) (word w : Str) :
    (addWord document_id inv s word).word_to_document_freqs_.count w =
      (decide (w = word) || s.word_to_document_freqs_.count w) := by
  unfold addWord OrderedMap.count
  simp only [OrderedMap.find?_insert]
  by_cases hw : w = word <;> simp [hw]

theorem row_addWord_of_ne (s : SearchServer R) (document_id : Int) (inv : R) (word : Str)
    (d : Int) (hd : d ≠ document_id) :
    (addWord document_id inv s word).document_to_word_freqs_.find? d =
      s.document_to_word_freqs_.find? d := by
  unfold addWord
  simp [OrderedMap.find?_insert, hd]

theorem foldl_addWord_fixed (document_id : Int) (inv : R) (words : List Str) (s : SearchServer R) :
    (words.foldl (addWord document_id inv) s).stop_words_ = s.stop_words_ ∧
    (words.foldl (addWord document_id inv) s).documents_ = s.documents_ ∧
    (words.foldl (addWord document_id inv) s).document_ids_ = s.document_ids_ := by
  induction words generalizing s with
  | nil => exact ⟨rfl, rfl, rfl⟩
  | cons w rest ih => exact ih (addWord document_id inv s w)

theorem posting_foldl_addWord (document_id : Int) (inv : R) (words : List Str)
    (s : SearchServer R) (w : Str) (d : Int) :
    (words.foldl (addWord document_id inv) s).posting w d =
      if d = document_id ∧ w ∈ words then
        some ((s.posting w document_id).getD 0 + (words.count w : R) * inv)
      else s.posting w d := by
  induction words generalizing s with
  | nil => simp
  | cons a rest ih =>
    rw [List.foldl_cons, ih, posting_addWord, posting_addWord]
    by_cases hd : d = document_id
    · subst hd
      by_cases hwa : w = a
      · subst hwa
        by_cases hr : w ∈ rest
        · simp [hr]
          ring
        · simp [hr, List.count_eq_zero_of_not_mem hr]
      · have hne : ¬ a = w := fun h => hwa h.symm
        by_cases hr : w ∈ rest
        · simp [hr, hwa, List.count_cons, hne]
        · simp [hr, hwa]
    · simp [hd]

theorem rowEntry_foldl_addWord (document_id : Int) (inv : R) (words : List Str)
    (s : SearchServer R) (d : Int) (w : Str) :
    (words.foldl (addWord document_id inv) s).rowEntry d w =
      if d = document_id ∧ w ∈ words then
        some ((s.rowEntry document_id w).getD 0 + (words.count w : R) * inv)
      else s.rowEntry d w := by
  induction words generalizing s with
  | nil => simp
  | cons a rest ih =>
    rw [List.foldl_cons, ih, rowEntry_addWord, rowEntry_addWord]
    by_cases hd : d = document_id
    · subst hd
      by_cases hwa : w = a
      · subst hwa
        by_cases hr : w ∈ rest
        · simp [hr]
          ring
        · simp [hr, List.count_eq_zero_of_not_mem hr]
      · have hne : ¬ a = w := fun h => hwa h.symm
        by_cases hr : w ∈ rest
        · simp [hr, hwa, List.count_cons, hne]
        · simp [hr, hwa]
    · simp [hd]

theorem count_foldl_addWord (document_id : Int) (inv : R) (words : List Str)
    (s : SearchServer R) (w : Str) :
    (words.foldl (addWord document_id inv) s).word_to_document_freqs_.count w =
      (decide (w ∈ words) || s.word_to_document_freqs_.count w) := by
  induction words generalizing s with
  | nil => simp
  | cons a rest ih =>
    rw [List.foldl_cons, ih, count_addWord]
    by_cases hwa : w = a <;> by_cases hr : w ∈ rest <;> simp [hwa, hr]

theorem row_foldl_addWord_of_ne (document_id : Int) (inv : R) (words : List Str)
    (s : SearchServer R) (d : Int) (hd : d ≠ document_id) :
    (words.foldl (addWord document_id inv) s).document_to_word_freqs_.find? d =
      s.document_to_word_freqs_.find? d := by
  induction words generalizing s with
  | nil => rfl
  | cons a rest ih => rw [List.foldl_cons, ih, row_addWord_of_ne _ _ _ _ _ hd]

/-! ### The loop of `RemoveDocument` -/

theorem posting_erase_step (s : SearchServer R) (document_id : Int) (word : Str)
    (postings : OrderedMap Int R) (hf : s.word_to_document_freqs_.find? word = some postings)
    (w : Str) (d : Int) :
    posting { s with word_to_document_freqs_ :=
        s.word_to_document_freqs_.insert word (postings.erase document_id) } w d =
      if w = word ∧ d = document_id then none else s.posting w d := by
  unfold posting
  simp only [OrderedMap.find?_insert]
  by_cases hw : w = word
  · subst hw
    by_cases hd : d = document_id
    · simp [hd, OrderedMap.find?_erase]
    · simp [hd, OrderedMap.find?_erase, hf]
  · simp [hw]

theorem count_erase_step (s : SearchServer R) (document_id : Int) (word : Str)
    (postings : OrderedMap Int R) (hf : s.word_to_document_freqs_.find? word = some postings)
    (w : Str) :
    (s.word_to_document_freqs_.insert word (postings.erase document_id)).count w =
      s.word_to_document_freqs_.count w := by
  unfold OrderedMap.count
  rw [OrderedMap.find?_insert]
  by_cases hw : w = word
  · simp [hw, hf]
  · simp [hw]

theorem erasePostingsOf_fixed (document_id : Int) (words : List Str) (s : SearchServer R) :
    (erasePostingsOf document_id words s).state.stop_words_ = s.stop_words_ ∧
    (erasePostingsOf document_id words s).state.documents_ = s.documents_ ∧
    (erasePostingsOf document_id words s).state.document_ids_ = s.document_ids_ ∧
    (erasePostingsOf document_id words s).state.document_to_word_freqs_ =
      s.document_to_word_freqs_ ∧
    ∀ w, (erasePostingsOf document_id words s).state.word_to_document_freqs_.count w =
      s.word_to_document_freqs_.count w := by
  induction words generalizing s with
  | nil => exact ⟨rfl, rfl, rfl, rfl, fun _ => rfl⟩
  | cons a rest ih =>
    unfold erasePostingsOf
    cases hf : s.word_to_document_freqs_.find? a with
    | none => exact ⟨rfl, rfl, rfl, rfl, fun _ => rfl⟩
    | some postings =>
      obtain ⟨h1, h2, h3, h4, h5⟩ := ih
        { s with word_to_document_freqs_ :=
            s.word_to_document_freqs_.insert a (postings.erase document_id) }
      refine ⟨h1, h2, h3, h4, fun w => ?_⟩
      rw [h5 w]
      exact count_erase_step s document_id a postings hf w

theorem posting_erasePostingsOf_some (document_id : Int) (words : List Str) (s : SearchServer R)
    (w : Str) (d : Int) (tf : R)
    (h : (erasePostingsOf document_id words s).state.posting w d = some tf) :
    s.posting w d = some tf := by
  induction words generalizing s with
  | nil => exact h
  | cons a rest ih =>
    unfold erasePostingsOf at h
    cases hf : s.word_to_document_freqs_.find? a with
    | none =>
      rw [hf] at h
      exact h
    | some postings =>
      rw [hf] at h
      have h1 := ih _ h
      rw [posting_erase_step s document_id a postings hf] at h1
      by_cases hc : w = a ∧ d = document_id
      · simp [hc] at h1
      · simpa [hc] using h1

theorem posting_erasePostingsOf (document_id : Int) (words : List Str) (s : SearchServer R)
    (hok : (erasePostingsOf document_id words s).error = none) (w : Str) (d : Int) :
    (erasePostingsOf document_id words s).state.posting w d =
      if d = document_id ∧ w ∈ words then none else s.posting w d := by
  induction words generalizing s with
  | nil => simp [erasePostingsOf]
  | cons a rest ih =>
    unfold erasePostingsOf at hok ⊢
    cases hf : s.word_to_document_freqs_.find? a with
    | none =>
      rw [hf] at hok
      simp at hok
    | some postings =>
      rw [hf] at hok
      simp only
      rw [ih _ hok, posting_erase_step s document_id a postings hf]
      by_cases hd : d = document_id
      · by_cases hwa : w = a
        · simp [hd, hwa]
        · by_cases hr : w ∈ rest <;> simp [hd, hwa, hr]
      · simp [hd]

/-! ### What a successful `AddDocument` does -/

theorem AddDocument_not_count (s : SearchServer R) (document_id : Int) (document : Str)
    (status : DocumentStatus) (ratings : List Int)
    (h : (s.AddDocument document_id document status ratings).error = none) :
    IsValidWord document = true ∧ 0 ≤ document_id ∧ s.documents_.find? document_id = none := by
  rw [AddDocument_error] at h
  by_cases hc : IsValidWord document = false ∨ document_id < 0 ∨ s.documents_.count document_id = true
  · simp [hc] at h
  · push_neg at hc
    obtain ⟨h1, h2, h3⟩ := hc
    refine ⟨by simpa using h1, by omega, ?_⟩
    simpa [OrderedMap.count] using h3

theorem AddDocument_stop_words (s : SearchServer R) (document_id : Int) (document : Str)
    (status : DocumentStatus) (ratings : List Int) :
    (s.AddDocument document_id document status ratings).state.stop_words_ = s.stop_words_ := by
  cases h : (s.AddDocument document_id document status ratings).error with
  | some e => rw [AddDocument_state_of_error s _ _ _ _ e h]
  | none =>
    rw [AddDocument_state s _ _ _ _ h]
    exact (foldl_addWord_fixed _ _ _ s).1

theorem AddDocument_posting (s : SearchServer R) (document_id : Int) (document : Str)
    (status : DocumentStatus) (ratings : List Int)
    (h : (s.AddDocument document_id document status ratings).error = none) (w : Str) (d : Int) :
    (s.AddDocument document_id document status ratings).state.posting w d =
      if d = document_id ∧ w ∈ s.indexableWords document then
        some ((s.posting w document_id).getD 0 +
          ((s.indexableWords document).count w : R) * (1 / ((s.indexableWords document).length : R)))
      else s.posting w d := by
  rw [AddDocument_state s _ _ _ _ h, ← posting_foldl_addWord]
  rfl

theorem AddDocument_rowEntry (s : SearchServer R) (document_id : Int) (document : Str)
    (status : DocumentStatus) (ratings : List Int)
    (h : (s.AddDocument document_id document status ratings).error = none) (d : Int) (w : Str) :
    (s.AddDocument document_id document status ratings).state.rowEntry d w =
      if d = document_id ∧ w ∈ s.indexableWords document then
        some ((s.rowEntry document_id w).getD 0 +
          ((s.indexableWords document).count w : R) * (1 / ((s.indexableWords document).length : R)))
      else s.rowEntry d w := by
  rw [AddDocument_state s _ _ _ _ h, ← rowEntry_foldl_addWord]
  rfl

theorem AddDocument_count (s : SearchServer R) (document_id : Int) (document : Str)
    (status : DocumentStatus) (ratings : List Int)
    (h : (s.AddDocument document_id document status ratings).error = none) (w : Str) :
    (s.AddDocument document_id document status ratings).state.word_to_document_freqs_.count w =
      (decide (w ∈ s.indexableWords document) || s.word_to_document_freqs_.count w) := by
  rw [AddDocument_state s _ _ _ _ h, ← count_foldl_addWord]

theorem AddDocument_documents (s : SearchServer R) (document_id : Int) (document : Str)
    (status : DocumentStatus) (ratings : List Int)
    (h : (s.AddDocument document_id document status ratings).error = none) (d : Int) :
    (s.AddDocument document_id document status ratings).state.documents_.find? d =
      if d = document_id then some ⟨ComputeAverageRating ratings, status⟩
      else s.documents_.find? d := by
  have hn := (AddDocument_not_count s _ _ _ _ h).2.2
  rw [AddDocument_state s _ _ _ _ h]
  simp only [(foldl_addWord_fixed _ _ _ s).2.1, OrderedMap.find?_emplace, hn, Option.getD_none]

theorem AddDocument_document_ids (s : SearchServer R) (document_id : Int) (document : Str)
    (status : DocumentStatus) (ratings : List Int)
    (h : (s.AddDocument document_id document status ratings).error = none) (d : Int) :
    (s.AddDocument document_id document status ratings).state.document_ids_.contains d =
      (decide (d = document_id) || s.document_ids_.contains d) := by
  rw [AddDocument_state s _ _ _ _ h]
  simp only [(foldl_addWord_fixed _ _ _ s).2.2, OrderedSet.contains_insert]

theorem AddDocument_row_of_ne (s : SearchServer R) (document_id : Int) (document : Str)
    (status : DocumentStatus) (ratings : List Int) (d : Int) (hd : d ≠ document_id) :
    (s.AddDocument document_id document status ratings).state.document_to_word_freqs_.find? d =
      s.document_to_word_freqs_.find? d := by
  cases h : (s.AddDocument document_id document status ratings).error with
  | some e => rw [AddDocument_state_of_error s _ _ _ _ e h]
  | none =>
    rw [AddDocument_state s _ _ _ _ h]
    exact row_foldl_addWord_of_ne _ _ _ s d hd

theorem mem_indexableWords (s : SearchServer R) (text : Str) (w : Str) :
    w ∈ s.indexableWords text ↔ w ∈ SplitIntoWords text ∧ s.IsStopWord w = false := by
  simp [indexableWords]

theorem WellFormed.afterAdd {s : SearchServer R} (hs : WellFormed s) (document_id : Int)
    (document : Str) (status : DocumentStatus) (ratings : List Int)
    (h : (s.AddDocument document_id document status ratings).error = none) :
    WellFormed (s.AddDocument document_id document status ratings).state := by
  have hstop : ∀ w, (s.AddDocument document_id document status ratings).state.IsStopWord w =
      s.IsStopWord w := by
    intro w
    unfold IsStopWord
    rw [AddDocument_stop_words]
  constructor
  · intro d
    rw [OrderedMap.count, AddDocument_documents s _ _ _ _ h, AddDocument_document_ids s _ _ _ _ h,
      ← hs.ids_documents d, OrderedMap.count]
    by_cases hd : d = document_id <;> simp [hd]
  · intro w d tf hp
    rw [AddDocument_posting s _ _ _ _ h] at hp
    rw [OrderedMap.count, AddDocument_documents s _ _ _ _ h]
    by_cases hd : d = document_id
    · simp [hd]
    · simp only [hd, false_and, if_false] at hp ⊢
      exact hs.posting_live w d tf hp
  · intro w d tf hp
    rw [AddDocument_posting s _ _ _ _ h] at hp
    rw [AddDocument_rowEntry s _ _ _ _ h]
    by_cases hc : d = document_id ∧ w ∈ s.indexableWords document
    · rw [if_pos hc]
      exact ⟨_, rfl⟩
    · rw [if_neg hc] at hp ⊢
      exact hs.posting_row w d tf hp
  · intro w hw
    rw [hstop]
    rw [AddDocument_count s _ _ _ _ h] at hw
    by_cases hm : w ∈ s.indexableWords document
    · exact ((mem_indexableWords s document w).mp hm).2
    · simp only [hm, decide_False, Bool.false_or] at hw
      exact hs.no_stop_key w hw
  · intro d w tf hr
    rw [hstop]
    rw [AddDocument_rowEntry s _ _ _ _ h] at hr
    by_cases hc : d = document_id ∧ w ∈ s.indexableWords document
    · exact ((mem_indexableWords s document w).mp hc.2).2
    · rw [if_neg hc] at hr
      exact hs.no_stop_row d w tf hr
  · intro d w tf hr
    rw [AddDocument_rowEntry s _ _ _ _ h] at hr
    rw [AddDocument_count s _ _ _ _ h]
    by_cases hc : d = document_id ∧ w ∈ s.indexableWords document
    · simp [hc.2]
    · rw [if_neg hc] at hr
      simp [hs.row_term d w tf hr]

/-! ### What a successful `RemoveDocument` does -/

theorem mem_row_words (row : OrderedMap Str R) (w : Str) :
    w ∈ row.toList.map Prod.fst ↔ ∃ tf, row.find? w = some tf := by
  rw [OrderedMap.map_fst_toList, OrderedMap.mem_keys]

theorem RemoveDocument_state (s : SearchServer R) (document_id : Int)
    (h : (s.RemoveDocument document_id).error = none) :
    ∃ row, s.document_to_word_freqs_.find? document_id = some row ∧
      (erasePostingsOf document_id (row.toList.map Prod.fst) s).error = none ∧
      (s.RemoveDocument document_id).state =
        { (erasePostingsOf document_id (row.toList.map Prod.fst) s).state with
          document_to_word_freqs_ := (erasePostingsOf document_id (row.toList.map Prod.fst)
            s).state.document_to_word_freqs_.erase document_id
          document_ids_ := (erasePostingsOf document_id (row.toList.map Prod.fst)
            s).state.document_ids_.erase document_id
          documents_ := (erasePostingsOf document_id (row.toList.map Prod.fst)
            s).state.documents_.erase document_id } := by
  unfold RemoveDocument at h ⊢
  cases hf : s.document_to_word_freqs_.find? document_id with
  | none =>
    rw [hf] at h
    simp at h
  | some row =>
    rw [hf] at h
    cases he : (erasePostingsOf document_id (row.toList.map Prod.fst) s).error with
    | some e =>
      simp only [he] at h
      simp at h
    | none =>
      refine ⟨row, rfl, he, ?_⟩
      simp only [he]

theorem RemoveDocument_posting (s : SearchServer R) (document_id : Int)
    (h : (s.RemoveDocument document_id).error = none) (w : Str) (d : Int) :
    (s.RemoveDocument document_id).state.posting w d =
      if d = document_id ∧ (s.rowEntry document_id w).isSome = true then none
      else s.posting w d := by
  obtain ⟨row, hrow, hok, hst⟩ := RemoveDocument_state s document_id h
  rw [hst]
  have := posting_erasePostingsOf document_id (row.toList.map Prod.fst) s hok w d
  unfold posting at this ⊢
  rw [this]
  have hmem : w ∈ row.toList.map Prod.fst ↔ (s.rowEntry document_id w).isSome = true := by
    rw [mem_row_words, rowEntry, hrow, Option.isSome_iff_exists]
    rfl
  simp only [hmem]

theorem RemoveDocument_fields (s : SearchServer R) (document_id : Int)
    (h : (s.RemoveDocument document_id).error = none) :
    (s.RemoveDocument document_id).state.stop_words_ = s.stop_words_ ∧
    (s.RemoveDocument document_id).state.documents_ = s.documents_.erase document_id ∧
    (s.RemoveDocument document_id).state.document_ids_ = s.document_ids_.erase document_id ∧
    (s.RemoveDocument document_id).state.document_to_word_freqs_ =
      s.document_to_word_freqs_.erase document_id ∧
    ∀ w, (s.RemoveDocument document_id).state.word_to_document_freqs_.count w =
      s.word_to_document_freqs_.count w := by
  obtain ⟨row, _, _, hst⟩ := RemoveDocument_state s document_id h
  obtain ⟨h1, h2, h3, h4, h5⟩ := erasePostingsOf_fixed document_id (row.toList.map Prod.fst) s
  rw [hst]
  exact ⟨h1, by simp only [h2], by simp only [h3], by simp only [h4], h5⟩

theorem rowEntry_erase (s s1 : SearchServer R) (document_id : Int)
    (h : s1.document_to_word_freqs_ = s.document_to_word_freqs_.erase document_id)
    (d : Int) (w : Str) :
    s1.rowEntry d w = if d = document_id then none else s.rowEntry d w := by
  unfold rowEntry
  rw [h, OrderedMap.find?_erase]
  by_cases hd : d = document_id <;> simp [hd]

theorem WellFormed.afterRemove {s : SearchServer R} (hs : WellFormed s) (document_id : Int)
    (h : (s.RemoveDocument document_id).error = none) :
    WellFormed (s.RemoveDocument document_id).state := by
  obtain ⟨h1, h2, h3, h4, h5⟩ := RemoveDocument_fields s document_id h
  have hstop : ∀ w, (s.RemoveDocument document_id).state.IsStopWord w = s.IsStopWord w := by
    intro w
    unfold IsStopWord
    rw [h1]
  have hpost : ∀ w d tf, (s.RemoveDocument document_id).state.posting w d = some tf →
      d ≠ document_id ∧ s.posting w d = some tf := by
    intro w d tf hp
    rw [RemoveDocument_posting s document_id h] at hp
    by_cases hd : d = document_id
    · subst hd
      by_cases hr : (s.rowEntry d w).isSome = true
      · simp [hr] at hp
      · simp only [hr, and_false, if_false] at hp
        obtain ⟨tf1, htf1⟩ := hs.posting_row w d tf hp
        simp [htf1] at hr
    · simp only [hd, false_and, if_false] at hp
      exact ⟨hd, hp⟩
  constructor
  · intro d
    rw [h2, h3, OrderedMap.count, OrderedMap.find?_erase, OrderedSet.contains_erase,
      ← hs.ids_documents d, OrderedMap.count]
    by_cases hd : d = document_id <;> simp [hd]
  · intro w d tf hp
    obtain ⟨hd, hp1⟩ := hpost w d tf hp
    rw [h2, OrderedMap.count, OrderedMap.find?_erase, if_neg hd]
    exact hs.posting_live w d tf hp1
  · intro w d tf hp
    obtain ⟨hd, hp1⟩ := hpost w d tf hp
    rw [rowEntry_erase s _ document_id h4, if_neg hd]
    exact hs.posting_row w d tf hp1
  · intro w hw
    rw [hstop]
    rw [h5] at hw
    exact hs.no_stop_key w hw
  · intro d w tf hr
    rw [hstop]
    rw [rowEntry_erase s _ document_id h4] at hr
    by_cases hd : d = document_id
    · simp [hd] at hr
    · rw [if_neg hd] at hr
      exact hs.no_stop_row d w tf hr
  · intro d w tf hr
    rw [rowEntry_erase s _ document_id h4] at hr
    rw [h5]
    by_cases hd : d = document_id
    · simp [hd] at hr
    · rw [if_neg hd] at hr
      exact hs.row_term d w tf hr

/-! ### What a successful `RemoveDocument(parallel_policy, id)` does -/

theorem RemoveDocumentPar_state (s : SearchServer R) (document_id : Int)
    (h : (s.RemoveDocumentPar document_id).error = none) :
    (s.document_to_word_freqs_.find? document_id = none ∧
      (s.RemoveDocumentPar document_id).state = s) ∨
    ∃ row, s.document_to_word_freqs_.find? document_id = some row ∧
      (erasePostingsOf document_id (row.toList.map Prod.fst) s).error = none ∧
      (s.RemoveDocumentPar document_id).state =
        { (erasePostingsOf document_id (row.toList.map Prod.fst) s).state with
          document_ids_ := (erasePostingsOf document_id (row.toList.map Prod.fst)
            s).state.document_ids_.erase document_id
          documents_ := (erasePostingsOf document_id (row.toList.map Prod.fst)
            s).state.documents_.erase document_id } := by
  unfold RemoveDocumentPar at h ⊢
  cases hf : s.document_to_word_freqs_.find? document_id with
  | none =>
    left
    simp [OrderedMap.count, hf]
  | some row =>
    right
    have hc : s.document_to_word_freqs_.count document_id = true := by
      simp [OrderedMap.count, hf]
    simp only [hc, Bool.not_true, Bool.false_eq_true, if_false, hf] at h ⊢
    cases he : (erasePostingsOf document_id (row.toList.map Prod.fst) s).error with
    | some e =>
      simp only [he] at h
      simp at h
    | none =>
      refine ⟨row, rfl, he, ?_⟩
      simp only [he]

theorem RemoveDocumentPar_posting (s : SearchServer R) (document_id : Int)
    (h : (s.RemoveDocumentPar document_id).error = none) (w : Str) (d : Int) :
    (s.RemoveDocumentPar document_id).state.posting w d =
      if d = document_id ∧ (s.rowEntry document_id w).isSome = true then none
      else s.posting w d := by
  rcases RemoveDocumentPar_state s document_id h with ⟨hnone, hst⟩ | ⟨row, hrow, hok, hst⟩
  · rw [hst]
    have : s.rowEntry document_id w = none := by simp [rowEntry, hnone]
    simp [this]
  · rw [hst]
    have := posting_erasePostingsOf document_id (row.toList.map Prod.fst) s hok w d
    unfold posting at this ⊢
    rw [this]
    have hmem : w ∈ row.toList.map Prod.fst ↔ (s.rowEntry document_id w).isSome = true := by
      rw [mem_row_words, rowEntry, hrow, Option.isSome_iff_exists]
      rfl
    simp only [hmem]

theorem RemoveDocumentPar_fields (s : SearchServer R) (document_id : Int)
    (h : (s.RemoveDocumentPar document_id).error = none) :
    (s.RemoveDocumentPar document_id).state.stop_words_ = s.stop_words_ ∧
    (s.RemoveDocumentPar document_id).state.document_to_word_freqs_ =
      s.document_to_word_freqs_ ∧
    (∀ w, (s.RemoveDocumentPar document_id).state.word_to_document_freqs_.count w =
      s.word_to_document_freqs_.count w) ∧
    ((s.document_to_word_freqs_.find? document_id = none ∧
        (s.RemoveDocumentPar document_id).state.documents_ = s.documents_ ∧
        (s.RemoveDocumentPar document_id).state.document_ids_ = s.document_ids_) ∨
      ((s.document_to_word_freqs_.count document_id = true) ∧
        (s.RemoveDocumentPar document_id).state.documents_ = s.documents_.erase document_id ∧
        (s.RemoveDocumentPar document_id).state.document_ids_ =
          s.document_ids_.erase document_id)) := by
  rcases RemoveDocumentPar_state s document_id h with ⟨hnone, hst⟩ | ⟨row, hrow, hok, hst⟩
  · rw [hst]
    exact ⟨rfl, rfl, fun _ => rfl, Or.inl ⟨hnone, rfl, rfl⟩⟩
  · obtain ⟨h1, h2, h3, h4, h5⟩ := erasePostingsOf_fixed document_id (row.toList.map Prod.fst) s
    rw [hst]
    refine ⟨h1, h4, h5, Or.inr ⟨?_, ?_, ?_⟩⟩
    · simp [OrderedMap.count, hrow]
    · simp only [h2]
    · simp only [h3]

theorem WellFormed.afterRemovePar {s : SearchServer R} (hs : WellFormed s) (document_id : Int)
    (h : (s.RemoveDocumentPar document_id).error = none) :
    WellFormed (s.RemoveDocumentPar document_id).state := by
  obtain ⟨h1, h4, h5, hcases⟩ := RemoveDocumentPar_fields s document_id h
  have hstop : ∀ w, (s.RemoveDocumentPar document_id).state.IsStopWord w = s.IsStopWord w := by
    intro w
    unfold IsStopWord
    rw [h1]
  have hrow : ∀ d w, (s.RemoveDocumentPar document_id).state.rowEntry d w = s.rowEntry d w := by
    intro d w
    unfold rowEntry
    rw [h4]
  have hpost : ∀ w d tf, (s.RemoveDocumentPar document_id).state.posting w d = some tf →
      s.posting w d = some tf ∧
        (d = document_id → s.document_to_word_freqs_.find? document_id = none) := by
    intro w d tf hp
    rw [RemoveDocumentPar_posting s document_id h] at hp
    by_cases hd : d = document_id
    · subst hd
      by_cases hr : (s.rowEntry d w).isSome = true
      · simp [hr] at hp
      · simp only [hr, and_false, if_false] at hp
        obtain ⟨tf1, htf1⟩ := hs.posting_row w d tf hp
        simp [htf1] at hr
    · simp only [hd, false_and, if_false] at hp
      exact ⟨hp, fun h => absurd h hd⟩
  constructor
  · intro d
    rcases hcases with ⟨_, h2, h3⟩ | ⟨_, h2, h3⟩
    · rw [h2, h3]
      exact hs.ids_documents d
    · rw [h2, h3, OrderedMap.count, OrderedMap.find?_erase, OrderedSet.contains_erase,
        ← hs.ids_documents d, OrderedMap.count]
      by_cases hd : d = document_id <;> simp [hd]
  · intro w d tf hp
    obtain ⟨hp1, hd⟩ := hpost w d tf hp
    rcases hcases with ⟨_, h2, _⟩ | ⟨hc, h2, _⟩
    · rw [h2]
      exact hs.posting_live w d tf hp1
    · have hne : d ≠ document_id := by
        intro hd1
        have := hd hd1
        simp [OrderedMap.count, this] at hc
      rw [h2, OrderedMap.count, OrderedMap.find?_erase, if_neg hne]
      exact hs.posting_live w d tf hp1
  · intro w d tf hp
    rw [hrow]
    exact hs.posting_row w d tf (hpost w d tf hp).1
  · intro w hw
    rw [hstop]
    rw [h5] at hw
    exact hs.no_stop_key w hw
  · intro d w tf hr
    rw [hstop]
    rw [hrow] at hr
    exact hs.no_stop_row d w tf hr
  · intro d w tf hr
    rw [hrow] at hr
    rw [h5]
    exact hs.row_term d w tf hr

/-! ### Calls that throw -/

theorem erasePostingsOf_error (document_id : Int) (words : List Str) (s : SearchServer R)
    (h : ∀ w ∈ words, s.word_to_document_freqs_.count w = true) :
    (erasePostingsOf document_id words s).error = none := by
  induction words generalizing s with
  | nil => rfl
  | cons a rest ih =>
    obtain ⟨postings, hf⟩ := (OrderedMap.count_eq_true_iff _ _).mp (h a (List.mem_cons_self _ _))
    unfold erasePostingsOf
    rw [hf]
    apply ih
    intro w hw
    show (s.word_to_document_freqs_.insert a (postings.erase document_id)).count w = true
    rw [count_erase_step s document_id a postings hf w]
    exact h w (List.mem_cons_of_mem _ hw)

theorem erasePostingsOf_row_error {s : SearchServer R} (hs : WellFormed s) (document_id : Int)
    (row : OrderedMap Str R) (hrow : s.document_to_word_freqs_.find? document_id = some row) :
    (erasePostingsOf document_id (row.toList.map Prod.fst) s).error = none := by
  apply erasePostingsOf_error
  intro w hw
  obtain ⟨tf, htf⟩ := (mem_row_words row w).mp hw
  exact hs.row_term document_id w tf (by simp [rowEntry, hrow, htf])

/-- On a well-formed state `RemoveDocument(int)` throws exactly when the id has
no forward-index row, and then changes nothing. -/
theorem RemoveDocument_error {s : SearchServer R} (hs : WellFormed s) (document_id : Int) :
    (s.RemoveDocument document_id).error =
      (if s.document_to_word_freqs_.count document_id = true then none
        else some Error.out_of_range) ∧
    ((s.RemoveDocument document_id).error ≠ none → (s.RemoveDocument document_id).state = s) := by
  unfold RemoveDocument
  cases hf : s.document_to_word_freqs_.find? document_id with
  | none => simp [OrderedMap.count, hf]
  | some row =>
    have he := erasePostingsOf_row_error hs document_id row hf
    simp only [he]
    simp [OrderedMap.count, hf]

/-- On a well-formed state `RemoveDocument(parallel_policy, int)` never throws. -/
theorem RemoveDocumentPar_error {s : SearchServer R} (hs : WellFormed s) (document_id : Int) :
    (s.RemoveDocumentPar document_id).error = none := by
  unfold RemoveDocumentPar
  cases hf : s.document_to_word_freqs_.find? document_id with
  | none => simp [OrderedMap.count, hf]
  | some row =>
    have he := erasePostingsOf_row_error hs document_id row hf
    simp only [he]
    simp [OrderedMap.count, hf]

/-! ### Reachable states are well formed -/

theorem WellFormed.afterCreate (stop_words : List Str) (s : SearchServer R)
    (h : SearchServer.create stop_words = .ok s) : WellFormed s := by
  unfold SearchServer.create at h
  by_cases hv : (MakeUniqueNonEmptyStrings stop_words).toList.all IsValidWord = true
  · simp only [hv, if_true, Except.ok.injEq] at h
    subst h
    constructor
    · intro d
      rfl
    · intro w d tf hp
      simp [posting] at hp
    · intro w d tf hp
      simp [posting] at hp
    · intro w hw
      simp [OrderedMap.count] at hw
    · intro d w tf hr
      simp [rowEntry] at hr
    · intro d w tf hr
      simp [rowEntry] at hr
  · simp [hv] at h

end SearchServer

theorem History.wellFormedState {R : Type} [LinearOrderedField R] {ops : List Op} {s : SearchServer R}
    (h : History ops s) : SearchServer.WellFormed s := by
  induction h with
  | create stop_words s hc => exact SearchServer.WellFormed.afterCreate stop_words s hc
  | call ops s op _ hok ih =>
    cases op with
    | add document_id document status ratings => exact ih.afterAdd _ _ _ _ hok
    | remove document_id => exact ih.afterRemove _ hok
    | removePar document_id => exact ih.afterRemovePar _ hok

/-- A call that throws on a reachable state leaves the state as it was, so
the states after successful calls are all the states the server can be in. -/
theorem applyOp_state_of_error {R : Type} [LinearOrderedField R] {ops : List Op}
    {s : SearchServer R} (h : History ops s) (op : Op) (e : Error)
    (he : (applyOp s op).error = some e) : (applyOp s op).state = s := by
  cases op with
  | add document_id document status ratings =>
    exact SearchServer.AddDocument_state_of_error s document_id document status ratings e he
  | remove document_id =>
    exact (SearchServer.RemoveDocument_error h.wellFormedState document_id).2
      (by simp only [applyOp] at he; rw [he]; simp)
  | removePar document_id =>
    have := SearchServer.RemoveDocumentPar_error h.wellFormedState document_id
    simp only [applyOp] at he
    rw [this] at he
    cases he

theorem Reachable.wellFormed {R : Type} [LinearOrderedField R] {s : SearchServer R}
    (h : Reachable s) : SearchServer.WellFormed s := by
  obtain ⟨ops, hops⟩ := h
  exact hops.wellFormedState

/-! ## `ParseQuery` -/

namespace SearchServer

variable {R : Type} [LinearOrderedField R]

theorem ParseQueryWord_ok (s : SearchServer R) (text : Str) (query_word : QueryWord)
    (h : s.ParseQueryWord text = .ok query_word) :
    query_word.is_minus = decide (text.head? = some '-') ∧
    query_word.data = (if text.head? = some '-' then text.drop 1 else text) ∧
    query_word.is_stop = s.IsStopWord query_word.data := by
  unfold ParseQueryWord at h
  by_cases he : text.isEmpty = true
  · simp [he] at h
  · by_cases hm : text.head? = some '-'
    · simp only [he, hm, decide_True, if_true, Bool.false_eq_true, if_false] at h
      split at h
      · simp at h
      · simp only [Except.ok.injEq] at h
        subst h
        simp [hm]
    · simp only [he, hm, decide_False, Bool.false_eq_true, if_false] at h
      split at h
      · simp at h
      · simp only [Except.ok.injEq] at h
        subst h
        simp [hm]

theorem ParseQueryLoop_ok (s : SearchServer R) (words : List Str) (acc query : Query)
    (h : s.ParseQueryLoop words acc = .ok query) :
    query.plus_words = acc.plus_words ++ s.plusTermsOf words ∧
    query.minus_words = acc.minus_words ++ s.minusTermsOf words := by
  induction words generalizing acc with
  | nil =>
    simp only [ParseQueryLoop, Except.ok.injEq] at h
    subst h
    simp [plusTermsOf, minusTermsOf]
  | cons w rest ih =>
    unfold ParseQueryLoop at h
    cases hw : s.ParseQueryWord w with
    | error e =>
      rw [hw] at h
      simp at h
    | ok qw =>
      rw [hw] at h
      obtain ⟨h1, h2, h3⟩ := ParseQueryWord_ok s w qw hw
      simp only at h
      by_cases hm : w.head? = some '-'
      · have hmin : qw.is_minus = true := by rw [h1]; simp [hm]
        have hdata : qw.data = w.drop 1 := by rw [h2]; simp [hm]
        by_cases hstop : s.IsStopWord (w.drop 1) = true
        · have : qw.is_stop = true := by rw [h3, hdata]; exact hstop
          rw [List.drop_one] at hstop
          simp only [this, Bool.not_true, Bool.false_eq_true, if_false] at h
          obtain ⟨ih1, ih2⟩ := ih acc h
          refine ⟨?_, ?_⟩
          · rw [ih1]
            simp [plusTermsOf, List.filter_cons, hm]
          · rw [ih2]
            simp [minusTermsOf, List.filter_cons, hm, hstop]
        · have : qw.is_stop = false := by rw [h3, hdata]; simpa using hstop
          rw [List.drop_one] at hstop hdata
          simp only [this, Bool.not_false, if_true, hmin] at h
          obtain ⟨ih1, ih2⟩ := ih _ h
          refine ⟨?_, ?_⟩
          · rw [ih1]
            simp [plusTermsOf, List.filter_cons, hm]
          · rw [ih2]
            simp [minusTermsOf, List.filter_cons, hm, hstop, hdata]
      · have hmin : qw.is_minus = false := by rw [h1]; simp [hm]
        have hdata : qw.data = w := by rw [h2]; simp [hm]
        by_cases hstop : s.IsStopWord w = true
        · have : qw.is_stop = true := by rw [h3, hdata]; exact hstop
          simp only [this, Bool.not_true, Bool.false_eq_true, if_false] at h
          obtain ⟨ih1, ih2⟩ := ih acc h
          refine ⟨?_, ?_⟩
          · rw [ih1]
            simp [plusTermsOf, List.filter_cons, hm, hstop]
          · rw [ih2]
            simp [minusTermsOf, List.filter_cons, hm]
        · have : qw.is_stop = false := by rw [h3, hdata]; simpa using hstop
          simp only [this, Bool.not_false, if_true, hmin, Bool.false_eq_true, if_false] at h
          obtain ⟨ih1, ih2⟩ := ih _ h
          refine ⟨?_, ?_⟩
          · rw [ih1]
            simp [plusTermsOf, List.filter_cons, hm, hstop, hdata]
          · rw [ih2]
            simp [minusTermsOf, List.filter_cons, hm]

theorem ParseQuery_sorted_ok (s : SearchServer R) (raw_query : Str) (query : Query)
    (h : s.ParseQuery raw_query true = .ok query) :
    query.plus_words = unique (sort (fun a b => decide (a < b)) (s.plusTerms raw_query)) ∧
    query.minus_words = unique (sort (fun a b => decide (a < b)) (s.minusTerms raw_query)) := by
  unfold ParseQuery at h
  cases hl : s.ParseQueryLoop (SplitIntoWords raw_query) ⟨[], []⟩ with
  | error e =>
    rw [hl] at h
    simp at h
  | ok result =>
    rw [hl] at h
    obtain ⟨h1, h2⟩ := ParseQueryLoop_ok s _ _ _ hl
    simp only [if_true, Except.ok.injEq] at h
    subst h
    simp only [h1, h2, List.nil_append]
    exact ⟨rfl, rfl⟩

theorem ParseQuery_plus_words (s : SearchServer R) (raw_query : Str) (query : Query)
    (h : s.ParseQuery raw_query true = .ok query) :
    query.plus_words.Nodup ∧ ∀ t, t ∈ query.plus_words ↔ t ∈ s.plusTerms raw_query := by
  rw [(ParseQuery_sorted_ok s raw_query query h).1]
  exact ⟨nodup_unique_sort _, fun t => mem_unique_sort _ t⟩

theorem ParseQuery_minus_words (s : SearchServer R) (raw_query : Str) (query : Query)
    (h : s.ParseQuery raw_query true = .ok query) :
    query.minus_words.Nodup ∧ ∀ t, t ∈ query.minus_words ↔ t ∈ s.minusTerms raw_query := by
  rw [(ParseQuery_sorted_ok s raw_query query h).2]
  exact ⟨nodup_unique_sort _, fun t => mem_unique_sort _ t⟩

theorem ParseQuery_unsorted_ok (s : SearchServer R) (raw_query : Str) (query : Query)
    (h : s.ParseQuery raw_query false = .ok query) :
    query.plus_words = s.plusTerms raw_query ∧ query.minus_words = s.minusTerms raw_query := by
  unfold ParseQuery at h
  cases hl : s.ParseQueryLoop (SplitIntoWords raw_query) ⟨[], []⟩ with
  | error e =>
    rw [hl] at h
    simp at h
  | ok result =>
    rw [hl] at h
    obtain ⟨h1, h2⟩ := ParseQueryLoop_ok s _ _ _ hl
    simp only [Bool.false_eq_true, if_false, Except.ok.injEq] at h
    subst h
    simp only [h1, h2, List.nil_append]
    exact ⟨rfl, rfl⟩

theorem not_stop_of_mem_plusTerms (s : SearchServer R) (raw_query : Str) (t : Str)
    (h : t ∈ s.plusTerms raw_query) : s.IsStopWord t = false := by
  simp only [plusTerms, plusTermsOf, List.mem_filter, Bool.and_eq_true, Bool.not_eq_true'] at h
  exact h.2.2

theorem not_stop_of_mem_minusTerms (s : SearchServer R) (raw_query : Str) (t : Str)
    (h : t ∈ s.minusTerms raw_query) : s.IsStopWord t = false := by
  simp only [minusTerms, minusTermsOf, List.mem_filter, Bool.not_eq_true'] at h
  exact h.2

end SearchServer

/-! ## `FindAllDocuments` -/

namespace OrderedMap

variable {K V : Type} [LinearOrder K]

theorem lookup_eq_some_iff (l : List (K × V)) (hl : (l.map Prod.fst).Nodup) (k : K) (v : V) :
    lookup l k = some v ↔ (k, v) ∈ l := by
  induction l with
  | nil => simp [lookup]
  | cons p rest ih =>
    obtain ⟨a, w⟩ := p
    rw [List.map_cons, List.nodup_cons] at hl
    by_cases hk : k = a
    · subst hk
      simp only [lookup, if_true, Option.some.injEq, List.mem_cons, Prod.mk.injEq, true_and]
      constructor
      · intro h
        exact Or.inl h.symm
      · rintro (h | h)
        · exact h.symm
        · exact absurd (List.mem_map_of_mem Prod.fst h) hl.1
    · simp only [lookup, hk, if_false, ih hl.2, List.mem_cons, Prod.mk.injEq, false_and, false_or]

theorem lookup_toList (m : OrderedMap K V) (k : K) : lookup m.toList k = m.find? k := by
  cases h : m.find? k with
  | some v =>
    exact (lookup_eq_some_iff _ (nodup_map_fst_toList m) k v).mpr ((mem_toList m k v).mpr h)
  | none =>
    cases h2 : lookup m.toList k with
    | none => rfl
    | some v =>
      have := (mem_toList m k v).mp
        ((lookup_eq_some_iff _ (nodup_map_fst_toList m) k v).mp h2)
      rw [h] at this
      cases this

end OrderedMap

namespace SearchServer

variable {R : Type} [LinearOrderedField R]

theorem accumulatePostings_ok (s : SearchServer R)
    (document_predicate : Int → DocumentStatus → Int → Bool) (idf : R) (l : List (Int × R))
    (hl : (l.map Prod.fst).Nodup) (acc acc1 : OrderedMap Int R)
    (h : accumulatePostings s document_predicate idf l acc = .ok acc1) (d : Int) :
    acc1.find? d = bump (acc.find? d)
      (if s.accepts document_predicate d then
        (OrderedMap.lookup l d).map (fun tf => tf * idf) else none) := by
  induction l generalizing acc with
  | nil =>
    simp only [accumulatePostings, Except.ok.injEq] at h
    subst h
    simp [OrderedMap.lookup, bump]
  | cons p rest ih =>
    obtain ⟨a, tf⟩ := p
    rw [List.map_cons, List.nodup_cons] at hl
    unfold accumulatePostings at h
    cases hdoc : s.documents_.find? a with
    | none =>
      rw [hdoc] at h
      simp at h
    | some data =>
      rw [hdoc] at h
      simp only at h
      have hnone : d = a → OrderedMap.lookup rest d = none := by
        intro hda
        subst hda
        cases hlk : OrderedMap.lookup rest d with
        | none => rfl
        | some v =>
          have := (OrderedMap.lookup_isSome_iff rest d).mp (by simp [hlk])
          exact absurd this hl.1
      by_cases hp : document_predicate a data.status data.rating = true
      · rw [if_pos hp] at h
        rw [ih hl.2 _ h, ConcurrentMap.add, OrderedMap.find?_insert]
        by_cases hda : d = a
        · subst hda
          have hacc : s.accepts document_predicate d = true := by simp [accepts, hdoc, hp]
          simp [hnone rfl, hacc, OrderedMap.lookup, bump]
        · simp [hda, OrderedMap.lookup]
      · rw [if_neg hp] at h
        rw [ih hl.2 _ h]
        by_cases hda : d = a
        · subst hda
          have hacc : s.accepts document_predicate d = false := by simp [accepts, hdoc, hp]
          simp [hnone rfl, hacc, bump]
        · simp [hda, OrderedMap.lookup]

theorem accumulatePostings_total (s : SearchServer R)
    (document_predicate : Int → DocumentStatus → Int → Bool) (idf : R) (l : List (Int × R))
    (hl : ∀ p ∈ l, s.documents_.count p.1 = true) (acc : OrderedMap Int R) :
    ∃ acc1, accumulatePostings s document_predicate idf l acc = .ok acc1 := by
  induction l generalizing acc with
  | nil => exact ⟨acc, rfl⟩
  | cons p rest ih =>
    obtain ⟨a, tf⟩ := p
    have ha := hl (a, tf) (List.mem_cons_self _ _)
    obtain ⟨data, hdata⟩ := (OrderedMap.count_eq_true_iff _ _).mp ha
    have ih1 := ih (fun q hq => hl q (List.mem_cons_of_mem _ hq))
    unfold accumulatePostings
    rw [hdata]
    simp only
    by_cases hp : document_predicate a data.status data.rating = true
    · rw [if_pos hp]
      exact ih1 _
    · rw [if_neg hp]
      exact ih1 _

theorem ComputeWordInverseDocumentFreq_ok (s : SearchServer R) (ln : R → R) (word : Str)
    (postings : OrderedMap Int R) (h : s.word_to_document_freqs_.find? word = some postings) :
    s.ComputeWordInverseDocumentFreq ln word = .ok (s.inverseDocumentFrequency ln word) := by
  unfold ComputeWordInverseDocumentFreq inverseDocumentFrequency documentFrequency
  rw [h]
  simp

theorem accumulatePlusWords_ok (s : SearchServer R) (ln : R → R)
    (document_predicate : Int → DocumentStatus → Int → Bool) (words : List Str)
    (acc acc1 : OrderedMap Int R)
    (h : accumulatePlusWords s ln document_predicate words acc = .ok acc1) (d : Int) :
    acc1.find? d =
      words.foldl (fun o t => bump o (s.termScore ln document_predicate t d)) (acc.find? d) := by
  induction words generalizing acc with
  | nil =>
    simp only [accumulatePlusWords, Except.ok.injEq] at h
    subst h
    rfl
  | cons t rest ih =>
    unfold accumulatePlusWords at h
    rw [List.foldl_cons]
    cases hf : s.word_to_document_freqs_.find? t with
    | none =>
      have hc : s.word_to_document_freqs_.count t = false := by simp [OrderedMap.count, hf]
      rw [hc] at h
      simp only [Bool.false_eq_true, if_false] at h
      rw [ih _ h]
      have : s.termScore ln document_predicate t d = none := by
        simp [termScore, posting, hf]
      rw [this]
      rfl
    | some postings =>
      have hc : s.word_to_document_freqs_.count t = true := by simp [OrderedMap.count, hf]
      rw [hc, ComputeWordInverseDocumentFreq_ok s ln t postings hf, hf] at h
      simp only [if_true] at h
      cases hacc : accumulatePostings s document_predicate (s.inverseDocumentFrequency ln t)
          postings.toList acc with
      | error e =>
        rw [hacc] at h
        simp at h
      | ok acc2 =>
        rw [hacc] at h
        simp only at h
        rw [ih _ h, accumulatePostings_ok s document_predicate _ _
          (OrderedMap.nodup_map_fst_toList postings) acc acc2 hacc d, OrderedMap.lookup_toList]
        have : s.posting t d = postings.find? d := by simp [posting, hf]
        simp only [termScore, this]

theorem accumulatePlusWords_total (s : SearchServer R) (hs : WellFormed s) (ln : R → R)
    (document_predicate : Int → DocumentStatus → Int → Bool) (words : List Str)
    (acc : OrderedMap Int R) :
    ∃ acc1, accumulatePlusWords s ln document_predicate words acc = .ok acc1 := by
  induction words generalizing acc with
  | nil => exact ⟨acc, rfl⟩
  | cons t rest ih =>
    unfold accumulatePlusWords
    cases hf : s.word_to_document_freqs_.find? t with
    | none =>
      have hc : s.word_to_document_freqs_.count t = false := by simp [OrderedMap.count, hf]
      rw [hc]
      simp only [Bool.false_eq_true, if_false]
      exact ih acc
    | some postings =>
      have hc : s.word_to_document_freqs_.count t = true := by simp [OrderedMap.count, hf]
      rw [hc, ComputeWordInverseDocumentFreq_ok s ln t postings hf]
      simp only [if_true]
      have hlive : ∀ p ∈ postings.toList, s.documents_.count p.1 = true := by
        rintro ⟨a, tf⟩ hp
        have h1 := (OrderedMap.mem_toList postings a tf).mp hp
        exact hs.posting_live t a tf (by simp [posting, hf, h1])
      obtain ⟨acc2, hacc2⟩ := accumulatePostings_total s document_predicate
        (s.inverseDocumentFrequency ln t) postings.toList hlive acc
      rw [hacc2]
      exact ih acc2

theorem foldl_bump (f : Str → Option R) (words : List Str) (o : Option R) :
    words.foldl (fun o t => bump o (f t)) o =
      if words.filterMap f = [] then o else some (o.getD 0 + (words.filterMap f).sum) := by
  induction words generalizing o with
  | nil => simp
  | cons t rest ih =>
    rw [List.foldl_cons, ih]
    cases hft : f t with
    | none => simp [bump, List.filterMap_cons, hft]
    | some x =>
      by_cases hr : rest.filterMap f = []
      · simp [bump, List.filterMap_cons, hft, hr]
      · simp [bump, List.filterMap_cons, hft, hr, add_assoc]

theorem find?_erasePostings (l : List (Int × R)) (acc : OrderedMap Int R) (d : Int) :
    (erasePostings l acc).find? d = if d ∈ l.map Prod.fst then none else acc.find? d := by
  induction l generalizing acc with
  | nil => simp [erasePostings]
  | cons p rest ih =>
    obtain ⟨a, tf⟩ := p
    unfold erasePostings
    rw [ih]
    have hstep : (if acc.count a = true then acc.erase a else acc).find? d =
        if d = a then none else acc.find? d := by
      by_cases hc : acc.count a = true
      · rw [if_pos hc, OrderedMap.find?_erase]
      · rw [if_neg hc]
        by_cases hda : d = a
        · subst hda
          simpa [OrderedMap.count] using hc
        · simp [hda]
    rw [hstep]
    by_cases hda : d = a
    · simp [hda]
    · by_cases hr : d ∈ rest.map Prod.fst
      · simp only [hr, if_true, List.map_cons, List.mem_cons, or_true]
      · simp only [hr, hda, if_false, List.map_cons, List.mem_cons, or_self]

theorem excludeMinusWords_ok (s : SearchServer R) (words : List Str) (acc : OrderedMap Int R) :
    ∃ acc1, excludeMinusWords s words acc = .ok acc1 ∧
      ∀ d, acc1.find? d =
        if words.any (fun t => (s.posting t d).isSome) = true then none else acc.find? d := by
  induction words generalizing acc with
  | nil => exact ⟨acc, rfl, fun d => by simp⟩
  | cons t rest ih =>
    unfold excludeMinusWords
    cases hf : s.word_to_document_freqs_.find? t with
    | none =>
      have hc : s.word_to_document_freqs_.count t = false := by simp [OrderedMap.count, hf]
      rw [hc]
      simp only [Bool.false_eq_true, if_false]
      obtain ⟨acc1, h1, h2⟩ := ih acc
      refine ⟨acc1, h1, fun d => ?_⟩
      rw [h2 d]
      simp [posting, hf]
    | some postings =>
      have hc : s.word_to_document_freqs_.count t = true := by simp [OrderedMap.count, hf]
      rw [hc]
      simp only [if_true]
      obtain ⟨acc1, h1, h2⟩ := ih (erasePostings postings.toList acc)
      refine ⟨acc1, h1, fun d => ?_⟩
      rw [h2 d, find?_erasePostings, OrderedMap.map_fst_toList]
      have hp : s.posting t d = postings.find? d := by simp [posting, hf]
      have hk : d ∈ postings.keys ↔ (postings.find? d).isSome = true := by
        rw [OrderedMap.mem_keys, Option.isSome_iff_exists]
      simp only [List.any_cons, hp, Bool.or_eq_true, hk]
      cases hpd : postings.find? d with
      | none => simp
      | some v => simp

theorem collectDocuments_ok (s : SearchServer R) (l : List (Int × R)) (docs : List (Document R))
    (h : collectDocuments s l = .ok docs) :
    docs = l.map (fun p => ⟨p.1, p.2, s.ratingOf p.1⟩) := by
  induction l generalizing docs with
  | nil =>
    simp only [collectDocuments, Except.ok.injEq] at h
    subst h
    rfl
  | cons p rest ih =>
    obtain ⟨a, r⟩ := p
    unfold collectDocuments at h
    cases hdoc : s.documents_.find? a with
    | none =>
      rw [hdoc] at h
      simp at h
    | some data =>
      rw [hdoc] at h
      cases hrest : collectDocuments s rest with
      | error e =>
        rw [hrest] at h
        simp at h
      | ok docs1 =>
        rw [hrest] at h
        simp only [Except.ok.injEq] at h
        subst h
        rw [ih docs1 hrest]
        simp [ratingOf, hdoc]

theorem collectDocuments_total (s : SearchServer R) (l : List (Int × R))
    (hl : ∀ p ∈ l, s.documents_.count p.1 = true) :
    ∃ docs, collectDocuments s l = .ok docs := by
  induction l with
  | nil => exact ⟨[], rfl⟩
  | cons p rest ih =>
    obtain ⟨a, r⟩ := p
    obtain ⟨data, hdata⟩ := (OrderedMap.count_eq_true_iff _ _).mp (hl (a, r) (List.mem_cons_self _ _))
    obtain ⟨docs1, hdocs1⟩ := ih (fun q hq => hl q (List.mem_cons_of_mem _ hq))
    unfold collectDocuments
    rw [hdata, hdocs1]
    exact ⟨_, rfl⟩

theorem accepts_of_score (s : SearchServer R) (ln : R → R)
    (document_predicate : Int → DocumentStatus → Int → Bool) (query : Query) (d : Int) (r : R)
    (h : s.score ln document_predicate query d = some r) :
    s.accepts document_predicate d = true := by
  unfold score at h
  by_cases hm : query.minus_words.any (fun t => (s.posting t d).isSome) = true
  · rw [if_pos hm] at h
    cases h
  · rw [if_neg hm, foldl_bump] at h
    by_cases hacc : s.accepts document_predicate d = true
    · exact hacc
    · have : query.plus_words.filterMap (fun t => s.termScore ln document_predicate t d) = [] := by
        rw [List.filterMap_eq_nil_iff]
        intro t _
        simp [termScore, hacc]
      rw [if_pos this] at h
      cases h

theorem count_of_accepts (s : SearchServer R)
    (document_predicate : Int → DocumentStatus → Int → Bool) (d : Int)
    (h : s.accepts document_predicate d = true) :
    ∃ data, s.documents_.find? d = some data ∧
      document_predicate d data.status data.rating = true := by
  unfold accepts at h
  cases hdoc : s.documents_.find? d with
  | none =>
    rw [hdoc] at h
    cases h
  | some data =>
    rw [hdoc] at h
    exact ⟨data, rfl, h⟩

/-- On a well-formed state `FindAllDocuments` returns, for a candidate map whose
entries are given by `score`, one document per entry in ascending id order. -/
theorem FindAllDocuments_eq (s : SearchServer R) (hs : WellFormed s) (ln : R → R)
    (query : Query) (document_predicate : Int → DocumentStatus → Int → Bool) :
    ∃ accumulated candidates : OrderedMap Int R,
      accumulatePlusWords s ln document_predicate query.plus_words OrderedMap.empty =
        .ok accumulated ∧
      excludeMinusWords s query.minus_words accumulated = .ok candidates ∧
      (∀ d, candidates.find? d = s.score ln document_predicate query d) ∧
      s.FindAllDocuments ln query document_predicate =
        .ok (candidates.toList.map (fun p => ⟨p.1, p.2, s.ratingOf p.1⟩)) := by
  obtain ⟨acc1, hacc1⟩ := accumulatePlusWords_total s hs ln document_predicate query.plus_words
    OrderedMap.empty
  obtain ⟨acc2, hacc2, hfind2⟩ := excludeMinusWords_ok s query.minus_words acc1
  have hscore : ∀ d, acc2.find? d = s.score ln document_predicate query d := by
    intro d
    rw [hfind2 d, accumulatePlusWords_ok s ln document_predicate _ _ _ hacc1 d]
    rfl
  have hlive : ∀ p ∈ acc2.toList, s.documents_.count p.1 = true := by
    rintro ⟨a, r⟩ hp
    have h1 := (OrderedMap.mem_toList acc2 a r).mp hp
    rw [hscore a] at h1
    obtain ⟨data, hdata, _⟩ := count_of_accepts s document_predicate a
      (accepts_of_score s ln document_predicate query a r h1)
    exact (OrderedMap.count_eq_true_iff _ _).mpr ⟨data, hdata⟩
  obtain ⟨docs, hdocs⟩ := collectDocuments_total s acc2.toList hlive
  refine ⟨acc1, acc2, hacc1, hacc2, hscore, ?_⟩
  unfold FindAllDocuments
  rw [hacc1]
  simp only [ConcurrentMap.BuildOrdinaryMap]
  rw [hacc2]
  simp only
  rw [hdocs, collectDocuments_ok s _ _ hdocs]

/-! ## `FindTopDocuments` -/

/-- On a well-formed state and a query that parses, `FindTopDocuments` returns
the first `MAX_RESULT_DOCUMENT_COUNT` elements of the sorted candidates. -/
theorem FindTopDocuments_eq (s : SearchServer R) (hs : WellFormed s) (ln : R → R)
    (raw_query : Str) (document_predicate : Int → DocumentStatus → Int → Bool) (query : Query)
    (hq : s.ParseQuery raw_query true = .ok query) :
    ∃ accumulated candidates : OrderedMap Int R,
      accumulatePlusWords s ln document_predicate query.plus_words OrderedMap.empty =
        .ok accumulated ∧
      excludeMinusWords s query.minus_words accumulated = .ok candidates ∧
      (∀ d, candidates.find? d = s.score ln document_predicate query d) ∧
      s.FindTopDocuments ln raw_query document_predicate =
        .ok ((sort compareDocuments
          (candidates.toList.map (fun p => (⟨p.1, p.2, s.ratingOf p.1⟩ : Document R)))).take
            MAX_RESULT_DOCUMENT_COUNT) := by
  obtain ⟨acc1, acc2, h1, h2, h3, h4⟩ := FindAllDocuments_eq s hs ln query document_predicate
  refine ⟨acc1, acc2, h1, h2, h3, ?_⟩
  unfold FindTopDocuments
  rw [hq]
  simp only
  rw [h4]
  simp only
  split
  · rfl
  · rename_i hlen
    rw [List.take_of_length_le (by omega)]

theorem mem_FindTopDocuments (s : SearchServer R) (hs : WellFormed s) (ln : R → R)
    (raw_query : Str) (document_predicate : Int → DocumentStatus → Int → Bool) (query : Query)
    (hq : s.ParseQuery raw_query true = .ok query) :
    ∃ docs, s.FindTopDocuments ln raw_query document_predicate = .ok docs ∧
      ∀ doc ∈ docs, s.score ln document_predicate query doc.id = some doc.relevance ∧
        doc.rating = s.ratingOf doc.id := by
  obtain ⟨acc1, acc2, _, _, h3, h4⟩ :=
    FindTopDocuments_eq s hs ln raw_query document_predicate query hq
  refine ⟨_, h4, ?_⟩
  intro doc hdoc
  have h5 := (mem_sort _ _ _).mp (List.mem_of_mem_take hdoc)
  obtain ⟨⟨a, r⟩, hp, rfl⟩ := List.mem_map.mp h5
  have h6 := (OrderedMap.mem_toList acc2 a r).mp hp
  rw [h3 a] at h6
  exact ⟨h6, rfl⟩

theorem ParseQuery_of_FindTopDocuments (s : SearchServer R) (ln : R → R) (raw_query : Str)
    (document_predicate : Int → DocumentStatus → Int → Bool) (docs : List (Document R))
    (h : s.FindTopDocuments ln raw_query document_predicate = .ok docs) :
    ∃ query, s.ParseQuery raw_query true = .ok query := by
  unfold FindTopDocuments at h
  cases hq : s.ParseQuery raw_query true with
  | error e =>
    rw [hq] at h
    simp at h
  | ok query => exact ⟨query, rfl⟩

theorem filterMap_map_eq (g : Str → Option R) (f : Str → R → R) (words : List Str) :
    words.filterMap (fun t => (g t).map (f t)) =
      (words.filter (fun t => (g t).isSome)).map (fun t => f t ((g t).getD 0)) := by
  induction words with
  | nil => rfl
  | cons t rest ih =>
    cases hg : g t with
    | none => simp [List.filterMap_cons, List.filter_cons, hg, ih]
    | some x => simp [List.filterMap_cons, List.filter_cons, hg, ih]

/-- The value of a candidate entry is the TF-IDF sum over the plus-words with a
posting for the document. -/
theorem score_eq_sum (s : SearchServer R) (ln : R → R)
    (document_predicate : Int → DocumentStatus → Int → Bool) (query : Query) (d : Int) (r : R)
    (h : s.score ln document_predicate query d = some r) :
    r = ((query.plus_words.filter (fun t => (s.posting t d).isSome)).map
      (fun t => s.termFrequency t d * s.inverseDocumentFrequency ln t)).sum := by
  have hacc := accepts_of_score s ln document_predicate query d r h
  unfold score at h
  by_cases hm : query.minus_words.any (fun t => (s.posting t d).isSome) = true
  · rw [if_pos hm] at h
    cases h
  · rw [if_neg hm, foldl_bump] at h
    have hf : (fun t => s.termScore ln document_predicate t d) =
        (fun t => (s.posting t d).map (fun tf => tf * s.inverseDocumentFrequency ln t)) := by
      funext t
      simp [termScore, hacc]
    rw [hf, filterMap_map_eq (fun t => s.posting t d)
      (fun t tf => tf * s.inverseDocumentFrequency ln t)] at h
    split at h
    · cases h
    · simp only [Option.getD_none, zero_add, Option.some.injEq] at h
      rw [← h]
      rfl

end SearchServer

/-! ## The sample server is reachable -/

theorem sampleEmpty_history : History [] sampleEmpty :=
  History.create ["in".toList, "the".toList] sampleEmpty rfl

theorem sampleTwo_history : History sampleTwoOps sampleTwo :=
  History.call _ _ _ (History.call _ _ _ sampleEmpty_history (by decide)) (by decide)

theorem sampleServer_history : History sampleOps sampleServer :=
  History.call _ _ _ sampleTwo_history (by decide)

theorem sampleServer_reachable : Reachable sampleServer := ⟨sampleOps, sampleServer_history⟩

/-! ## Error handling of `AddDocument` -/

/-- C6: in every reachable state `AddDocument` throws `invalid_argument` exactly
when the id is negative, or the id is live, or a term of the text is invalid
(equivalently: the text contains a character with code below 0x20); in every
other case it throws nothing. -/
theorem add_document_fails_iff {R : Type} [LinearOrderedField R] (s : SearchServer R)
    (hs : Reachable s) (document_id : Int) (document : Str) (status : DocumentStatus)
    (ratings : List Int) :
    ((s.AddDocument document_id document status ratings).error = some Error.invalid_argument ↔
      (document_id < 0 ∨ s.isLive document_id = true ∨
        ∃ term ∈ SplitIntoWords document, IsValidWord term = false)) ∧
    ((∃ term ∈ SplitIntoWords document, IsValidWord term = false) ↔
      ∃ c ∈ document, c.toNat < 0x20) ∧
    (¬ (document_id < 0 ∨ s.isLive document_id = true ∨
        ∃ term ∈ SplitIntoWords document, IsValidWord term = false) →
      (s.AddDocument document_id document status ratings).error = none) := by
  have hlive : s.documents_.count document_id = s.isLive document_id :=
    hs.wellFormed.ids_documents document_id
  have hterm : (∃ term ∈ SplitIntoWords document, IsValidWord term = false) ↔
      IsValidWord document = false := by
    rw [← Bool.not_eq_true (IsValidWord document), IsValidWord_iff_words]
    push_neg
    simp only [Bool.not_eq_true]
  have hiff : (document_id < 0 ∨ s.isLive document_id = true ∨
        ∃ term ∈ SplitIntoWords document, IsValidWord term = false) ↔
      (IsValidWord document = false ∨ document_id < 0 ∨
        s.documents_.count document_id = true) := by
    rw [hterm, hlive]
    tauto
  refine ⟨?_, ?_, ?_⟩
  · rw [SearchServer.AddDocument_error, hiff]
    by_cases hc : IsValidWord document = false ∨ document_id < 0 ∨
        s.documents_.count document_id = true
    · simp [hc]
    · simp [hc]
  · rw [hterm, IsValidWord_eq_false_iff]
  · intro hn
    rw [hiff] at hn
    rw [SearchServer.AddDocument_error, if_neg hn]

/-- Witness of C6 on the sample server: document 42 is live there. -/
theorem add_document_fails_iff_witness :
    Reachable sampleServer ∧
    ((sampleServer.AddDocument 42 "a cat".toList DocumentStatus.ACTUAL [1]).error =
        some Error.invalid_argument ↔
      ((42 : Int) < 0 ∨ sampleServer.isLive 42 = true ∨
        ∃ term ∈ SplitIntoWords "a cat".toList, IsValidWord term = false)) :=
  ⟨sampleServer_reachable,
    (add_document_fails_iff sampleServer sampleServer_reachable 42 "a cat".toList
      DocumentStatus.ACTUAL [1]).1⟩

/-- C7: a call of `AddDocument` that throws leaves the server as it was: the
inverted index, the forward index, the metadata and the id set are unchanged. -/
theorem add_document_atomic {R : Type} [LinearOrderedField R] (s : SearchServer R)
    (document_id : Int) (document : Str) (status : DocumentStatus) (ratings : List Int)
    (e : Error) (h : (s.AddDocument document_id document status ratings).error = some e) :
    (s.AddDocument document_id document status ratings).state = s ∧
    (s.AddDocument document_id document status ratings).state.word_to_document_freqs_ =
      s.word_to_document_freqs_ ∧
    (s.AddDocument document_id document status ratings).state.document_to_word_freqs_ =
      s.document_to_word_freqs_ ∧
    (s.AddDocument document_id document status ratings).state.documents_ = s.documents_ ∧
    (s.AddDocument document_id document status ratings).state.document_ids_ = s.document_ids_ := by
  have hst := SearchServer.AddDocument_state_of_error s document_id document status ratings e h
  rw [hst]
  exact ⟨rfl, rfl, rfl, rfl, rfl⟩

/-- Witness of C7: adding the live id 42 again to the sample server fails and
changes nothing. -/
theorem add_document_atomic_witness :
    (sampleServer.AddDocument 42 "a cat".toList DocumentStatus.ACTUAL [1]).error =
      some Error.invalid_argument ∧
    (sampleServer.AddDocument 42 "a cat".toList DocumentStatus.ACTUAL [1]).state = sampleServer :=
  ⟨by decide,
    (add_document_atomic sampleServer 42 "a cat".toList DocumentStatus.ACTUAL [1]
      Error.invalid_argument (by decide)).1⟩

/-! ## Ranked retrieval -/

/-- C1: in a reachable state, for a query that parses, `FindTopDocuments`
returns, and every returned document carries the relevance
`sum of tf(t, d) * ln(N / df(t))` over the distinct non-stop plus-terms `t` of
the query that have a posting for `d`. -/
theorem find_top_documents_relevance {R : Type} [LinearOrderedField R] (s : SearchServer R)
    (hs : Reachable s) (ln : R → R) (raw_query : Str)
    (document_predicate : Int → DocumentStatus → Int → Bool) (query : Query)
    (hq : s.ParseQuery raw_query true = .ok query) :
    ∃ docs, s.FindTopDocuments ln raw_query document_predicate = .ok docs ∧
      ∀ doc ∈ docs, doc.relevance = s.relevanceOf ln raw_query doc.id := by
  obtain ⟨docs, hdocs, hmem⟩ :=
    SearchServer.mem_FindTopDocuments s hs.wellFormed ln raw_query document_predicate query hq
  refine ⟨docs, hdocs, fun doc hdoc => ?_⟩
  obtain ⟨hscore, _⟩ := hmem doc hdoc
  rw [SearchServer.score_eq_sum s ln document_predicate query doc.id doc.relevance hscore]
  obtain ⟨hnodup, hmemq⟩ := SearchServer.ParseQuery_plus_words s raw_query query hq
  have hperm : query.plus_words.Perm (s.plusTerms raw_query).dedup :=
    (List.perm_ext_iff_of_nodup hnodup (List.nodup_dedup _)).mpr
      (fun t => by rw [hmemq t, List.mem_dedup])
  unfold SearchServer.relevanceOf
  exact ((hperm.filter _).map _).sum_eq

/-- Witness of C1 on the sample server, for the query `fluffy cat -dog`. -/
theorem find_top_documents_relevance_witness :
    Reachable sampleServer ∧
    sampleServer.ParseQuery "fluffy cat -dog".toList true =
      .ok ⟨["cat".toList, "fluffy".toList], ["dog".toList]⟩ ∧
    ∃ docs, sampleServer.FindTopDocuments sampleLn "fluffy cat -dog".toList
        (fun _ _ _ => true) = .ok docs ∧
      ∀ doc ∈ docs, doc.relevance =
        sampleServer.relevanceOf sampleLn "fluffy cat -dog".toList doc.id :=
  ⟨sampleServer_reachable, rfl,
    find_top_documents_relevance sampleServer sampleServer_reachable sampleLn
      "fluffy cat -dog".toList (fun _ _ _ => true)
      ⟨["cat".toList, "fluffy".toList], ["dog".toList]⟩ rfl⟩

theorem compareDocuments_asymm {R : Type} [LinearOrderedField R] (a b : Document R)
    (h : SearchServer.compareDocuments a b = true) : SearchServer.compareDocuments b a = false := by
  unfold SearchServer.compareDocuments at h ⊢
  rw [abs_sub_comm b.relevance a.relevance]
  by_cases hc : |a.relevance - b.relevance| < SearchServer.EPSILON
  · rw [if_pos hc] at h ⊢
    simp only [gt_iff_lt, decide_eq_true_eq, decide_eq_false_iff_not, not_lt] at h ⊢
    exact le_of_lt h
  · rw [if_neg hc] at h ⊢
    simp only [gt_iff_lt, decide_eq_true_eq, decide_eq_false_iff_not, not_lt] at h ⊢
    exact le_of_lt h

/-- The comparator is no strict weak ordering: three documents whose
relevances are `0.7e-6` apart and whose ratings go down as the relevances go up
are each before the next and the last is before the first.  `std::sort` of the
GNU library returns them in the order 2, 0, 1. -/
theorem sort_cyclic_three :
    SearchServer.compareDocuments (⟨0, 0, 3⟩ : Document ℚ) ⟨1, 7 / 10000000, 2⟩ = true ∧
    SearchServer.compareDocuments (⟨1, 7 / 10000000, 2⟩ : Document ℚ) ⟨2, 14 / 10000000, 1⟩ =
      true ∧
    SearchServer.compareDocuments (⟨2, 14 / 10000000, 1⟩ : Document ℚ) ⟨0, 0, 3⟩ = true ∧
    (sort SearchServer.compareDocuments
      [(⟨0, 0, 3⟩ : Document ℚ), ⟨1, 7 / 10000000, 2⟩, ⟨2, 14 / 10000000, 1⟩]).map Document.id =
      [2, 0, 1] := by
  decide!

/-- Twenty documents with relevances `0.7e-6` apart, more than the 16 elements
below which `std::sort` is an insertion sort alone: the order `std::sort` of the
GNU library returns. -/
theorem sort_cyclic_twenty :
    (sort SearchServer.compareDocuments
      ([⟨0, 0 / 10000000, 0⟩,
      ⟨1, 7 / 10000000, -3⟩,
      ⟨2, 14 / 10000000, 1⟩,
      ⟨3, 21 / 10000000, 5⟩,
      ⟨4, 28 / 10000000, -5⟩,
      ⟨5, 35 / 10000000, -4⟩,
      ⟨6, 42 / 10000000, 8⟩,
      ⟨7, 49 / 10000000, 3⟩,
      ⟨8, 56 / 10000000, -4⟩,
      ⟨9, 63 / 10000000, 0⟩,
      ⟨10, 70 / 10000000, 4⟩,
      ⟨11, 77 / 10000000, -5⟩,
      ⟨12, 84 / 10000000, 9⟩,
      ⟨13, 91 / 10000000, 3⟩,
      ⟨14, 98 / 10000000, -2⟩,
      ⟨15, 105 / 10000000, -5⟩,
      ⟨16, 112 / 10000000, -4⟩,
      ⟨17, 119 / 10000000, 1⟩,
      ⟨18, 126 / 10000000, 1⟩,
      ⟨19, 133 / 10000000, -4⟩] : List (Document ℚ))).map Document.id =
      [18, 19, 17, 16, 14, 15, 12, 13, 10, 11, 9, 7, 8, 6, 5, 3, 4, 2, 0, 1] := by
  decide!

theorem EPSILON_pos {R : Type} [LinearOrderedField R] : (0 : R) < SearchServer.EPSILON := by
  unfold SearchServer.EPSILON
  positivity

/-- C2: in a reachable state, for a query that parses, the list
`FindTopDocuments` returns is ordered by the ranking comparator: of two
adjacent results `a`, `b`, if `|a.relevance - b.relevance| < 1e-6` then
`a.rating >= b.rating`, otherwise `a.relevance > b.relevance`. -/
theorem find_top_documents_ordered {R : Type} [LinearOrderedField R] (s : SearchServer R)
    (hs : Reachable s) (ln : R → R) (raw_query : Str)
    (document_predicate : Int → DocumentStatus → Int → Bool) (query : Query)
    (hq : s.ParseQuery raw_query true = .ok query) :
    ∃ docs, s.FindTopDocuments ln raw_query document_predicate = .ok docs ∧
      docs.Chain' (fun a b =>
        if |a.relevance - b.relevance| < SearchServer.EPSILON then a.rating ≥ b.rating
        else a.relevance > b.relevance) := by
  obtain ⟨_, candidates, _, _, _, h4⟩ := SearchServer.FindTopDocuments_eq s hs.wellFormed ln
    raw_query document_predicate query hq
  refine ⟨_, h4, ?_⟩
  apply List.Chain'.take
  refine List.Chain'.imp ?_ (chain_sort SearchServer.compareDocuments compareDocuments_asymm _)
  intro a b hba
  unfold SearchServer.compareDocuments at hba
  rw [abs_sub_comm b.relevance a.relevance] at hba
  by_cases hc : |a.relevance - b.relevance| < SearchServer.EPSILON
  · rw [if_pos hc] at hba ⊢
    simpa using hba
  · rw [if_neg hc] at hba ⊢
    simp only [gt_iff_lt, decide_eq_false_iff_not, not_lt] at hba
    refine lt_of_le_of_ne hba ?_
    intro heq
    apply hc
    rw [heq, sub_self, abs_zero]
    exact EPSILON_pos

/-- Witness of C2 on the sample server, for the query `fluffy cat -dog`. -/
theorem find_top_documents_ordered_witness :
    Reachable sampleServer ∧
    sampleServer.ParseQuery "fluffy cat -dog".toList true =
      .ok ⟨["cat".toList, "fluffy".toList], ["dog".toList]⟩ ∧
    ∃ docs, sampleServer.FindTopDocuments sampleLn "fluffy cat -dog".toList
        (fun _ _ _ => true) = .ok docs ∧
      docs.Chain' (fun a b =>
        if |a.relevance - b.relevance| < SearchServer.EPSILON then a.rating ≥ b.rating
        else a.relevance > b.relevance) :=
  ⟨sampleServer_reachable, rfl,
    find_top_documents_ordered sampleServer sampleServer_reachable sampleLn
      "fluffy cat -dog".toList (fun _ _ _ => true)
      ⟨["cat".toList, "fluffy".toList], ["dog".toList]⟩ rfl⟩

/-- C3: in a reachable state, for a query that parses, `FindTopDocuments`
returns at most 5 results; the number of results is the minimum of 5 and the
size of the candidate map left by the plus-word accumulation and the minus-word
exclusion. -/
theorem find_top_documents_length {R : Type} [LinearOrderedField R] (s : SearchServer R)
    (hs : Reachable s) (ln : R → R) (raw_query : Str)
    (document_predicate : Int → DocumentStatus → Int → Bool) (query : Query)
    (hq : s.ParseQuery raw_query true = .ok query) :
    ∃ accumulated candidates docs,
      SearchServer.accumulatePlusWords s ln document_predicate query.plus_words OrderedMap.empty =
        .ok accumulated ∧
      SearchServer.excludeMinusWords s query.minus_words accumulated = .ok candidates ∧
      s.FindTopDocuments ln raw_query document_predicate = .ok docs ∧
      docs.length = min 5 candidates.size ∧ docs.length ≤ 5 := by
  obtain ⟨acc1, acc2, h1, h2, _, h4⟩ := SearchServer.FindTopDocuments_eq s hs.wellFormed ln
    raw_query document_predicate query hq
  refine ⟨acc1, acc2, _, h1, h2, h4, ?_, ?_⟩
  · rw [List.length_take, length_sort, List.length_map, OrderedMap.length_toList]
    rfl
  · rw [List.length_take]
    exact min_le_left _ _

/-- Witness of C3 on the sample server, for the query `fluffy cat -dog`. -/
theorem find_top_documents_length_witness :
    Reachable sampleServer ∧
    sampleServer.ParseQuery "fluffy cat -dog".toList true =
      .ok ⟨["cat".toList, "fluffy".toList], ["dog".toList]⟩ ∧
    ∃ accumulated candidates docs,
      SearchServer.accumulatePlusWords sampleServer sampleLn (fun _ _ _ => true)
        ["cat".toList, "fluffy".toList] OrderedMap.empty = .ok accumulated ∧
      SearchServer.excludeMinusWords sampleServer ["dog".toList] accumulated = .ok candidates ∧
      sampleServer.FindTopDocuments sampleLn "fluffy cat -dog".toList (fun _ _ _ => true) =
        .ok docs ∧
      docs.length = min 5 candidates.size ∧ docs.length ≤ 5 :=
  ⟨sampleServer_reachable, rfl,
    find_top_documents_length sampleServer sampleServer_reachable sampleLn
      "fluffy cat -dog".toList (fun _ _ _ => true)
      ⟨["cat".toList, "fluffy".toList], ["dog".toList]⟩ rfl⟩

theorem stored_data_of_result {R : Type} [LinearOrderedField R] (s : SearchServer R)
    (hs : SearchServer.WellFormed s) (ln : R → R)
    (document_predicate : Int → DocumentStatus → Int → Bool) (query : Query)
    (doc : Document R)
    (h : s.score ln document_predicate query doc.id = some doc.relevance ∧
      doc.rating = s.ratingOf doc.id) :
    s.isLive doc.id = true ∧
      ∃ data, s.documents_.find? doc.id = some data ∧
        document_predicate doc.id data.status data.rating = true ∧ doc.rating = data.rating := by
  obtain ⟨data, hdata, hpred⟩ := SearchServer.count_of_accepts s document_predicate doc.id
    (SearchServer.accepts_of_score s ln document_predicate query doc.id doc.relevance h.1)
  refine ⟨?_, data, hdata, hpred, ?_⟩
  · unfold SearchServer.isLive
    rw [← hs.ids_documents doc.id]
    exact (OrderedMap.count_eq_true_iff _ _).mpr ⟨data, hdata⟩
  · rw [h.2]
    simp [SearchServer.ratingOf, hdata]

/-- C4: in a reachable state, for a query that parses, every document returned
by `FindTopDocuments(query, keep)` is live and satisfies `keep` on its stored
status and rating; with the status overload every returned document has the
requested status, and with no filter argument it has status `ACTUAL`. -/
theorem find_top_documents_filter {R : Type} [LinearOrderedField R] (s : SearchServer R)
    (hs : Reachable s) (ln : R → R) (raw_query : Str) (query : Query)
    (hq : s.ParseQuery raw_query true = .ok query) :
    (∀ keep : Int → DocumentStatus → Int → Bool,
      ∃ docs, s.FindTopDocuments ln raw_query keep = .ok docs ∧
        ∀ doc ∈ docs, s.isLive doc.id = true ∧
          ∃ data, s.documents_.find? doc.id = some data ∧
            keep doc.id data.status data.rating = true ∧ doc.rating = data.rating) ∧
    (∀ status : DocumentStatus,
      ∃ docs, s.FindTopDocumentsByStatus ln raw_query status = .ok docs ∧
        ∀ doc ∈ docs, s.isLive doc.id = true ∧
          ∃ data, s.documents_.find? doc.id = some data ∧ data.status = status) ∧
    (∃ docs, s.FindTopDocumentsActual ln raw_query = .ok docs ∧
        ∀ doc ∈ docs, s.isLive doc.id = true ∧
          ∃ data, s.documents_.find? doc.id = some data ∧
            data.status = DocumentStatus.ACTUAL) := by
  have hkeep : ∀ keep : Int → DocumentStatus → Int → Bool,
      ∃ docs, s.FindTopDocuments ln raw_query keep = .ok docs ∧
        ∀ doc ∈ docs, s.isLive doc.id = true ∧
          ∃ data, s.documents_.find? doc.id = some data ∧
            keep doc.id data.status data.rating = true ∧ doc.rating = data.rating := by
    intro keep
    obtain ⟨docs, hdocs, hmem⟩ :=
      SearchServer.mem_FindTopDocuments s hs.wellFormed ln raw_query keep query hq
    exact ⟨docs, hdocs, fun doc hdoc =>
      stored_data_of_result s hs.wellFormed ln keep query doc (hmem doc hdoc)⟩
  have hstatus : ∀ status : DocumentStatus,
      ∃ docs, s.FindTopDocumentsByStatus ln raw_query status = .ok docs ∧
        ∀ doc ∈ docs, s.isLive doc.id = true ∧
          ∃ data, s.documents_.find? doc.id = some data ∧ data.status = status := by
    intro status
    obtain ⟨docs, hdocs, hmem⟩ := hkeep (fun _ document_status _ => decide (document_status = status))
    refine ⟨docs, hdocs, fun doc hdoc => ?_⟩
    obtain ⟨hlive, data, hdata, hst, _⟩ := hmem doc hdoc
    exact ⟨hlive, data, hdata, by simpa using hst⟩
  exact ⟨hkeep, hstatus, hstatus DocumentStatus.ACTUAL⟩

/-- Witness of C4 on the sample server, for the query `cat -tail`. -/
theorem find_top_documents_filter_witness :
    Reachable sampleServer ∧
    sampleServer.ParseQuery "cat -tail".toList true = .ok ⟨["cat".toList], ["tail".toList]⟩ ∧
    ∃ docs, sampleServer.FindTopDocumentsByStatus sampleLn "cat -tail".toList
        DocumentStatus.BANNED = .ok docs ∧
      ∀ doc ∈ docs, sampleServer.isLive doc.id = true ∧
        ∃ data, sampleServer.documents_.find? doc.id = some data ∧
          data.status = DocumentStatus.BANNED :=
  ⟨sampleServer_reachable, rfl,
    (find_top_documents_filter sampleServer sampleServer_reachable sampleLn "cat -tail".toList
      ⟨["cat".toList], ["tail".toList]⟩ rfl).2.1 DocumentStatus.BANNED⟩

theorem mem_minusTerms_of_token {R : Type} [LinearOrderedField R] (s : SearchServer R)
    (raw_query : Str) (w : Str) (hw : w ∈ SplitIntoWords raw_query)
    (hminus : w.head? = some '-') (hstop : s.IsStopWord (w.drop 1) = false) :
    w.drop 1 ∈ s.minusTerms raw_query := by
  simp only [SearchServer.minusTerms, SearchServer.minusTermsOf, List.mem_filter, List.mem_map,
    decide_eq_true_eq, Bool.not_eq_true']
  exact ⟨⟨w, ⟨hw, hminus⟩, rfl⟩, hstop⟩

theorem posting_none_of_stop {R : Type} [LinearOrderedField R] (s : SearchServer R)
    (hs : SearchServer.WellFormed s) (t : Str) (d : Int) (hstop : s.IsStopWord t = true) :
    s.posting t d = none := by
  cases hp : s.posting t d with
  | none => rfl
  | some tf =>
    have hc : s.word_to_document_freqs_.count t = true := by
      unfold SearchServer.posting at hp
      cases hf : s.word_to_document_freqs_.find? t with
      | none => simp [hf] at hp
      | some postings => simp [OrderedMap.count, hf]
    have := hs.no_stop_key t hc
    rw [hstop] at this
    cases this

/-- C5: in a reachable state, for a query that parses, no document returned by
`FindTopDocuments` has a posting for a minus-term of the query, whether the
minus-terms are read off the parsed query or off the words of the text that
begin with `-`. -/
theorem find_top_documents_excludes_minus {R : Type} [LinearOrderedField R]
    (s : SearchServer R) (hs : Reachable s) (ln : R → R) (raw_query : Str)
    (document_predicate : Int → DocumentStatus → Int → Bool) (query : Query)
    (hq : s.ParseQuery raw_query true = .ok query) :
    ∃ docs, s.FindTopDocuments ln raw_query document_predicate = .ok docs ∧
      ∀ doc ∈ docs,
        (∀ t ∈ query.minus_words, s.posting t doc.id = none) ∧
        (∀ w ∈ SplitIntoWords raw_query, w.head? = some '-' →
          s.posting (w.drop 1) doc.id = none) := by
  obtain ⟨docs, hdocs, hmem⟩ :=
    SearchServer.mem_FindTopDocuments s hs.wellFormed ln raw_query document_predicate query hq
  refine ⟨docs, hdocs, fun doc hdoc => ?_⟩
  obtain ⟨hscore, _⟩ := hmem doc hdoc
  have hminus : ∀ t ∈ query.minus_words, s.posting t doc.id = none := by
    intro t ht
    unfold SearchServer.score at hscore
    by_cases hm : query.minus_words.any (fun t => (s.posting t doc.id).isSome) = true
    · rw [if_pos hm] at hscore
      cases hscore
    · rw [List.any_eq_true] at hm
      push_neg at hm
      have := hm t ht
      simpa using this
  refine ⟨hminus, ?_⟩
  intro w hw hhead
  by_cases hstop : s.IsStopWord (w.drop 1) = true
  · exact posting_none_of_stop s hs.wellFormed _ _ hstop
  · have hstop1 : s.IsStopWord (w.drop 1) = false := by simpa using hstop
    exact hminus _ (((SearchServer.ParseQuery_minus_words s raw_query query hq).2 _).mpr
      (mem_minusTerms_of_token s raw_query w hw hhead hstop1))

/-- Witness of C5 on the sample server, for the query `cat -tail`. -/
theorem find_top_documents_excludes_minus_witness :
    Reachable sampleServer ∧
    sampleServer.ParseQuery "cat -tail".toList true = .ok ⟨["cat".toList], ["tail".toList]⟩ ∧
    ∃ docs, sampleServer.FindTopDocuments sampleLn "cat -tail".toList (fun _ _ _ => true) =
        .ok docs ∧
      ∀ doc ∈ docs,
        (∀ t ∈ ["tail".toList], sampleServer.posting t doc.id = none) ∧
        (∀ w ∈ SplitIntoWords "cat -tail".toList, w.head? = some '-' →
          sampleServer.posting (w.drop 1) doc.id = none) :=
  ⟨sampleServer_reachable, rfl,
    find_top_documents_excludes_minus sampleServer sampleServer_reachable sampleLn
      "cat -tail".toList (fun _ _ _ => true) ⟨["cat".toList], ["tail".toList]⟩ rfl⟩

/-! ## Term frequencies of an added document -/

theorem find?_GetWordFrequencies {R : Type} [LinearOrderedField R] (s : SearchServer R)
    (d : Int) (w : Str) : (s.GetWordFrequencies d).find? w = s.rowEntry d w := by
  unfold SearchServer.GetWordFrequencies SearchServer.rowEntry
  cases hf : s.document_to_word_freqs_.find? d with
  | none => simp [OrderedMap.count, hf]
  | some row => simp [OrderedMap.count, hf]

theorem applyOp_stop_words {R : Type} [LinearOrderedField R] (s : SearchServer R) (op : Op)
    (hok : (applyOp s op).error = none) : (applyOp s op).state.stop_words_ = s.stop_words_ := by
  cases op with
  | add d document status ratings => exact SearchServer.AddDocument_stop_words s d document status ratings
  | remove d => exact (SearchServer.RemoveDocument_fields s d hok).1
  | removePar d => exact (SearchServer.RemoveDocumentPar_fields s d hok).1

theorem indexableWords_congr {R : Type} [LinearOrderedField R] (s s1 : SearchServer R)
    (h : s1.stop_words_ = s.stop_words_) (text : Str) :
    s1.indexableWords text = s.indexableWords text := by
  unfold SearchServer.indexableWords SearchServer.IsStopWord
  rw [h]

/-- An id no successful call has added has no forward-index row and no
posting. -/
theorem History.never_added {R : Type} [LinearOrderedField R] {ops : List Op}
    {s : SearchServer R} (h : History ops s) (document_id : Int)
    (hnever : ∀ op ∈ ops, Op.adds document_id op = false) :
    s.document_to_word_freqs_.find? document_id = none ∧
      ∀ w, s.posting w document_id = none := by
  induction h with
  | create stop_words s hc =>
    unfold SearchServer.create at hc
    by_cases hv : (MakeUniqueNonEmptyStrings stop_words).toList.all IsValidWord = true
    · simp only [hv, if_true, Except.ok.injEq] at hc
      subst hc
      exact ⟨rfl, fun w => rfl⟩
    · simp [hv] at hc
  | call ops s op _ hok ih =>
    obtain ⟨ih1, ih2⟩ := ih (fun o ho => hnever o (List.mem_cons_of_mem _ ho))
    have hop := hnever op (List.mem_cons_self _ _)
    cases op with
    | add d document status ratings =>
      have hd : document_id ≠ d := by
        intro heq
        simp [Op.adds, heq] at hop
      refine ⟨?_, fun w => ?_⟩
      · show (s.AddDocument d document status ratings).state.document_to_word_freqs_.find?
          document_id = none
        rw [SearchServer.AddDocument_row_of_ne s d document status ratings document_id hd]
        exact ih1
      · show (s.AddDocument d document status ratings).state.posting w document_id = none
        rw [SearchServer.AddDocument_posting s d document status ratings hok]
        simp only [hd, false_and, if_false]
        exact ih2 w
    | remove d =>
      refine ⟨?_, fun w => ?_⟩
      · show (s.RemoveDocument d).state.document_to_word_freqs_.find? document_id = none
        rw [(SearchServer.RemoveDocument_fields s d hok).2.2.2.1, OrderedMap.find?_erase]
        by_cases hd : document_id = d
        · simp [hd]
        · simp [hd, ih1]
      · show (s.RemoveDocument d).state.posting w document_id = none
        rw [SearchServer.RemoveDocument_posting s d hok]
        split
        · rfl
        · exact ih2 w
    | removePar d =>
      refine ⟨?_, fun w => ?_⟩
      · show (s.RemoveDocumentPar d).state.document_to_word_freqs_.find? document_id = none
        rw [(SearchServer.RemoveDocumentPar_fields s d hok).2.1]
        exact ih1
      · show (s.RemoveDocumentPar d).state.posting w document_id = none
        rw [SearchServer.RemoveDocumentPar_posting s d hok]
        split
        · rfl
        · exact ih2 w

/-- In exact arithmetic: when `AddDocument(id, text, ...)` succeeds for an id
that no earlier call has added, the row `GetWordFrequencies(id)` afterwards has
as keys exactly
the non-stop tokens of the text, each term `t` bound to (occurrences of `t`
among the non-stop tokens) / (number of non-stop tokens), and the inverted
index holds the same value at `(t, id)`. -/
theorem add_document_word_frequencies {R : Type} [LinearOrderedField R] (ops : List Op)
    (s : SearchServer R) (h : History ops s) (document_id : Int) (document : Str)
    (status : DocumentStatus) (ratings : List Int)
    (hnever : ∀ op ∈ ops, Op.adds document_id op = false)
    (hok : (s.AddDocument document_id document status ratings).error = none) :
    (∀ t, t ∈ ((s.AddDocument document_id document status ratings).state.GetWordFrequencies
        document_id).keys ↔ t ∈ s.indexableWords document) ∧
    (∀ t ∈ s.indexableWords document,
      ((s.AddDocument document_id document status ratings).state.GetWordFrequencies
          document_id).find? t =
        some (((s.indexableWords document).count t : R) / ((s.indexableWords document).length : R)) ∧
      (s.AddDocument document_id document status ratings).state.posting t document_id =
        some (((s.indexableWords document).count t : R) / ((s.indexableWords document).length : R))) := by
  obtain ⟨hrow, hpost⟩ := h.never_added document_id hnever
  have hre : ∀ t, s.rowEntry document_id t = none := by
    intro t
    simp [SearchServer.rowEntry, hrow]
  have hfind : ∀ t, ((s.AddDocument document_id document status ratings).state.GetWordFrequencies
      document_id).find? t =
      if t ∈ s.indexableWords document then
        some (((s.indexableWords document).count t : R) / ((s.indexableWords document).length : R))
      else none := by
    intro t
    rw [find?_GetWordFrequencies, SearchServer.AddDocument_rowEntry s _ _ _ _ hok, hre t]
    by_cases ht : t ∈ s.indexableWords document
    · simp [ht, div_eq_mul_inv]
    · simp [ht]
  refine ⟨fun t => ?_, fun t ht => ⟨?_, ?_⟩⟩
  · rw [OrderedMap.mem_keys, hfind t]
    by_cases ht : t ∈ s.indexableWords document
    · simp [ht]
    · simp [ht]
  · rw [hfind t, if_pos ht]
  · rw [SearchServer.AddDocument_posting s _ _ _ _ hok, hpost t]
    simp [ht, div_eq_mul_inv]

/-- An instance in exact arithmetic: adding document 2 to the sample server
with two documents. -/
theorem add_document_word_frequencies_witness :
    History sampleTwoOps sampleTwo ∧
    (∀ op ∈ sampleTwoOps, Op.adds 2 op = false) ∧
    (sampleTwo.AddDocument 2 "dog cat eyes".toList DocumentStatus.BANNED [5, -12, 2, 1]).error =
      none ∧
    (∀ t, t ∈ ((sampleTwo.AddDocument 2 "dog cat eyes".toList DocumentStatus.BANNED
        [5, -12, 2, 1]).state.GetWordFrequencies 2).keys ↔
      t ∈ sampleTwo.indexableWords "dog cat eyes".toList) :=
  ⟨sampleTwo_history, by decide, by decide,
    (add_document_word_frequencies sampleTwoOps sampleTwo sampleTwo_history 2
      "dog cat eyes".toList DocumentStatus.BANNED [5, -12, 2, 1] (by decide) (by decide)).1⟩

/-! ## Term frequencies sum to one -/

theorem sum_map_cast_div {R : Type} [LinearOrderedField R] (c : Str → Nat) (n : R)
    (l : List Str) :
    (l.map (fun k => (c k : R) / n)).sum = (((l.map c).sum : Nat) : R) / n := by
  induction l with
  | nil => simp
  | cons a rest ih => simp [ih, add_div]

theorem count_eq_count_decide {α : Type} [DecidableEq α] [inst : BEq α] [LawfulBEq α] (a : α)
    (l : List α) : @List.count α inst a l = @List.count α instBEqOfDecidableEq a l := by
  induction l with
  | nil => rfl
  | cons b rest ih =>
    rw [@List.count_cons α inst, @List.count_cons α instBEqOfDecidableEq, ih]
    by_cases hb : b = a
    · have h1 : (@BEq.beq α inst b a) = true := by rw [hb]; exact beq_self_eq_true a
      have h2 : (@BEq.beq α instBEqOfDecidableEq b a) = true := by
        rw [hb]
        exact @beq_self_eq_true α instBEqOfDecidableEq _ a
      rw [h1, h2]
    · have h1 : (@BEq.beq α inst b a) = false := by
        cases hbeq : (@BEq.beq α inst b a) with
        | false => rfl
        | true => exact absurd (eq_of_beq hbeq) hb
      have h2 : (@BEq.beq α instBEqOfDecidableEq b a) = false := by
        cases hbeq : (@BEq.beq α instBEqOfDecidableEq b a) with
        | false => rfl
        | true => exact absurd (@eq_of_beq α instBEqOfDecidableEq _ b a hbeq) hb
      rw [h1, h2]

theorem sum_map_count_dedup {α : Type} [DecidableEq α] [inst : BEq α] [LawfulBEq α]
    (l : List α) : (l.dedup.map (fun x => @List.count α inst x l)).sum = l.length := by
  have h : (fun x => @List.count α inst x l) = fun x => @List.count α instBEqOfDecidableEq x l :=
    funext (fun x => count_eq_count_decide x l)
  rw [h]
  exact List.sum_map_count_dedup_eq_length l

theorem toList_eq_map_of_find {V : Type} (m : OrderedMap Str V) (f : Str → V)
    (h : ∀ k ∈ m.keys, m.find? k = some (f k)) :
    m.toList = m.keys.map (fun k => (k, f k)) := by
  unfold OrderedMap.toList
  generalize m.keys = l at h
  induction l with
  | nil => rfl
  | cons a rest ih =>
    rw [List.filterMap_cons, h a (List.mem_cons_self _ _)]
    simp only [Option.map_some', List.map_cons]
    rw [ih (fun k hk => h k (List.mem_cons_of_mem _ hk))]

/-- In a history of additions only, every added id has metadata, and its
forward-index row holds the term frequencies of its text. -/
theorem History.rows_of_adds {R : Type} [LinearOrderedField R] {ops : List Op}
    {s : SearchServer R} (h : History ops s) (hadds : ∀ op ∈ ops, Op.isAdd op = true) :
    ∀ document_id document status ratings, Op.add document_id document status ratings ∈ ops →
      (∃ data, s.documents_.find? document_id = some data) ∧
      ∀ t, s.rowEntry document_id t =
        if t ∈ s.indexableWords document then
          some (((s.indexableWords document).count t : R) /
            ((s.indexableWords document).length : R))
        else none := by
  induction h with
  | create stop_words s hc =>
    intro document_id document status ratings hmem
    cases hmem
  | call ops s op hist hok ih =>
    have ih1 := ih (fun o ho => hadds o (List.mem_cons_of_mem _ ho))
    have hop := hadds op (List.mem_cons_self _ _)
    cases op with
    | remove d => simp [Op.isAdd] at hop
    | removePar d => simp [Op.isAdd] at hop
    | add d document1 status1 ratings1 =>
      have hfresh := (SearchServer.AddDocument_not_count s d document1 status1 ratings1 hok).2.2
      have hstop : (s.AddDocument d document1 status1 ratings1).state.stop_words_ =
          s.stop_words_ := SearchServer.AddDocument_stop_words s d document1 status1 ratings1
      have hnever : ∀ o ∈ ops, Op.adds d o = false := by
        intro o ho
        cases o with
        | remove _ => rfl
        | removePar _ => rfl
        | add d2 document2 status2 ratings2 =>
          by_cases hd : d2 = d
          · subst hd
            obtain ⟨⟨data, hdata⟩, _⟩ := ih1 d2 document2 status2 ratings2 ho
            rw [hdata] at hfresh
            cases hfresh
          · simp [Op.adds, hd]
      have hrow : ∀ t, s.rowEntry d t = none := by
        intro t
        simp [SearchServer.rowEntry, (hist.never_added d hnever).1]
      intro document_id document status ratings hmem
      simp only [applyOp] at hok ⊢
      rw [indexableWords_congr s _ hstop]
      rcases List.mem_cons.mp hmem with heq | hin
      · cases heq
        refine ⟨?_, fun t => ?_⟩
        · rw [SearchServer.AddDocument_documents s _ _ _ _ hok]
          simp
        · rw [SearchServer.AddDocument_rowEntry s _ _ _ _ hok, hrow t]
          by_cases ht : t ∈ s.indexableWords document1
          · simp [ht, div_eq_mul_inv]
          · simp [ht]
      · obtain ⟨⟨data, hdata⟩, hrows⟩ := ih1 document_id document status ratings hin
        have hne : document_id ≠ d := by
          intro heq
          rw [heq, hfresh] at hdata
          cases hdata
        refine ⟨?_, fun t => ?_⟩
        · rw [SearchServer.AddDocument_documents s _ _ _ _ hok, if_neg hne]
          exact ⟨data, hdata⟩
        · rw [SearchServer.AddDocument_rowEntry s _ _ _ _ hok]
          simp only [hne, false_and, if_false]
          exact hrows t

/-- In exact arithmetic: after a successful `AddDocument(id, text, ...)` whose
text has an indexable token, and as long as no document has been removed, the
values of `GetWordFrequencies(id)` sum to exactly 1, and each lies in
`(0, 1]`. -/
theorem word_frequencies_sum_one {R : Type} [LinearOrderedField R] (ops : List Op)
    (s : SearchServer R) (h : History ops s) (hadds : ∀ op ∈ ops, Op.isAdd op = true)
    (document_id : Int) (document : Str) (status : DocumentStatus) (ratings : List Int)
    (hmem : Op.add document_id document status ratings ∈ ops)
    (htoken : s.indexableWords document ≠ []) :
    (((s.GetWordFrequencies document_id).toList.map Prod.snd).sum = 1) ∧
    ∀ p ∈ (s.GetWordFrequencies document_id).toList, 0 < p.2 ∧ p.2 ≤ 1 := by
  obtain ⟨_, hrows⟩ := h.rows_of_adds hadds document_id document status ratings hmem
  have hlen : (0 : R) < ((s.indexableWords document).length : R) := by
    have : 0 < (s.indexableWords document).length := List.length_pos.mpr htoken
    exact_mod_cast this
  have hfind : ∀ t, (s.GetWordFrequencies document_id).find? t =
      if t ∈ s.indexableWords document then
        some (((s.indexableWords document).count t : R) /
          ((s.indexableWords document).length : R))
      else none := by
    intro t
    rw [find?_GetWordFrequencies, hrows t]
  have hkeys : ∀ t, t ∈ (s.GetWordFrequencies document_id).keys ↔
      t ∈ s.indexableWords document := by
    intro t
    rw [OrderedMap.mem_keys, hfind t]
    by_cases ht : t ∈ s.indexableWords document
    · simp [ht]
    · simp [ht]
  have hlist := toList_eq_map_of_find (s.GetWordFrequencies document_id)
    (fun k => ((s.indexableWords document).count k : R) /
      ((s.indexableWords document).length : R))
    (fun k hk => by rw [hfind k, if_pos ((hkeys k).mp hk)])
  constructor
  · have hperm : (s.GetWordFrequencies document_id).keys.Perm (s.indexableWords document).dedup :=
      (List.perm_ext_iff_of_nodup (OrderedMap.nodup_keys _) (List.nodup_dedup _)).mpr
        (fun t => by rw [hkeys t, List.mem_dedup])
    rw [hlist, List.map_map]
    have hfun : (Prod.snd ∘ fun k : Str => (k, ((s.indexableWords document).count k : R) /
        ((s.indexableWords document).length : R))) =
        fun k => (((s.indexableWords document).count k : Nat) : R) /
          ((s.indexableWords document).length : R) := rfl
    rw [hfun, (hperm.map _).sum_eq, sum_map_cast_div, sum_map_count_dedup]
    exact div_self (ne_of_gt hlen)
  · intro p hp
    rw [hlist] at hp
    obtain ⟨k, hk, rfl⟩ := List.mem_map.mp hp
    have hkin := (hkeys k).mp hk
    have hcount : 0 < (s.indexableWords document).count k := List.count_pos_iff.mpr hkin
    have hle : (s.indexableWords document).count k ≤ (s.indexableWords document).length :=
      List.count_le_length _ _
    constructor
    · exact div_pos (by exact_mod_cast hcount) hlen
    · rw [div_le_one hlen]
      exact_mod_cast hle

/-- An instance in exact arithmetic: document 1 of the sample server. -/
theorem word_frequencies_sum_one_witness :
    History sampleOps sampleServer ∧
    (∀ op ∈ sampleOps, Op.isAdd op = true) ∧
    Op.add 1 "fluffy cat fluffy tail".toList DocumentStatus.ACTUAL [7, 2, 7] ∈ sampleOps ∧
    sampleServer.indexableWords "fluffy cat fluffy tail".toList ≠ [] ∧
    ((sampleServer.GetWordFrequencies 1).toList.map Prod.snd).sum = 1 :=
  ⟨sampleServer_history, by decide, by simp [sampleOps, sampleTwoOps], by decide,
    (word_frequencies_sum_one sampleOps sampleServer sampleServer_history (by decide) 1
      "fluffy cat fluffy tail".toList DocumentStatus.ACTUAL [7, 2, 7]
      (by simp [sampleOps, sampleTwoOps]) (by decide)).1⟩

/-! ## Stop words -/

theorem plusTerms_eq_nil_of_stop {R : Type} [LinearOrderedField R] (s : SearchServer R)
    (raw_query : Str) (h : ∀ w ∈ SplitIntoWords raw_query, s.IsStopWord w = true) :
    s.plusTerms raw_query = [] := by
  unfold SearchServer.plusTerms SearchServer.plusTermsOf
  rw [List.filter_eq_nil_iff]
  intro w hw
  simp [h w hw]

/-- C10: in a reachable state no stop word is a key of the inverted index or of
a forward-index row; a query that parses has no stop word among its plus-words
or minus-words; hence a query made of stop words only returns no document (and
returns the empty list whenever it parses). -/
theorem stop_words_excluded {R : Type} [LinearOrderedField R] (s : SearchServer R)
    (hs : Reachable s) :
    (∀ w, s.word_to_document_freqs_.count w = true → s.IsStopWord w = false) ∧
    (∀ d row w, s.document_to_word_freqs_.find? d = some row → row.count w = true →
      s.IsStopWord w = false) ∧
    (∀ raw_query sort_flag query, s.ParseQuery raw_query sort_flag = .ok query →
      ∀ t, t ∈ query.plus_words ∨ t ∈ query.minus_words → s.IsStopWord t = false) ∧
    (∀ (ln : R → R) raw_query (document_predicate : Int → DocumentStatus → Int → Bool),
      (∀ w ∈ SplitIntoWords raw_query, s.IsStopWord w = true) →
      (∀ docs, s.FindTopDocuments ln raw_query document_predicate = .ok docs → docs = []) ∧
      (∀ query, s.ParseQuery raw_query true = .ok query →
        s.FindTopDocuments ln raw_query document_predicate = .ok [])) := by
  have hwf := hs.wellFormed
  refine ⟨hwf.no_stop_key, ?_, ?_, ?_⟩
  · intro d row w hrow hcount
    obtain ⟨tf, htf⟩ := (OrderedMap.count_eq_true_iff _ _).mp hcount
    exact hwf.no_stop_row d w tf (by simp [SearchServer.rowEntry, hrow, htf])
  · intro raw_query sort_flag query hq t ht
    cases sort_flag with
    | true =>
      rcases ht with ht | ht
      · exact SearchServer.not_stop_of_mem_plusTerms s raw_query t
          (((SearchServer.ParseQuery_plus_words s raw_query query hq).2 t).mp ht)
      · exact SearchServer.not_stop_of_mem_minusTerms s raw_query t
          (((SearchServer.ParseQuery_minus_words s raw_query query hq).2 t).mp ht)
    | false =>
      obtain ⟨h1, h2⟩ := SearchServer.ParseQuery_unsorted_ok s raw_query query hq
      rcases ht with ht | ht
      · rw [h1] at ht
        exact SearchServer.not_stop_of_mem_plusTerms s raw_query t ht
      · rw [h2] at ht
        exact SearchServer.not_stop_of_mem_minusTerms s raw_query t ht
  · intro ln raw_query document_predicate hstop
    have hempty : ∀ query, s.ParseQuery raw_query true = .ok query →
        s.FindTopDocuments ln raw_query document_predicate = .ok [] := by
      intro query hq
      obtain ⟨docs, hdocs, hmem⟩ :=
        SearchServer.mem_FindTopDocuments s hwf ln raw_query document_predicate query hq
      have hplus : query.plus_words = [] := by
        rw [List.eq_nil_iff_forall_not_mem]
        intro t ht
        have := ((SearchServer.ParseQuery_plus_words s raw_query query hq).2 t).mp ht
        rw [plusTerms_eq_nil_of_stop s raw_query hstop] at this
        cases this
      have hnil : docs = [] := by
        rw [List.eq_nil_iff_forall_not_mem]
        intro doc hdoc
        obtain ⟨hscore, _⟩ := hmem doc hdoc
        unfold SearchServer.score at hscore
        rw [hplus] at hscore
        split at hscore
        · cases hscore
        · cases hscore
      rw [hdocs, hnil]
    refine ⟨?_, hempty⟩
    intro docs hdocs
    obtain ⟨query, hq⟩ :=
      SearchServer.ParseQuery_of_FindTopDocuments s ln raw_query document_predicate docs hdocs
    rw [hempty query hq] at hdocs
    cases hdocs
    rfl

/-- Witness of C10: the query `in the` on the sample server, whose stop words
are `in` and `the`. -/
theorem stop_words_excluded_witness :
    Reachable sampleServer ∧
    (∀ w ∈ SplitIntoWords "in the".toList, sampleServer.IsStopWord w = true) ∧
    sampleServer.ParseQuery "in the".toList true = .ok ⟨[], []⟩ ∧
    sampleServer.FindTopDocuments sampleLn "in the".toList (fun _ _ _ => true) = .ok [] :=
  ⟨sampleServer_reachable, by decide, rfl,
    ((stop_words_excluded sampleServer sampleServer_reachable).2.2.2 sampleLn "in the".toList
      (fun _ _ _ => true) (by decide)).2 ⟨[], []⟩ rfl⟩

/-! ## `MatchDocument` -/

theorem wordChecker_eq {R : Type} [LinearOrderedField R] (s : SearchServer R) (document_id : Int)
    (word : Str) : s.wordChecker document_id word = (s.posting word document_id).isSome := by
  unfold SearchServer.wordChecker SearchServer.posting
  cases hf : s.word_to_document_freqs_.find? word with
  | none => rfl
  | some postings => simp [OrderedMap.count]

theorem matchMinusWords_eq {R : Type} [LinearOrderedField R] (s : SearchServer R)
    (document_id : Int) (words : List Str) :
    SearchServer.matchMinusWords s document_id words =
      words.any (fun t => (s.posting t document_id).isSome) := by
  induction words with
  | nil => rfl
  | cons w rest ih =>
    unfold SearchServer.matchMinusWords
    rw [List.any_cons, ← wordChecker_eq, ih]
    unfold SearchServer.wordChecker
    cases hf : s.word_to_document_freqs_.find? w with
    | none => simp
    | some postings =>
      by_cases hc : postings.count document_id = true
      · simp [hc]
      · simp [hc]

theorem matchPlusWords_eq {R : Type} [LinearOrderedField R] (s : SearchServer R)
    (document_id : Int) (words : List Str) :
    SearchServer.matchPlusWords s document_id words =
      words.filter (fun t => (s.posting t document_id).isSome) := by
  induction words with
  | nil => rfl
  | cons w rest ih =>
    unfold SearchServer.matchPlusWords
    rw [List.filter_cons, ← wordChecker_eq, ih]
    unfold SearchServer.wordChecker
    cases hf : s.word_to_document_freqs_.find? w with
    | none => simp
    | some postings =>
      by_cases hc : postings.count document_id = true
      · simp [hc]
      · simp [hc]

theorem data_of_live {R : Type} [LinearOrderedField R] (s : SearchServer R)
    (hs : SearchServer.WellFormed s) (document_id : Int) (hlive : s.isLive document_id = true) :
    ∃ data, s.documents_.find? document_id = some data := by
  apply (OrderedMap.count_eq_true_iff _ _).mp
  rw [hs.ids_documents document_id]
  exact hlive

/-- C14: in a reachable state, for a live id and a query that parses, the
sequential `MatchDocument` returns the stored status of the document together
with the empty list when a minus-word of the query has a posting for the id,
and otherwise the plus-words of the parsed query that have a posting for the
id, each once, in the order of the parsed query. -/
theorem match_document_sequential {R : Type} [LinearOrderedField R] (s : SearchServer R)
    (hs : Reachable s) (raw_query : Str) (document_id : Int)
    (hlive : s.isLive document_id = true) (query : Query)
    (hq : s.ParseQuery raw_query true = .ok query) :
    ∃ data, s.documents_.find? document_id = some data ∧
      s.MatchDocument raw_query document_id =
        .ok (if query.minus_words.any (fun t => (s.posting t document_id).isSome) = true then []
          else query.plus_words.filter (fun t => (s.posting t document_id).isSome),
          data.status) ∧
      query.plus_words.Nodup := by
  obtain ⟨data, hdata⟩ := data_of_live s hs.wellFormed document_id hlive
  refine ⟨data, hdata, ?_, (SearchServer.ParseQuery_plus_words s raw_query query hq).1⟩
  have hc : s.document_ids_.contains document_id = true := hlive
  unfold SearchServer.MatchDocument
  rw [hc, hq, hdata]
  simp only [Bool.true_eq_false, if_false, matchMinusWords_eq, matchPlusWords_eq]
  by_cases hm : query.minus_words.any (fun t => (s.posting t document_id).isSome) = true
  · rw [if_pos hm, if_pos hm]
  · rw [if_neg hm, if_neg hm]

/-- Witness of C14: document 1 of the sample server and the query
`fluffy cat -dog`. -/
theorem match_document_sequential_witness :
    Reachable sampleServer ∧ sampleServer.isLive 1 = true ∧
    sampleServer.ParseQuery "fluffy cat -dog".toList true =
      .ok ⟨["cat".toList, "fluffy".toList], ["dog".toList]⟩ ∧
    ∃ data, sampleServer.documents_.find? 1 = some data ∧
      sampleServer.MatchDocument "fluffy cat -dog".toList 1 =
        .ok (if ["dog".toList].any (fun t => (sampleServer.posting t 1).isSome) = true then []
          else ["cat".toList, "fluffy".toList].filter
            (fun t => (sampleServer.posting t 1).isSome),
          data.status) ∧
      ["cat".toList, "fluffy".toList].Nodup :=
  ⟨sampleServer_reachable, by decide, rfl,
    match_document_sequential sampleServer sampleServer_reachable "fluffy cat -dog".toList 1
      (by decide) ⟨["cat".toList, "fluffy".toList], ["dog".toList]⟩ rfl⟩

/-! ## Queries that do not parse -/

theorem ParseQueryWord_of_malformed {R : Type} [LinearOrderedField R] (s : SearchServer R)
    (w : Str) (h : SearchServer.malformedTerm w) :
    s.ParseQueryWord w = .error Error.invalid_argument := by
  unfold SearchServer.ParseQueryWord
  by_cases he : w.isEmpty = true
  · rw [if_pos he]
  · rw [if_neg he]
    have hcond : ((SearchServer.stripMinus w).isEmpty ||
        decide ((SearchServer.stripMinus w).head? = some '-') ||
        !IsValidWord (SearchServer.stripMinus w)) = true := by
      rcases h with h1 | h1 | h1
      · simp [h1]
      · simp [h1]
      · have := (IsValidWord_eq_false_iff _).mpr h1
        simp [this]
    unfold SearchServer.stripMinus at hcond
    by_cases hm : w.head? = some '-'
    · simp only [hm, decide_True, if_true] at hcond ⊢
      rw [if_pos hcond]
    · simp only [hm, decide_False, Bool.false_eq_true, if_false] at hcond ⊢
      rw [if_pos hcond]

theorem ParseQueryWord_of_wellformed {R : Type} [LinearOrderedField R] (s : SearchServer R)
    (w : Str) (h : ¬ SearchServer.malformedTerm w) :
    s.ParseQueryWord w =
      .ok ⟨SearchServer.stripMinus w, decide (w.head? = some '-'),
        s.IsStopWord (SearchServer.stripMinus w)⟩ := by
  unfold SearchServer.malformedTerm at h
  push_neg at h
  obtain ⟨h1, h2, h3⟩ := h
  have hne : w.isEmpty = false := by
    cases w with
    | nil => exact absurd rfl h1
    | cons a l => rfl
  have hvalid : IsValidWord (SearchServer.stripMinus w) = true := by
    rw [IsValidWord_iff]
    intro c hc
    exact not_lt.mpr (h3 c hc)
  have hcond : ((SearchServer.stripMinus w).isEmpty ||
      decide ((SearchServer.stripMinus w).head? = some '-') ||
      !IsValidWord (SearchServer.stripMinus w)) = false := by
    have he : (SearchServer.stripMinus w).isEmpty = false := by
      cases hsw : SearchServer.stripMinus w with
      | nil => exact absurd hsw h1
      | cons a l => rfl
    simp [he, h2, hvalid]
  unfold SearchServer.ParseQueryWord
  rw [hne]
  unfold SearchServer.stripMinus at hcond ⊢
  by_cases hm : w.head? = some '-'
  · simp only [hm, decide_True, if_true, Bool.false_eq_true, if_false] at hcond ⊢
    rw [hcond]
    simp
  · simp only [hm, decide_False, Bool.false_eq_true, if_false] at hcond ⊢
    rw [hcond]
    simp

theorem ParseQueryLoop_of_malformed {R : Type} [LinearOrderedField R] (s : SearchServer R)
    (words : List Str) (acc : Query) (h : ∃ w ∈ words, SearchServer.malformedTerm w) :
    s.ParseQueryLoop words acc = .error Error.invalid_argument := by
  induction words generalizing acc with
  | nil =>
    obtain ⟨w, hw, _⟩ := h
    cases hw
  | cons a rest ih =>
    unfold SearchServer.ParseQueryLoop
    by_cases ha : SearchServer.malformedTerm a
    · rw [ParseQueryWord_of_malformed s a ha]
    · rw [ParseQueryWord_of_wellformed s a ha]
      have hrest : ∃ w ∈ rest, SearchServer.malformedTerm w := by
        obtain ⟨w, hw, hmal⟩ := h
        rcases List.mem_cons.mp hw with h1 | h1
        · rw [h1] at hmal
          exact absurd hmal ha
        · exact ⟨w, h1, hmal⟩
      simp only
      split
      · split
        · exact ih _ hrest
        · exact ih _ hrest
      · exact ih _ hrest

theorem ParseQueryLoop_of_wellformed {R : Type} [LinearOrderedField R] (s : SearchServer R)
    (words : List Str) (acc : Query) (h : ∀ w ∈ words, ¬ SearchServer.malformedTerm w) :
    ∃ query, s.ParseQueryLoop words acc = .ok query := by
  induction words generalizing acc with
  | nil => exact ⟨acc, rfl⟩
  | cons a rest ih =>
    unfold SearchServer.ParseQueryLoop
    rw [ParseQueryWord_of_wellformed s a (h a (List.mem_cons_self _ _))]
    have hrest : ∀ w ∈ rest, ¬ SearchServer.malformedTerm w :=
      fun w hw => h w (List.mem_cons_of_mem _ hw)
    simp only
    split
    · split
      · exact ih _ hrest
      · exact ih _ hrest
    · exact ih _ hrest

theorem ParseQuery_of_malformed {R : Type} [LinearOrderedField R] (s : SearchServer R)
    (raw_query : Str) (sort_flag : Bool)
    (h : ∃ w ∈ SplitIntoWords raw_query, SearchServer.malformedTerm w) :
    s.ParseQuery raw_query sort_flag = .error Error.invalid_argument := by
  unfold SearchServer.ParseQuery
  rw [ParseQueryLoop_of_malformed s _ _ h]

theorem ParseQuery_of_wellformed {R : Type} [LinearOrderedField R] (s : SearchServer R)
    (raw_query : Str) (sort_flag : Bool)
    (h : ∀ w ∈ SplitIntoWords raw_query, ¬ SearchServer.malformedTerm w) :
    ∃ query, s.ParseQuery raw_query sort_flag = .ok query := by
  obtain ⟨result, hresult⟩ := ParseQueryLoop_of_wellformed s (SplitIntoWords raw_query) ⟨[], []⟩ h
  unfold SearchServer.ParseQuery
  rw [hresult]
  cases sort_flag with
  | true => exact ⟨_, rfl⟩
  | false => exact ⟨_, rfl⟩

theorem ParseQuery_error_kind {R : Type} [LinearOrderedField R] (s : SearchServer R)
    (raw_query : Str) (sort_flag : Bool) (e : Error)
    (h : s.ParseQuery raw_query sort_flag = .error e) : e = Error.invalid_argument := by
  by_cases hm : ∃ w ∈ SplitIntoWords raw_query, SearchServer.malformedTerm w
  · rw [ParseQuery_of_malformed s raw_query sort_flag hm] at h
    cases h
    rfl
  · push_neg at hm
    obtain ⟨query, hq⟩ := ParseQuery_of_wellformed s raw_query sort_flag hm
    rw [hq] at h
    cases h

/-- C18: parsing a query text (with or without the sorting pass) throws
`invalid_argument` exactly when some word of the text, stripped of one leading
`-`, is empty, starts with `-` or contains a character with code below 0x20;
otherwise it returns a query.  Stop words play no part: a malformed word makes
the parse fail also when it is a stop word. -/
theorem parse_query_fails_iff {R : Type} [LinearOrderedField R] (s : SearchServer R)
    (raw_query : Str) (sort_flag : Bool) :
    (s.ParseQuery raw_query sort_flag = .error Error.invalid_argument ↔
      ∃ w ∈ SplitIntoWords raw_query, SearchServer.malformedTerm w) ∧
    ((¬ ∃ w ∈ SplitIntoWords raw_query, SearchServer.malformedTerm w) →
      ∃ query, s.ParseQuery raw_query sort_flag = .ok query) ∧
    (∀ e, s.ParseQuery raw_query sort_flag = .error e → e = Error.invalid_argument) ∧
    (∀ w ∈ SplitIntoWords raw_query, SearchServer.malformedTerm w →
      (s.IsStopWord w = true ∨ s.IsStopWord (SearchServer.stripMinus w) = true) →
      s.ParseQuery raw_query sort_flag = .error Error.invalid_argument) := by
  refine ⟨⟨?_, ParseQuery_of_malformed s raw_query sort_flag⟩, ?_,
    ParseQuery_error_kind s raw_query sort_flag, ?_⟩
  · intro herr
    by_contra hm
    push_neg at hm
    obtain ⟨query, hq⟩ := ParseQuery_of_wellformed s raw_query sort_flag hm
    rw [hq] at herr
    cases herr
  · intro hm
    push_neg at hm
    exact ParseQuery_of_wellformed s raw_query sort_flag hm
  · intro w hw hmal _
    exact ParseQuery_of_malformed s raw_query sort_flag ⟨w, hw, hmal⟩

/-- Witness of C18: the word `--dog` makes the parse fail. -/
theorem parse_query_fails_iff_witness :
    (∃ w ∈ SplitIntoWords "cat --dog".toList, SearchServer.malformedTerm w) ∧
    sampleServer.ParseQuery "cat --dog".toList true = .error Error.invalid_argument :=
  ⟨⟨"--dog".toList, by decide, Or.inr (Or.inl (by decide))⟩,
    (parse_query_fails_iff sampleServer "cat --dog".toList true).1.mpr
      ⟨"--dog".toList, by decide, Or.inr (Or.inl (by decide))⟩⟩

/-! ## Errors of `MatchDocument`, and its two strategies -/

theorem MatchDocument_dead {R : Type} [LinearOrderedField R] (s : SearchServer R)
    (raw_query : Str) (document_id : Int) (hc : s.document_ids_.contains document_id = false) :
    s.MatchDocument raw_query document_id = .error Error.out_of_range ∧
    s.MatchDocumentPar raw_query document_id = .error Error.out_of_range := by
  unfold SearchServer.MatchDocument SearchServer.MatchDocumentPar
  rw [hc]
  exact ⟨rfl, rfl⟩

theorem MatchDocument_parse_error {R : Type} [LinearOrderedField R] (s : SearchServer R)
    (raw_query : Str) (document_id : Int) (hc : s.document_ids_.contains document_id = true)
    (e : Error) (hq : s.ParseQuery raw_query true = .error e) :
    s.MatchDocument raw_query document_id = .error e := by
  unfold SearchServer.MatchDocument
  rw [hc, hq]
  rfl

theorem MatchDocumentPar_parse_error {R : Type} [LinearOrderedField R] (s : SearchServer R)
    (raw_query : Str) (document_id : Int) (hc : s.document_ids_.contains document_id = true)
    (e : Error) (hq : s.ParseQuery raw_query false = .error e) :
    s.MatchDocumentPar raw_query document_id = .error e := by
  unfold SearchServer.MatchDocumentPar
  rw [hc, hq]
  rfl

theorem MatchDocument_no_data {R : Type} [LinearOrderedField R] (s : SearchServer R)
    (raw_query : Str) (document_id : Int) (hc : s.document_ids_.contains document_id = true)
    (query : Query) (hq : s.ParseQuery raw_query true = .ok query)
    (hd : s.documents_.find? document_id = none) :
    s.MatchDocument raw_query document_id = .error Error.out_of_range := by
  unfold SearchServer.MatchDocument
  rw [hc, hq, hd]
  rfl

theorem MatchDocumentPar_no_data {R : Type} [LinearOrderedField R] (s : SearchServer R)
    (raw_query : Str) (document_id : Int) (hc : s.document_ids_.contains document_id = true)
    (query : Query) (hq : s.ParseQuery raw_query false = .ok query)
    (hd : s.documents_.find? document_id = none) :
    s.MatchDocumentPar raw_query document_id = .error Error.out_of_range := by
  unfold SearchServer.MatchDocumentPar
  rw [hc, hq, hd]
  rfl

theorem MatchDocument_ok {R : Type} [LinearOrderedField R] (s : SearchServer R)
    (raw_query : Str) (document_id : Int) (hc : s.document_ids_.contains document_id = true)
    (query : Query) (hq : s.ParseQuery raw_query true = .ok query) (data : DocumentData)
    (hd : s.documents_.find? document_id = some data) :
    s.MatchDocument raw_query document_id =
      .ok (if query.minus_words.any (fun t => (s.posting t document_id).isSome) = true then []
        else query.plus_words.filter (fun t => (s.posting t document_id).isSome),
        data.status) := by
  unfold SearchServer.MatchDocument
  rw [hc, hq, hd]
  simp only [Bool.true_eq_false, if_false, matchMinusWords_eq, matchPlusWords_eq]
  by_cases hm : query.minus_words.any (fun t => (s.posting t document_id).isSome) = true
  · rw [if_pos hm, if_pos hm]
  · rw [if_neg hm, if_neg hm]

theorem MatchDocumentPar_ok {R : Type} [LinearOrderedField R] (s : SearchServer R)
    (raw_query : Str) (document_id : Int) (hc : s.document_ids_.contains document_id = true)
    (query : Query) (hq : s.ParseQuery raw_query false = .ok query) (data : DocumentData)
    (hd : s.documents_.find? document_id = some data) :
    s.MatchDocumentPar raw_query document_id =
      .ok (if query.minus_words.any (fun t => (s.posting t document_id).isSome) = true then []
        else unique (sort (fun a b => decide (a < b))
          (query.plus_words.filter (fun t => (s.posting t document_id).isSome))),
        data.status) := by
  have hchk : s.wordChecker document_id = fun t => (s.posting t document_id).isSome :=
    funext (fun t => wordChecker_eq s document_id t)
  unfold SearchServer.MatchDocumentPar
  rw [hc, hq, hd, hchk]
  simp only [Bool.not_true, Bool.false_eq_true, if_false]
  by_cases hm : query.minus_words.any (fun t => (s.posting t document_id).isSome) = true
  · rw [if_pos hm, if_pos hm]
  · rw [if_neg hm, if_neg hm]

/-- C15: in a reachable state `MatchDocument`, with either strategy, throws
`out_of_range` whenever the id is not live, whatever the query text, and
never throws `out_of_range` when the id is live. -/
theorem match_document_not_found {R : Type} [LinearOrderedField R] (s : SearchServer R)
    (hs : Reachable s) (raw_query : Str) (document_id : Int) :
    (s.isLive document_id = false →
      s.MatchDocument raw_query document_id = .error Error.out_of_range ∧
      s.MatchDocumentPar raw_query document_id = .error Error.out_of_range) ∧
    (s.isLive document_id = true →
      s.MatchDocument raw_query document_id ≠ .error Error.out_of_range ∧
      s.MatchDocumentPar raw_query document_id ≠ .error Error.out_of_range) := by
  constructor
  · intro hdead
    exact MatchDocument_dead s raw_query document_id hdead
  · intro hlive
    have hc : s.document_ids_.contains document_id = true := hlive
    obtain ⟨data, hdata⟩ := data_of_live s hs.wellFormed document_id hlive
    constructor
    · cases hq : s.ParseQuery raw_query true with
      | error e =>
        rw [MatchDocument_parse_error s raw_query document_id hc e hq,
          ParseQuery_error_kind s raw_query true e hq]
        intro h
        cases h
      | ok query =>
        rw [MatchDocument_ok s raw_query document_id hc query hq data hdata]
        intro h
        cases h
    · cases hq : s.ParseQuery raw_query false with
      | error e =>
        rw [MatchDocumentPar_parse_error s raw_query document_id hc e hq,
          ParseQuery_error_kind s raw_query false e hq]
        intro h
        cases h
      | ok query =>
        rw [MatchDocumentPar_ok s raw_query document_id hc query hq data hdata]
        intro h
        cases h

/-- Witness of C15: id 5 is not live in the sample server, id 1 is. -/
theorem match_document_not_found_witness :
    Reachable sampleServer ∧ sampleServer.isLive 5 = false ∧ sampleServer.isLive 1 = true ∧
    sampleServer.MatchDocument "cat --dog".toList 5 = .error Error.out_of_range ∧
    sampleServer.MatchDocumentPar "cat --dog".toList 5 = .error Error.out_of_range ∧
    sampleServer.MatchDocument "cat --dog".toList 1 ≠ .error Error.out_of_range ∧
    sampleServer.MatchDocumentPar "cat --dog".toList 1 ≠ .error Error.out_of_range :=
  ⟨sampleServer_reachable, by decide, by decide,
    ((match_document_not_found sampleServer sampleServer_reachable "cat --dog".toList 5).1
      (by decide)).1,
    ((match_document_not_found sampleServer sampleServer_reachable "cat --dog".toList 5).1
      (by decide)).2,
    ((match_document_not_found sampleServer sampleServer_reachable "cat --dog".toList 1).2
      (by decide)).1,
    ((match_document_not_found sampleServer sampleServer_reachable "cat --dog".toList 1).2
      (by decide)).2⟩

theorem any_unique_sort (p : Str → Bool) (l : List Str) :
    (unique (sort (fun a b => decide (a < b)) l)).any p = l.any p := by
  rw [Bool.eq_iff_iff, List.any_eq_true, List.any_eq_true]
  constructor
  · rintro ⟨t, ht, hp⟩
    exact ⟨t, (mem_unique_sort l t).mp ht, hp⟩
  · rintro ⟨t, ht, hp⟩
    exact ⟨t, (mem_unique_sort l t).mpr ht, hp⟩

theorem ParseQuery_of_loop_error {R : Type} [LinearOrderedField R] (s : SearchServer R)
    (raw_query : Str) (sort_flag : Bool) (e : Error)
    (hl : s.ParseQueryLoop (SplitIntoWords raw_query) ⟨[], []⟩ = .error e) :
    s.ParseQuery raw_query sort_flag = .error e := by
  unfold SearchServer.ParseQuery
  rw [hl]

theorem ParseQuery_of_loop_ok {R : Type} [LinearOrderedField R] (s : SearchServer R)
    (raw_query : Str) (result : Query)
    (hl : s.ParseQueryLoop (SplitIntoWords raw_query) ⟨[], []⟩ = .ok result) :
    s.ParseQuery raw_query true =
      .ok ⟨unique (sort (fun a b => decide (a < b)) result.plus_words),
        unique (sort (fun a b => decide (a < b)) result.minus_words)⟩ ∧
    s.ParseQuery raw_query false = .ok result := by
  unfold SearchServer.ParseQuery
  rw [hl]
  exact ⟨rfl, rfl⟩

/-- C16: in every state, for every query text and id, the parallel
`MatchDocument` throws exactly when the sequential one does, and the same
exception; when the sequential one returns, the parallel one returns the same
status and a list without repetition holding the same terms. -/
theorem match_document_parallel_agrees {R : Type} [LinearOrderedField R] (s : SearchServer R)
    (raw_query : Str) (document_id : Int) :
    (∀ e, s.MatchDocumentPar raw_query document_id = .error e ↔
      s.MatchDocument raw_query document_id = .error e) ∧
    (∀ words status, s.MatchDocument raw_query document_id = .ok (words, status) →
      ∃ wordsPar, s.MatchDocumentPar raw_query document_id = .ok (wordsPar, status) ∧
        wordsPar.Nodup ∧ ∀ t, t ∈ wordsPar ↔ t ∈ words) := by
  cases hc : s.document_ids_.contains document_id with
  | false =>
    obtain ⟨h1, h2⟩ := MatchDocument_dead s raw_query document_id hc
    rw [h1, h2]
    exact ⟨fun e => Iff.rfl, fun words status h => by cases h⟩
  | true =>
    cases hl : s.ParseQueryLoop (SplitIntoWords raw_query) ⟨[], []⟩ with
    | error e =>
      rw [MatchDocument_parse_error s raw_query document_id hc e
          (ParseQuery_of_loop_error s raw_query true e hl),
        MatchDocumentPar_parse_error s raw_query document_id hc e
          (ParseQuery_of_loop_error s raw_query false e hl)]
      exact ⟨fun e1 => Iff.rfl, fun words status h => by cases h⟩
    | ok result =>
      obtain ⟨hq1, hq2⟩ := ParseQuery_of_loop_ok s raw_query result hl
      cases hd : s.documents_.find? document_id with
      | none =>
        rw [MatchDocument_no_data s raw_query document_id hc _ hq1 hd,
          MatchDocumentPar_no_data s raw_query document_id hc _ hq2 hd]
        exact ⟨fun e1 => Iff.rfl, fun words status h => by cases h⟩
      | some data =>
        rw [MatchDocument_ok s raw_query document_id hc _ hq1 data hd,
          MatchDocumentPar_ok s raw_query document_id hc _ hq2 data hd]
        simp only [any_unique_sort]
        constructor
        · intro e
          constructor
          · intro h
            cases h
          · intro h
            cases h
        · intro words status hw
          simp only [Except.ok.injEq, Prod.mk.injEq] at hw
          obtain ⟨hw1, hw2⟩ := hw
          subst hw1
          rw [hw2]
          refine ⟨_, rfl, ?_, fun t => ?_⟩
          · split
            · exact List.nodup_nil
            · exact nodup_unique_sort _
          · split
            · exact Iff.rfl
            · rw [mem_unique_sort, List.mem_filter, List.mem_filter, mem_unique_sort]

/-! ## Plus-words and minus-words of a parsed query -/

theorem mem_minusTerms {R : Type} [LinearOrderedField R] (s : SearchServer R) (raw_query : Str)
    (t : Str) :
    t ∈ s.minusTerms raw_query ↔
      (∃ w ∈ SplitIntoWords raw_query, w.head? = some '-' ∧ w.drop 1 = t) ∧
        s.IsStopWord t = false := by
  simp only [SearchServer.minusTerms, SearchServer.minusTermsOf, List.mem_filter, List.mem_map,
    decide_eq_true_eq, Bool.not_eq_true']
  constructor
  · rintro ⟨⟨w, ⟨hw, hm⟩, rfl⟩, hstop⟩
    exact ⟨⟨w, hw, hm, rfl⟩, hstop⟩
  · rintro ⟨⟨w, hw, hm, rfl⟩, hstop⟩
    exact ⟨⟨w, ⟨hw, hm⟩, rfl⟩, hstop⟩

theorem mem_plusTerms {R : Type} [LinearOrderedField R] (s : SearchServer R) (raw_query : Str)
    (t : Str) :
    t ∈ s.plusTerms raw_query ↔
      t ∈ SplitIntoWords raw_query ∧ t.head? ≠ some '-' ∧ s.IsStopWord t = false := by
  simp only [SearchServer.plusTerms, SearchServer.plusTermsOf, List.mem_filter,
    Bool.and_eq_true, Bool.not_eq_true', decide_eq_false_iff_not, ne_eq]

/-- Counterexample to C19 as stated: for the query `cat -cat -in` on the sample
server (stop words `in`, `the`) the term `cat` is both a minus-word and a
plus-word of the parsed query, and `in`, which occurs in a minus position, is
not a minus-word. -/
theorem parse_query_not_disjoint :
    ∃ query, sampleServer.ParseQuery "cat -cat -in".toList true = .ok query ∧
      "cat".toList ∈ query.minus_words ∧ "cat".toList ∈ query.plus_words ∧
      "-in".toList ∈ SplitIntoWords "cat -cat -in".toList ∧
      "in".toList ∉ query.minus_words :=
  ⟨⟨["cat".toList], ["cat".toList]⟩, rfl, by decide, by decide, by decide, by decide⟩

/-- C19, amended: for a query text that parses, a term is a minus-word of the
parsed query exactly when it occurs in a minus position and is not a stop
word, and a plus-word exactly when it occurs in a plus position and is not a
stop word, whether or not it also occurs in a minus position; so the two lists
are disjoint exactly when no term that is not a stop word occurs in both
positions. -/
theorem parse_query_terms {R : Type} [LinearOrderedField R] (s : SearchServer R)
    (raw_query : Str) (sort_flag : Bool) (query : Query)
    (hq : s.ParseQuery raw_query sort_flag = .ok query) :
    (∀ t, t ∈ query.minus_words ↔
      (∃ w ∈ SplitIntoWords raw_query, w.head? = some '-' ∧ w.drop 1 = t) ∧
        s.IsStopWord t = false) ∧
    (∀ t, t ∈ query.plus_words ↔
      t ∈ SplitIntoWords raw_query ∧ t.head? ≠ some '-' ∧ s.IsStopWord t = false) ∧
    ((∀ t ∈ query.minus_words, t ∉ query.plus_words) ↔
      ¬ ∃ t, s.IsStopWord t = false ∧ (t ∈ SplitIntoWords raw_query ∧ t.head? ≠ some '-') ∧
        ∃ w ∈ SplitIntoWords raw_query, w.head? = some '-' ∧ w.drop 1 = t) := by
  have hminus : ∀ t, t ∈ query.minus_words ↔ t ∈ s.minusTerms raw_query := by
    intro t
    cases sort_flag with
    | true => exact (SearchServer.ParseQuery_minus_words s raw_query query hq).2 t
    | false => rw [(SearchServer.ParseQuery_unsorted_ok s raw_query query hq).2]
  have hplus : ∀ t, t ∈ query.plus_words ↔ t ∈ s.plusTerms raw_query := by
    intro t
    cases sort_flag with
    | true => exact (SearchServer.ParseQuery_plus_words s raw_query query hq).2 t
    | false => rw [(SearchServer.ParseQuery_unsorted_ok s raw_query query hq).1]
  have h1 : ∀ t, t ∈ query.minus_words ↔
      (∃ w ∈ SplitIntoWords raw_query, w.head? = some '-' ∧ w.drop 1 = t) ∧
        s.IsStopWord t = false := fun t => (hminus t).trans (mem_minusTerms s raw_query t)
  have h2 : ∀ t, t ∈ query.plus_words ↔
      t ∈ SplitIntoWords raw_query ∧ t.head? ≠ some '-' ∧ s.IsStopWord t = false :=
    fun t => (hplus t).trans (mem_plusTerms s raw_query t)
  refine ⟨h1, h2, ?_⟩
  constructor
  · rintro hdisj ⟨t, hstop, ⟨htok, hhead⟩, hw⟩
    exact hdisj t ((h1 t).mpr ⟨hw, hstop⟩) ((h2 t).mpr ⟨htok, hhead, hstop⟩)
  · intro hno t htm htp
    obtain ⟨hw, hstop⟩ := (h1 t).mp htm
    obtain ⟨htok, hhead, _⟩ := (h2 t).mp htp
    exact hno ⟨t, hstop, ⟨htok, hhead⟩, hw⟩

/-- Witness of C19, amended: the query `cat -cat -in` on the sample server. -/
theorem parse_query_terms_witness :
    sampleServer.ParseQuery "cat -cat -in".toList true =
      .ok ⟨["cat".toList], ["cat".toList]⟩ ∧
    (∀ t, t ∈ ["cat".toList] ↔
      t ∈ SplitIntoWords "cat -cat -in".toList ∧ t.head? ≠ some '-' ∧
        sampleServer.IsStopWord t = false) :=
  ⟨rfl, (parse_query_terms sampleServer "cat -cat -in".toList true
    ⟨["cat".toList], ["cat".toList]⟩ rfl).2.1⟩

/-! ## A removed document is not found -/

theorem History.append {R : Type} [LinearOrderedField R] {ops ops2 : List Op}
    {s s2 : SearchServer R} (h : History ops s) (hsteps : Steps s ops2 s2) :
    History (ops2 ++ ops) s2 := by
  induction hsteps with
  | refl => exact h
  | call ops2 s1 op _ hok ih => exact History.call _ _ _ ih hok

theorem Steps.posting_none {R : Type} [LinearOrderedField R] {ops2 : List Op}
    {s1 s2 : SearchServer R} (hsteps : Steps s1 ops2 s2) (document_id : Int)
    (hnoadd : ∀ o ∈ ops2, Op.adds document_id o = false)
    (h1 : ∀ w, s1.posting w document_id = none) : ∀ w, s2.posting w document_id = none := by
  induction hsteps with
  | refl => exact h1
  | call ops2 s3 op _ hok ih =>
    have ih1 := ih (fun o ho => hnoadd o (List.mem_cons_of_mem _ ho))
    have hop := hnoadd op (List.mem_cons_self _ _)
    intro w
    cases op with
    | add d document status ratings =>
      have hd : document_id ≠ d := by
        intro heq
        simp [Op.adds, heq] at hop
      show (s3.AddDocument d document status ratings).state.posting w document_id = none
      rw [SearchServer.AddDocument_posting s3 d document status ratings hok]
      simp only [hd, false_and, if_false]
      exact ih1 w
    | remove d =>
      show (s3.RemoveDocument d).state.posting w document_id = none
      rw [SearchServer.RemoveDocument_posting s3 d hok]
      split
      · rfl
      · exact ih1 w
    | removePar d =>
      show (s3.RemoveDocumentPar d).state.posting w document_id = none
      rw [SearchServer.RemoveDocumentPar_posting s3 d hok]
      split
      · rfl
      · exact ih1 w

theorem posting_none_after_removal {R : Type} [LinearOrderedField R] (s : SearchServer R)
    (hs : SearchServer.WellFormed s) (document_id : Int) (op : Op)
    (hop : op = Op.remove document_id ∨ op = Op.removePar document_id)
    (hok : (applyOp s op).error = none) (w : Str) :
    (applyOp s op).state.posting w document_id = none := by
  have hrow : ¬ (s.rowEntry document_id w).isSome = true → s.posting w document_id = none := by
    intro hr
    cases hp : s.posting w document_id with
    | none => rfl
    | some tf =>
      obtain ⟨tf1, htf1⟩ := hs.posting_row w document_id tf hp
      simp [htf1] at hr
  rcases hop with rfl | rfl
  · show (s.RemoveDocument document_id).state.posting w document_id = none
    rw [SearchServer.RemoveDocument_posting s document_id hok]
    by_cases hr : (s.rowEntry document_id w).isSome = true
    · simp [hr]
    · simp only [hr, and_false, if_false]
      exact hrow hr
  · show (s.RemoveDocumentPar document_id).state.posting w document_id = none
    rw [SearchServer.RemoveDocumentPar_posting s document_id hok]
    by_cases hr : (s.rowEntry document_id w).isSome = true
    · simp [hr]
    · simp only [hr, and_false, if_false]
      exact hrow hr

theorem exists_posting_of_score {R : Type} [LinearOrderedField R] (s : SearchServer R)
    (ln : R → R) (document_predicate : Int → DocumentStatus → Int → Bool) (query : Query)
    (d : Int) (r : R) (h : s.score ln document_predicate query d = some r) :
    ∃ t ∈ query.plus_words, ∃ tf, s.posting t d = some tf := by
  unfold SearchServer.score at h
  by_cases hm : query.minus_words.any (fun t => (s.posting t d).isSome) = true
  · rw [if_pos hm] at h
    cases h
  · rw [if_neg hm, SearchServer.foldl_bump] at h
    by_cases hnil : query.plus_words.filterMap
        (fun t => s.termScore ln document_predicate t d) = []
    · rw [if_pos hnil] at h
      cases h
    · obtain ⟨x, hx⟩ := List.exists_mem_of_ne_nil _ hnil
      obtain ⟨t, ht, htx⟩ := List.mem_filterMap.mp hx
      refine ⟨t, ht, ?_⟩
      unfold SearchServer.termScore at htx
      split at htx
      · cases hp : s.posting t d with
        | none =>
          rw [hp] at htx
          cases htx
        | some tf => exact ⟨tf, rfl⟩
      · cases htx

/-- C13: in a reachable state, after `RemoveDocument(id)` succeeds with either
strategy, and through any further successful calls that do not add the id
again, the inverted index holds no posting for the id and `FindTopDocuments`
returns no result with that id, whatever the query and the predicate. -/
theorem removed_document_not_found {R : Type} [LinearOrderedField R] (s : SearchServer R)
    (hs : Reachable s) (document_id : Int) (op : Op)
    (hop : op = Op.remove document_id ∨ op = Op.removePar document_id)
    (hok : (applyOp s op).error = none) (ops2 : List Op) (s2 : SearchServer R)
    (hsteps : Steps (applyOp s op).state ops2 s2)
    (hnoadd : ∀ o ∈ ops2, Op.adds document_id o = false) :
    (∀ w, s2.posting w document_id = none) ∧
    ∀ (ln : R → R) (raw_query : Str) (document_predicate : Int → DocumentStatus → Int → Bool)
      (docs : List (Document R)),
      s2.FindTopDocuments ln raw_query document_predicate = .ok docs →
        ∀ doc ∈ docs, doc.id ≠ document_id := by
  obtain ⟨ops, hist⟩ := hs
  have hnone : ∀ w, s2.posting w document_id = none :=
    hsteps.posting_none document_id hnoadd
      (posting_none_after_removal s hist.wellFormedState document_id op hop hok)
  have hist2 : History (ops2 ++ op :: ops) s2 := (History.call _ _ _ hist hok).append hsteps
  refine ⟨hnone, ?_⟩
  intro ln raw_query document_predicate docs hdocs doc hdoc heq
  obtain ⟨query, hq⟩ :=
    SearchServer.ParseQuery_of_FindTopDocuments s2 ln raw_query document_predicate docs hdocs
  obtain ⟨docs1, hdocs1, hmem⟩ := SearchServer.mem_FindTopDocuments s2 hist2.wellFormedState ln
    raw_query document_predicate query hq
  rw [hdocs] at hdocs1
  cases hdocs1
  obtain ⟨hscore, _⟩ := hmem doc hdoc
  obtain ⟨t, _, tf, htf⟩ :=
    exists_posting_of_score s2 ln document_predicate query doc.id doc.relevance hscore
  rw [heq, hnone t] at htf
  cases htf

/-- Witness of C13: document 1 of the sample server is removed with the
parallel strategy, then document 3 is added. -/
theorem removed_document_not_found_witness :
    Reachable sampleServer ∧
    (applyOp sampleServer (Op.removePar 1)).error = none ∧
    Steps (applyOp sampleServer (Op.removePar 1)).state
      [Op.add 3 "fluffy tail".toList DocumentStatus.ACTUAL [4]]
      (applyOp (applyOp sampleServer (Op.removePar 1)).state
        (Op.add 3 "fluffy tail".toList DocumentStatus.ACTUAL [4])).state ∧
    (∀ w, (applyOp (applyOp sampleServer (Op.removePar 1)).state
        (Op.add 3 "fluffy tail".toList DocumentStatus.ACTUAL [4])).state.posting w 1 = none) :=
  ⟨sampleServer_reachable, by decide,
    Steps.call _ _ _ _ (Steps.refl _) (by decide),
    (removed_document_not_found sampleServer sampleServer_reachable 1 (Op.removePar 1)
      (Or.inr rfl) (by decide) [Op.add 3 "fluffy tail".toList DocumentStatus.ACTUAL [4]] _
      (Steps.call _ _ _ _ (Steps.refl _) (by decide)) (by decide)).1⟩

/-! ## Removal: what the two strategies leave behind -/

theorem sampleBlanks_history : History sampleBlanksOps sampleBlanks :=
  History.call _ _ _
    (History.call _ _ _
      (History.call _ _ _ (History.call _ _ _ sampleEmpty_history (by decide)) (by decide))
      (by decide))
    (by decide)

/-- The sequential `RemoveDocument`, when it succeeds, leaves no forward-index
row for the id, the id not live and no metadata for it. -/
theorem RemoveDocument_clears {R : Type} [LinearOrderedField R] (s : SearchServer R)
    (document_id : Int) (hok : (s.RemoveDocument document_id).error = none) :
    (∀ w, ((s.RemoveDocument document_id).state.GetWordFrequencies document_id).find? w = none) ∧
    (s.RemoveDocument document_id).state.isLive document_id = false ∧
    (s.RemoveDocument document_id).state.documents_.find? document_id = none := by
  obtain ⟨_, h2, h3, h4, _⟩ := SearchServer.RemoveDocument_fields s document_id hok
  refine ⟨fun w => ?_, ?_, ?_⟩
  · rw [find?_GetWordFrequencies, SearchServer.rowEntry_erase s _ document_id h4, if_pos rfl]
  · unfold SearchServer.isLive
    rw [h3, OrderedSet.contains_erase]
    simp
  · rw [h2, OrderedMap.find?_erase, if_pos rfl]

/-- C11 at a failing input: document 7 of `sampleBlanks` was added with the
text `in the`, stop words only, so it is live and has no forward-index row;
`RemoveDocument(7)` throws `out_of_range` and the document stays live.  And
after the parallel removal of document 1 of `sampleTwo` the id 1 is not live,
yet `RemoveDocument(1)` succeeds. -/
theorem remove_document_live_fails :
    History sampleBlanksOps sampleBlanks ∧
    sampleBlanks.isLive 7 = true ∧
    (sampleBlanks.RemoveDocument 7).error = some Error.out_of_range ∧
    (sampleBlanks.RemoveDocument 7).state.isLive 7 = true ∧
    (sampleTwo.RemoveDocumentPar 1).error = none ∧
    (sampleTwo.RemoveDocumentPar 1).state.isLive 1 = false ∧
    ((sampleTwo.RemoveDocumentPar 1).state.RemoveDocument 1).error = none :=
  ⟨sampleBlanks_history, by decide, by decide, by decide, by decide, by decide, by decide⟩

/-- C12 at a failing input: after `RemoveDocument(parallel_policy, 1)` on
`sampleTwo` succeeds, `GetWordFrequencies(1)` still holds the three terms of
the removed document, while the sequential strategy leaves it empty. -/
theorem remove_document_par_keeps_row :
    History sampleTwoOps sampleTwo ∧
    sampleTwo.isLive 1 = true ∧
    (sampleTwo.RemoveDocumentPar 1).error = none ∧
    ((sampleTwo.RemoveDocumentPar 1).state.GetWordFrequencies 1).keys =
      ["cat".toList, "fluffy".toList, "tail".toList] ∧
    (sampleTwo.RemoveDocument 1).error = none ∧
    ((sampleTwo.RemoveDocument 1).state.GetWordFrequencies 1).keys = [] :=
  ⟨sampleTwo_history, by decide, by decide, by decide, by decide, by decide⟩

/-- C20 at a failing input: in the state reached from `sampleTwo` by
`RemoveDocument(parallel_policy, 1)` the forward-index row of document 1 maps
`cat` to a frequency, and the inverted index has no posting `(cat, 1)`. -/
theorem indexes_disagree_after_par_removal :
    History (Op.removePar 1 :: sampleTwoOps) (applyOp sampleTwo (Op.removePar 1)).state ∧
    ((applyOp sampleTwo (Op.removePar 1)).state.rowEntry 1 "cat".toList).isSome = true ∧
    ((applyOp sampleTwo (Op.removePar 1)).state.posting "cat".toList 1).isSome = false :=
  ⟨History.call _ _ _ sampleTwo_history (by decide), by decide, by decide⟩

/-- Without the parallel removal the two indexes agree: in a state reached by
`AddDocument` and the sequential `RemoveDocument` only, the inverted index
holds `f` at `(t, d)` exactly when the forward-index row of `d` holds `f` at
`t`. -/
theorem History.indexes_agree {R : Type} [LinearOrderedField R] {ops : List Op}
    {s : SearchServer R} (h : History ops s) (hseq : ∀ op ∈ ops, Op.isRemovePar op = false) :
    ∀ w d, s.posting w d = s.rowEntry d w := by
  induction h with
  | create stop_words s hc =>
    unfold SearchServer.create at hc
    by_cases hv : (MakeUniqueNonEmptyStrings stop_words).toList.all IsValidWord = true
    · simp only [hv, if_true, Except.ok.injEq] at hc
      subst hc
      intro w d
      rfl
    · simp [hv] at hc
  | call ops s op _ hok ih =>
    have ih1 := ih (fun o ho => hseq o (List.mem_cons_of_mem _ ho))
    have hop := hseq op (List.mem_cons_self _ _)
    intro w d
    cases op with
    | removePar document_id => simp [Op.isRemovePar] at hop
    | add document_id document status ratings =>
      show (s.AddDocument document_id document status ratings).state.posting w d =
        (s.AddDocument document_id document status ratings).state.rowEntry d w
      rw [SearchServer.AddDocument_posting s _ _ _ _ hok,
        SearchServer.AddDocument_rowEntry s _ _ _ _ hok, ih1 w document_id, ih1 w d]
    | remove document_id =>
      show (s.RemoveDocument document_id).state.posting w d =
        (s.RemoveDocument document_id).state.rowEntry d w
      rw [SearchServer.RemoveDocument_posting s document_id hok,
        SearchServer.rowEntry_erase s _ document_id
          (SearchServer.RemoveDocument_fields s document_id hok).2.2.2.1]
      by_cases hd : d = document_id
      · subst hd
        by_cases hr : (s.rowEntry d w).isSome = true
        · simp [hr]
        · simp only [hr, and_false, if_false, if_true]
          rw [ih1 w d]
          simpa using hr
      · simp only [hd, false_and, if_false]
        exact ih1 w d

/-- C17 at a failing input: in `sampleBlanks` the documents 7 and 8 have the
same (empty) set of terms, and so have 9 and 10, so 8 and 10 are duplicates;
`RemoveDuplicates` throws `out_of_range` on removing 8 and leaves both 8 and 10
live. -/
theorem remove_duplicates_blank_fails :
    History sampleBlanksOps sampleBlanks ∧
    sampleBlanks.documentWords 7 = sampleBlanks.documentWords 8 ∧
    sampleBlanks.documentWords 9 = sampleBlanks.documentWords 10 ∧
    sampleBlanks.isLive 7 = true ∧ sampleBlanks.isLive 9 = true ∧
    (SearchServer.findDuplicates sampleBlanks sampleBlanks.document_ids_.toList
      OrderedSet.empty []).toList = [8, 10] ∧
    sampleBlanks.RemoveDuplicates.error = some Error.out_of_range ∧
    sampleBlanks.RemoveDuplicates.state.isLive 8 = true ∧
    sampleBlanks.RemoveDuplicates.state.isLive 10 = true :=
  ⟨sampleBlanks_history, by decide, by decide, by decide, by decide, by decide, by decide,
    by decide, by decide⟩

/-! ## Sizes of maps and sets -/

namespace OrderedMap

variable {K V W : Type} [LinearOrder K]

theorem keys_eq_of_mem (m1 : OrderedMap K V) (m2 : OrderedMap K W)
    (h : ∀ k, m1.count k = m2.count k) : m1.keys = m2.keys := by
  apply List.eq_of_perm_of_sorted _ (sorted_keys m1) (sorted_keys m2)
  rw [List.perm_ext_iff_of_nodup (nodup_keys m1) (nodup_keys m2)]
  intro k
  rw [mem_keys, mem_keys, ← count_eq_true_iff, ← count_eq_true_iff, h k]

theorem size_eq_of_count (m1 : OrderedMap K V) (m2 : OrderedMap K W)
    (h : ∀ k, m1.count k = m2.count k) : m1.size = m2.size := by
  unfold size
  rw [keys_eq_of_mem m1 m2 h]

theorem toList_eq_of_find (m1 m2 : OrderedMap K V) (h : ∀ k, m1.find? k = m2.find? k) :
    m1.toList = m2.toList := by
  have hk : m1.keys = m2.keys := keys_eq_of_mem m1 m2 (fun k => by simp [count, h k])
  unfold toList
  rw [hk]
  congr 1
  funext k
  rw [h k]

theorem size_le_of_count (m1 : OrderedMap K V) (m2 : OrderedMap K W)
    (h : ∀ k, m1.count k = true → m2.count k = true) : m1.size ≤ m2.size := by
  unfold size
  apply List.Subperm.length_le
  apply List.subperm_of_subset (nodup_keys m1)
  intro k hk
  rw [mem_keys, ← count_eq_true_iff] at hk ⊢
  exact h k hk

theorem size_pos_of_count (m : OrderedMap K V) (k : K) (h : m.count k = true) : 0 < m.size := by
  unfold size
  exact List.length_pos_of_mem ((mem_keys m k).mpr ((count_eq_true_iff m k).mp h))

theorem size_eq_zero_iff (m : OrderedMap K V) : m.size = 0 ↔ ∀ k, m.find? k = none := by
  unfold size
  rw [List.length_eq_zero]
  constructor
  · intro h k
    cases hf : m.find? k with
    | none => rfl
    | some v =>
      have := (mem_keys m k).mpr ⟨v, hf⟩
      rw [h] at this
      cases this
  · intro h
    apply List.eq_nil_iff_forall_not_mem.mpr
    intro k hk
    obtain ⟨v, hv⟩ := (mem_keys m k).mp hk
    rw [h k] at hv
    cases hv

theorem size_succ_of_count (m1 m2 : OrderedMap K V) (k : K) (hk : m1.count k = false)
    (h : ∀ k1, m2.count k1 = (decide (k1 = k) || m1.count k1)) : m2.size = m1.size + 1 := by
  unfold size
  have hp : m2.keys.Perm (k :: m1.keys) := by
    rw [List.perm_ext_iff_of_nodup (nodup_keys m2)]
    · intro k1
      rw [List.mem_cons, mem_keys, mem_keys, ← count_eq_true_iff, ← count_eq_true_iff, h k1]
      simp
    · rw [List.nodup_cons]
      refine ⟨?_, nodup_keys m1⟩
      rw [mem_keys, ← count_eq_true_iff, hk]
      simp
  rw [hp.length_eq, List.length_cons]

end OrderedMap

namespace OrderedSet

variable {K : Type} [LinearOrder K]

theorem nodup_toList (s : OrderedSet K) : s.toList.Nodup := by
  unfold toList
  exact (List.perm_insertionSort _ _).nodup_iff.mpr (List.nodup_dedup _)

theorem sorted_toList (s : OrderedSet K) : s.toList.Sorted (fun a b => a ≤ b) :=
  List.sorted_insertionSort _ _

theorem toList_eq_of_contains (s1 s2 : OrderedSet K) (h : ∀ k, s1.contains k = s2.contains k) :
    s1.toList = s2.toList := by
  apply List.eq_of_perm_of_sorted _ (sorted_toList s1) (sorted_toList s2)
  rw [List.perm_ext_iff_of_nodup (nodup_toList s1) (nodup_toList s2)]
  intro k
  rw [mem_toList_iff_contains, mem_toList_iff_contains, h k]

end OrderedSet

theorem keys_eq_toList {V : Type} (m : OrderedMap Int V) (s : OrderedSet Int)
    (h : ∀ k, m.count k = s.contains k) : m.keys = s.toList := by
  apply List.eq_of_perm_of_sorted _ (OrderedMap.sorted_keys m) (OrderedSet.sorted_toList s)
  rw [List.perm_ext_iff_of_nodup (OrderedMap.nodup_keys m) (OrderedSet.nodup_toList s)]
  intro k
  rw [OrderedMap.mem_keys, ← OrderedMap.count_eq_true_iff, OrderedSet.mem_toList_iff_contains, h k]

/-! ## The inverse document frequency is non-negative -/

theorem documentFrequency_bounds {R : Type} [LinearOrderedField R] (s : SearchServer R)
    (hs : SearchServer.WellFormed s) (t : Str) (d : Int) (h : (s.posting t d).isSome = true) :
    (∃ postings, s.word_to_document_freqs_.find? t = some postings) ∧
      1 ≤ s.documentFrequency t ∧ s.documentFrequency t ≤ s.GetDocumentCount := by
  unfold SearchServer.posting at h
  cases hp : s.word_to_document_freqs_.find? t with
  | none => simp [hp] at h
  | some postings =>
    rw [hp] at h
    simp only [Option.some_bind] at h
    have hdf : s.documentFrequency t = postings.size := by
      simp [SearchServer.documentFrequency, hp]
    refine ⟨⟨postings, rfl⟩, ?_, ?_⟩
    · rw [hdf]
      exact OrderedMap.size_pos_of_count postings d h
    · rw [hdf]
      unfold SearchServer.GetDocumentCount
      apply OrderedMap.size_le_of_count
      intro k hk
      obtain ⟨tf, htf⟩ := (OrderedMap.count_eq_true_iff _ _).mp hk
      apply hs.posting_live t k tf
      simp [SearchServer.posting, hp, htf]

/-- C21: in every reachable state each document id with a posting in the
inverted index is live; so a term with at least one posting has
`1 ≤ df ≤ document_count`, and its inverse document frequency `ln(N / df)`,
the value `ComputeWordInverseDocumentFreq` returns, is at least `0` (for a
logarithm that is non-negative from `1` on, as the natural logarithm is). -/
theorem idf_nonnegative {R : Type} [LinearOrderedField R] (s : SearchServer R) (ln : R → R)
    (hs : Reachable s) (hln : ∀ x, 1 ≤ x → 0 ≤ ln x) :
    (∀ t d tf, s.posting t d = some tf → s.isLive d = true) ∧
    ∀ t, (∃ d, (s.posting t d).isSome = true) →
      1 ≤ s.documentFrequency t ∧ s.documentFrequency t ≤ s.GetDocumentCount ∧
      s.ComputeWordInverseDocumentFreq ln t = .ok (s.inverseDocumentFrequency ln t) ∧
      0 ≤ s.inverseDocumentFrequency ln t := by
  have hwf := Reachable.wellFormed hs
  refine ⟨?_, ?_⟩
  · intro t d tf h
    unfold SearchServer.isLive
    rw [← hwf.ids_documents d]
    exact hwf.posting_live t d tf h
  · rintro t ⟨d, hd⟩
    obtain ⟨⟨postings, hp⟩, h1, h2⟩ := documentFrequency_bounds s hwf t d hd
    refine ⟨h1, h2, SearchServer.ComputeWordInverseDocumentFreq_ok s ln t postings hp, ?_⟩
    unfold SearchServer.inverseDocumentFrequency
    apply hln
    have hpos : (0 : R) < (s.documentFrequency t : R) := by
      exact_mod_cast h1
    rw [le_div_iff₀ hpos, one_mul]
    exact_mod_cast h2

/-- Witness of C21 on the sample server, with `sampleLn` for the logarithm. -/
theorem idf_nonnegative_witness :
    Reachable sampleServer ∧
    (∀ x : ℚ, 1 ≤ x → 0 ≤ sampleLn x) ∧
    (∀ t d tf, sampleServer.posting t d = some tf → sampleServer.isLive d = true) ∧
    ∀ t, (∃ d, (sampleServer.posting t d).isSome = true) →
      1 ≤ sampleServer.documentFrequency t ∧
      sampleServer.documentFrequency t ≤ sampleServer.GetDocumentCount ∧
      sampleServer.ComputeWordInverseDocumentFreq sampleLn t =
        .ok (sampleServer.inverseDocumentFrequency sampleLn t) ∧
      0 ≤ sampleServer.inverseDocumentFrequency sampleLn t :=
  ⟨sampleServer_reachable, fun x hx => by unfold sampleLn; linarith,
    idf_nonnegative sampleServer sampleLn sampleServer_reachable
      (fun x hx => by unfold sampleLn; linarith)⟩

/-! ## The average rating -/

theorem toInt32_of_range (x : Int) (h1 : -2147483648 ≤ x) (h2 : x ≤ 2147483647) :
    toInt32 x = x := by
  unfold toInt32
  omega

theorem toInt32_add (a b : Int) : toInt32 (toInt32 a + b) = toInt32 (a + b) := by
  unfold toInt32
  omega

theorem foldl_toInt32 (ratings : List Int) (start : Int) :
    ratings.foldl (fun rating_sum rating => toInt32 (rating_sum + rating)) (toInt32 start) =
      toInt32 (start + ratings.sum) := by
  induction ratings generalizing start with
  | nil => simp
  | cons r rest ih =>
    rw [List.foldl_cons, toInt32_add, ih, List.sum_cons, add_assoc]

/-- When the sum of the ratings and their number are representable as `int`,
`ComputeAverageRating` is `0` on the empty list and else the sum divided by the
count, truncated toward zero. -/
theorem ComputeAverageRating_eq (ratings : List Int)
    (hlow : -2147483648 ≤ ratings.sum) (hhigh : ratings.sum ≤ 2147483647)
    (hlen : ratings.length ≤ 2147483647) :
    ComputeAverageRating ratings =
      if ratings = [] then 0 else Int.tdiv ratings.sum (ratings.length : Int) := by
  unfold ComputeAverageRating
  by_cases he : ratings = []
  · simp [he]
  · have h0 : ratings.isEmpty = false := by
      cases ratings with
      | nil => exact absurd rfl he
      | cons _ _ => rfl
    rw [h0, if_neg he]
    simp only [Bool.false_eq_true, if_false]
    have hf := foldl_toInt32 ratings 0
    rw [toInt32_of_range 0 (by omega) (by omega), zero_add,
      toInt32_of_range _ hlow hhigh] at hf
    rw [hf, toInt32_of_range (ratings.length : Int) (by omega) (by omega)]

/-- C22: after a successful `AddDocument` with ratings whose sum (and number)
is representable as a C++ `int`, the rating stored for the document is `0`
when the list is empty and else the sum of the ratings divided by their count,
truncated toward zero; every `FindTopDocuments` result for that document
reports this rating. -/
theorem stored_rating_truncated_average {R : Type} [LinearOrderedField R] (s : SearchServer R)
    (hs : Reachable s) (document_id : Int) (document : Str) (status : DocumentStatus)
    (ratings : List Int)
    (hadd : (s.AddDocument document_id document status ratings).error = none)
    (hlow : -2147483648 ≤ ratings.sum) (hhigh : ratings.sum ≤ 2147483647)
    (hlen : ratings.length ≤ 2147483647) :
    (s.AddDocument document_id document status ratings).state.documents_.find? document_id =
      some ⟨if ratings = [] then 0 else Int.tdiv ratings.sum (ratings.length : Int), status⟩ ∧
    ∀ (ln : R → R) (raw_query : Str) (document_predicate : Int → DocumentStatus → Int → Bool)
      (docs : List (Document R)),
      (s.AddDocument document_id document status ratings).state.FindTopDocuments ln raw_query
        document_predicate = .ok docs →
      ∀ doc ∈ docs, doc.id = document_id →
        doc.rating = if ratings = [] then 0 else Int.tdiv ratings.sum (ratings.length : Int) := by
  have hwf := (Reachable.wellFormed hs).afterAdd document_id document status ratings hadd
  have hdata := SearchServer.AddDocument_documents s document_id document status ratings hadd
    document_id
  rw [if_pos rfl, ComputeAverageRating_eq ratings hlow hhigh hlen] at hdata
  refine ⟨hdata, ?_⟩
  intro ln raw_query document_predicate docs hdocs doc hdoc hid
  obtain ⟨query, hq⟩ := SearchServer.ParseQuery_of_FindTopDocuments _ ln raw_query
    document_predicate docs hdocs
  obtain ⟨docs1, hdocs1, hall⟩ := SearchServer.mem_FindTopDocuments _ hwf ln raw_query
    document_predicate query hq
  rw [hdocs] at hdocs1
  cases hdocs1
  rw [(hall doc hdoc).2, hid]
  unfold SearchServer.ratingOf
  rw [hdata]
  rfl

/-- Witness of C22 on `sampleTwo`, with the ratings of `TestRating`. -/
theorem stored_rating_truncated_average_witness :
    Reachable sampleTwo ∧
    (sampleTwo.AddDocument 2 "dog cat eyes".toList DocumentStatus.BANNED
      [5, -12, 2, 1]).error = none ∧
    -2147483648 ≤ ([5, -12, 2, 1] : List Int).sum ∧
    ([5, -12, 2, 1] : List Int).sum ≤ 2147483647 ∧
    ([5, -12, 2, 1] : List Int).length ≤ 2147483647 ∧
    (sampleTwo.AddDocument 2 "dog cat eyes".toList DocumentStatus.BANNED
        [5, -12, 2, 1]).state.documents_.find? 2 =
      some ⟨if [5, -12, 2, 1] = ([] : List Int) then 0
        else Int.tdiv ([5, -12, 2, 1] : List Int).sum (([5, -12, 2, 1] : List Int).length : Int),
        DocumentStatus.BANNED⟩ ∧
    ∀ (ln : ℚ → ℚ) (raw_query : Str) (document_predicate : Int → DocumentStatus → Int → Bool)
      (docs : List (Document ℚ)),
      (sampleTwo.AddDocument 2 "dog cat eyes".toList DocumentStatus.BANNED
        [5, -12, 2, 1]).state.FindTopDocuments ln raw_query document_predicate = .ok docs →
      ∀ doc ∈ docs, doc.id = 2 →
        doc.rating = if [5, -12, 2, 1] = ([] : List Int) then 0
          else Int.tdiv ([5, -12, 2, 1] : List Int).sum
            (([5, -12, 2, 1] : List Int).length : Int) :=
  ⟨⟨sampleTwoOps, sampleTwo_history⟩, by decide, by decide, by decide, by decide,
    stored_rating_truncated_average sampleTwo ⟨sampleTwoOps, sampleTwo_history⟩ 2
      "dog cat eyes".toList DocumentStatus.BANNED [5, -12, 2, 1] (by decide) (by decide)
      (by decide) (by decide)⟩

/-- The wrapped sum of `ComputeAverageRating` when the sum of the ratings is not
representable as `int`: the ratings `2147483647` and `1` average to
`-1073741824`. -/
theorem ComputeAverageRating_wraps : ComputeAverageRating [2147483647, 1] = -1073741824 := by
  decide

/-! ## Documents without indexable tokens -/

theorem sampleStale_history : History sampleStaleOps sampleStale :=
  History.call _ _ _ (History.call _ _ _ sampleEmpty_history (by decide)) (by decide)

/-- `AddDocument` of a text without indexable tokens changes the metadata and
the live-id set only. -/
theorem AddDocument_blank {R : Type} [LinearOrderedField R] (s : SearchServer R)
    (document_id : Int) (document : Str) (status : DocumentStatus) (ratings : List Int)
    (h : (s.AddDocument document_id document status ratings).error = none)
    (hblank : s.indexableWords document = []) :
    (s.AddDocument document_id document status ratings).state =
      { s with
        documents_ := s.documents_.emplace document_id ⟨ComputeAverageRating ratings, status⟩
        document_ids_ := s.document_ids_.insert document_id } := by
  rw [SearchServer.AddDocument_state s _ _ _ _ h, hblank]
  rfl

theorem GetDocumentCount_add {R : Type} [LinearOrderedField R] (s : SearchServer R)
    (document_id : Int) (document : Str) (status : DocumentStatus) (ratings : List Int)
    (h : (s.AddDocument document_id document status ratings).error = none) :
    (s.AddDocument document_id document status ratings).state.GetDocumentCount =
      s.GetDocumentCount + 1 := by
  unfold SearchServer.GetDocumentCount
  apply OrderedMap.size_succ_of_count _ _ document_id
  · rw [OrderedMap.count_eq_false_iff]
    exact (SearchServer.AddDocument_not_count s _ _ _ _ h).2.2
  · intro k1
    unfold OrderedMap.count
    rw [SearchServer.AddDocument_documents s _ _ _ _ h k1]
    by_cases hk : k1 = document_id <;> simp [hk]

/-- Where the id has no forward-index row, `AddDocument` of a text without
indexable tokens succeeds, makes the id live, increases the document count by
one, leaves the inverted index as it was and `GetWordFrequencies(id)` empty. -/
theorem add_blank_document {R : Type} [LinearOrderedField R] (s : SearchServer R)
    (hs : Reachable s) (document_id : Int) (document : Str) (status : DocumentStatus)
    (ratings : List Int) (hid : 0 ≤ document_id) (hlive : s.isLive document_id = false)
    (hvalid : IsValidWord document = true) (hblank : s.indexableWords document = [])
    (hrow : s.document_to_word_freqs_.count document_id = false) :
    (s.AddDocument document_id document status ratings).error = none ∧
    (s.AddDocument document_id document status ratings).state.isLive document_id = true ∧
    (s.AddDocument document_id document status ratings).state.GetDocumentCount =
      s.GetDocumentCount + 1 ∧
    (s.AddDocument document_id document status ratings).state.word_to_document_freqs_ =
      s.word_to_document_freqs_ ∧
    (s.AddDocument document_id document status ratings).state.GetWordFrequencies document_id =
      OrderedMap.empty := by
  have hwf := Reachable.wellFormed hs
  have hcount : s.documents_.count document_id = false := by
    rw [hwf.ids_documents]
    exact hlive
  have herr : (s.AddDocument document_id document status ratings).error = none := by
    rw [SearchServer.AddDocument_error]
    have : ¬ (IsValidWord document = false ∨ document_id < 0 ∨
        s.documents_.count document_id = true) := by
      rw [hvalid, hcount]
      simp
      omega
    rw [if_neg this]
  refine ⟨herr, ?_, GetDocumentCount_add s _ _ _ _ herr, ?_, ?_⟩
  · unfold SearchServer.isLive
    rw [SearchServer.AddDocument_document_ids s _ _ _ _ herr]
    simp
  · rw [AddDocument_blank s _ _ _ _ herr hblank]
  · rw [AddDocument_blank s _ _ _ _ herr hblank]
    unfold SearchServer.GetWordFrequencies
    simp only [hrow]
    rfl

/-- C23 at a failing input: document 1 was added with the text `cat` and removed
with the parallel strategy, which leaves its forward-index row; `AddDocument`
of the id 1, not live, with the text `in the` of stop words only succeeds, and
`GetWordFrequencies(1)` then holds the term `cat` instead of being empty. -/
theorem add_blank_after_par_removal :
    History sampleStaleOps sampleStale ∧
    sampleStale.isLive 1 = false ∧
    IsValidWord "in the".toList = true ∧
    sampleStale.indexableWords "in the".toList = [] ∧
    (sampleStale.AddDocument 1 "in the".toList DocumentStatus.ACTUAL []).error = none ∧
    (sampleStale.AddDocument 1 "in the".toList DocumentStatus.ACTUAL []).state.isLive 1 = true ∧
    ((sampleStale.AddDocument 1 "in the".toList DocumentStatus.ACTUAL []).state.GetWordFrequencies
      1).keys = ["cat".toList] :=
  ⟨sampleStale_history, by decide, by decide, by decide, by decide, by decide, by decide⟩

/-! ## The document count -/

theorem size_erase_of_count {V : Type} (m : OrderedMap Int V) (k : Int)
    (h : m.count k = true) : (m.erase k).size + 1 = m.size := by
  symm
  apply OrderedMap.size_succ_of_count _ _ k
  · simp [OrderedMap.count, OrderedMap.find?_erase]
  · intro k1
    unfold OrderedMap.count at h ⊢
    rw [OrderedMap.find?_erase]
    by_cases hk : k1 = k
    · simp [hk, h]
    · simp [hk]

/-- C24 at failing inputs: document 7 of `sampleBlanks` is live and its text
holds stop words only; `RemoveDocument(parallel_policy, 7)` returns without an
exception, the document stays live and the document count stays 4.  On
`sampleServer`, where no document 5 was ever added,
`RemoveDocument(parallel_policy, 5)` returns without an exception too and the
count stays 3. -/
theorem remove_par_keeps_count :
    History sampleBlanksOps sampleBlanks ∧
    sampleBlanks.isLive 7 = true ∧
    sampleBlanks.GetDocumentCount = 4 ∧
    (sampleBlanks.RemoveDocumentPar 7).error = none ∧
    (sampleBlanks.RemoveDocumentPar 7).state.isLive 7 = true ∧
    (sampleBlanks.RemoveDocumentPar 7).state.GetDocumentCount = 4 ∧
    History sampleOps sampleServer ∧
    sampleServer.isLive 5 = false ∧
    sampleServer.GetDocumentCount = 3 ∧
    (sampleServer.RemoveDocumentPar 5).error = none ∧
    (sampleServer.RemoveDocumentPar 5).state.GetDocumentCount = 3 :=
  ⟨sampleBlanks_history, by decide, by decide, by decide, by decide, by decide,
    sampleServer_history, by decide, by decide, by decide, by decide⟩

/-- Where the document count moves as it should: in every reachable state the
keys of `documents_` are the live ids, so `GetDocumentCount()` is the size of
`document_ids_`; a successful `AddDocument` increases it by one; a successful
sequential `RemoveDocument` of a live id decreases it by one, and so does the
parallel one when the id has a forward-index row; without such a row the
parallel `RemoveDocument` returns and changes nothing, also for a live id. -/
theorem document_count_tracks_live_ids {R : Type} [LinearOrderedField R] (s : SearchServer R)
    (hs : Reachable s) :
    (∀ d, s.documents_.count d = s.isLive d) ∧
    s.documents_.keys = s.document_ids_.toList ∧
    s.GetDocumentCount = s.document_ids_.size ∧
    (∀ document_id document status ratings,
      (s.AddDocument document_id document status ratings).error = none →
      (s.AddDocument document_id document status ratings).state.GetDocumentCount =
        s.GetDocumentCount + 1) ∧
    (∀ document_id, s.isLive document_id = true →
      (s.RemoveDocument document_id).error = none →
      (s.RemoveDocument document_id).state.GetDocumentCount + 1 = s.GetDocumentCount) ∧
    (∀ document_id, s.isLive document_id = true →
      s.document_to_word_freqs_.count document_id = true →
      (s.RemoveDocumentPar document_id).error = none ∧
      (s.RemoveDocumentPar document_id).state.GetDocumentCount + 1 = s.GetDocumentCount) ∧
    (∀ document_id, s.document_to_word_freqs_.count document_id = false →
      (s.RemoveDocumentPar document_id).error = none ∧
      (s.RemoveDocumentPar document_id).state = s) := by
  have hwf := Reachable.wellFormed hs
  have hkeys := keys_eq_toList s.documents_ s.document_ids_ hwf.ids_documents
  refine ⟨hwf.ids_documents, hkeys, ?_, ?_, ?_, ?_, ?_⟩
  · unfold SearchServer.GetDocumentCount OrderedMap.size OrderedSet.size
    rw [hkeys]
  · intro document_id document status ratings h
    exact GetDocumentCount_add s _ _ _ _ h
  · intro document_id hlive hok
    have hc : s.documents_.count document_id = true := by
      rw [hwf.ids_documents]
      exact hlive
    unfold SearchServer.GetDocumentCount
    rw [(SearchServer.RemoveDocument_fields s document_id hok).2.1]
    exact size_erase_of_count _ _ hc
  · intro document_id hlive hrow
    have hok := SearchServer.RemoveDocumentPar_error hwf document_id
    refine ⟨hok, ?_⟩
    have hc : s.documents_.count document_id = true := by
      rw [hwf.ids_documents]
      exact hlive
    obtain ⟨_, _, _, hcases⟩ := SearchServer.RemoveDocumentPar_fields s document_id hok
    rcases hcases with ⟨hnone, _, _⟩ | ⟨_, hdocs, _⟩
    · rw [(OrderedMap.count_eq_false_iff _ _).mpr hnone] at hrow
      cases hrow
    · unfold SearchServer.GetDocumentCount
      rw [hdocs]
      exact size_erase_of_count _ _ hc
  · intro document_id hrow
    have hok := SearchServer.RemoveDocumentPar_error hwf document_id
    refine ⟨hok, ?_⟩
    rcases SearchServer.RemoveDocumentPar_state s document_id hok with
      ⟨_, hst⟩ | ⟨row, hr, _, _⟩
    · exact hst
    · rw [(OrderedMap.count_eq_false_iff _ _).mp hrow] at hr
      cases hr

/-! ## The two removal strategies -/

/-- C25 at failing inputs.  On `sampleTwo`, where no document 7 was ever added,
the sequential `RemoveDocument(7)` throws `out_of_range` and
`RemoveDocument(parallel_policy, 7)` returns without an exception.  For the
live document 1 of `sampleTwo` both succeed, and the parallel one leaves the
forward-index row of 1 that the sequential one erases. -/
theorem remove_par_differs_from_sequential :
    History sampleTwoOps sampleTwo ∧
    sampleTwo.isLive 7 = false ∧
    (sampleTwo.RemoveDocument 7).error = some Error.out_of_range ∧
    (sampleTwo.RemoveDocumentPar 7).error = none ∧
    sampleTwo.isLive 1 = true ∧
    (sampleTwo.RemoveDocument 1).error = none ∧
    (sampleTwo.RemoveDocumentPar 1).error = none ∧
    (sampleTwo.RemoveDocument 1).state.document_to_word_freqs_.count 1 = false ∧
    (sampleTwo.RemoveDocumentPar 1).state.document_to_word_freqs_.count 1 = true :=
  ⟨sampleTwo_history, by decide, by decide, by decide, by decide, by decide, by decide,
    by decide, by decide⟩

/-- What the two strategies share: in every reachable state
`RemoveDocument(parallel_policy, id)` never throws; for an id without a
forward-index row, where the sequential `RemoveDocument` throws `out_of_range`,
it returns and changes nothing; where the sequential `RemoveDocument` succeeds,
it leaves the same stop words, inverted index, metadata and live-id set (and
keeps the forward-index row the sequential one erases). -/
theorem remove_document_par_outcome {R : Type} [LinearOrderedField R] (s : SearchServer R)
    (hs : Reachable s) (document_id : Int) :
    (s.RemoveDocumentPar document_id).error = none ∧
    (s.document_to_word_freqs_.count document_id = false →
      (s.RemoveDocument document_id).error = some Error.out_of_range ∧
      (s.RemoveDocument document_id).state = s ∧
      (s.RemoveDocumentPar document_id).state = s) ∧
    ((s.RemoveDocument document_id).error = none →
      (s.RemoveDocumentPar document_id).state.stop_words_ =
        (s.RemoveDocument document_id).state.stop_words_ ∧
      (s.RemoveDocumentPar document_id).state.word_to_document_freqs_ =
        (s.RemoveDocument document_id).state.word_to_document_freqs_ ∧
      (s.RemoveDocumentPar document_id).state.documents_ =
        (s.RemoveDocument document_id).state.documents_ ∧
      (s.RemoveDocumentPar document_id).state.document_ids_ =
        (s.RemoveDocument document_id).state.document_ids_) := by
  have hwf := Reachable.wellFormed hs
  have hpar := SearchServer.RemoveDocumentPar_error hwf document_id
  refine ⟨hpar, ?_, ?_⟩
  · intro hrow
    obtain ⟨herr, hst⟩ := SearchServer.RemoveDocument_error hwf document_id
    rw [hrow] at herr
    simp only [Bool.false_eq_true, if_false] at herr
    refine ⟨herr, hst (by rw [herr]; simp), ?_⟩
    rcases SearchServer.RemoveDocumentPar_state s document_id hpar with
      ⟨_, hst1⟩ | ⟨row, hr, _, _⟩
    · exact hst1
    · rw [(OrderedMap.count_eq_false_iff _ _).mp hrow] at hr
      cases hr
  · intro hseq
    obtain ⟨row, hrow, _, hst⟩ := SearchServer.RemoveDocument_state s document_id hseq
    rcases SearchServer.RemoveDocumentPar_state s document_id hpar with
      ⟨hnone, _⟩ | ⟨row1, hrow1, _, hst1⟩
    · rw [hnone] at hrow
      cases hrow
    · rw [hrow] at hrow1
      cases hrow1
      rw [hst, hst1]
      exact ⟨rfl, rfl, rfl, rfl⟩

/-! ## Terms with an empty posting set -/

theorem sampleAfterRemoval_history : History (Op.remove 1 :: sampleTwoOps) sampleAfterRemoval :=
  History.call _ _ _ sampleTwo_history (by decide)

theorem applyOp_term_count {R : Type} [LinearOrderedField R] (s : SearchServer R) (op : Op)
    (hok : (applyOp s op).error = none) (t : Str)
    (ht : s.word_to_document_freqs_.count t = true) :
    (applyOp s op).state.word_to_document_freqs_.count t = true := by
  cases op with
  | add document_id document status ratings =>
    simp only [applyOp] at hok ⊢
    rw [SearchServer.AddDocument_count s _ _ _ _ hok, ht]
    simp
  | remove document_id =>
    simp only [applyOp] at hok ⊢
    rw [(SearchServer.RemoveDocument_fields s document_id hok).2.2.2.2 t]
    exact ht
  | removePar document_id =>
    simp only [applyOp] at hok ⊢
    rw [(SearchServer.RemoveDocumentPar_fields s document_id hok).2.2.1 t]
    exact ht

theorem accumulatePlusWords_empty_term {R : Type} [LinearOrderedField R] (s : SearchServer R)
    (ln : R → R) (document_predicate : Int → DocumentStatus → Int → Bool) (t : Str)
    (rest : List Str) (acc : ConcurrentMap R)
    (ht : s.word_to_document_freqs_.count t = true) (hdf : s.documentFrequency t = 0) :
    s.ComputeWordInverseDocumentFreq ln t =
      .ok (ln ((s.GetDocumentCount : R) / ((0 : Nat) : R))) ∧
    SearchServer.accumulatePlusWords s ln document_predicate (t :: rest) acc =
      SearchServer.accumulatePlusWords s ln document_predicate rest acc := by
  obtain ⟨postings, hp⟩ := (OrderedMap.count_eq_true_iff _ _).mp ht
  have hsize : postings.size = 0 := by
    simpa [SearchServer.documentFrequency, hp] using hdf
  have hidf := SearchServer.ComputeWordInverseDocumentFreq_ok s ln t postings hp
  have hnil : postings.toList = [] := by
    apply List.eq_nil_of_length_eq_zero
    rw [OrderedMap.length_toList, hsize]
  refine ⟨?_, ?_⟩
  · rw [hidf]
    unfold SearchServer.inverseDocumentFrequency
    rw [hdf]
  · rw [SearchServer.accumulatePlusWords]
    simp only [ht, if_true, hidf, hp, hnil, SearchServer.accumulatePostings]

/-- C27 at a failing input: after `RemoveDocument(1)` on `sampleTwo` the term
`fluffy`, whose only posting was that of document 1, is still a key of the
inverted index, with an empty posting set. -/
theorem empty_posting_set_remains :
    History (Op.remove 1 :: sampleTwoOps) sampleAfterRemoval ∧
    sampleAfterRemoval.word_to_document_freqs_.count "fluffy".toList = true ∧
    sampleAfterRemoval.documentFrequency "fluffy".toList = 0 ∧
    sampleAfterRemoval.ComputeWordInverseDocumentFreq sampleLn "fluffy".toList =
      .ok (sampleLn ((sampleAfterRemoval.GetDocumentCount : ℚ) / ((0 : Nat) : ℚ))) :=
  ⟨sampleAfterRemoval_history, by decide, by decide,
    (accumulatePlusWords_empty_term sampleAfterRemoval sampleLn (fun _ _ _ => true)
      "fluffy".toList [] OrderedMap.empty (by decide) (by decide)).1⟩

/-- C27, amended: no call drops a term of the inverted index: a term that is a
key of the inverted index stays one through every successful `AddDocument` and
`RemoveDocument`, also when its last posting is erased; for a term with an
empty posting set `FindAllDocuments` evaluates the inverse document frequency
with a posting count of zero and adds nothing to any relevance. -/
theorem term_entries_persist {R : Type} [LinearOrderedField R] (s s1 : SearchServer R)
    (ops : List Op) (h : Steps s ops s1) (t : Str)
    (ht : s.word_to_document_freqs_.count t = true) :
    s1.word_to_document_freqs_.count t = true ∧
    (s1.documentFrequency t = 0 →
      ∀ (ln : R → R) (document_predicate : Int → DocumentStatus → Int → Bool)
        (rest : List Str) (acc : ConcurrentMap R),
        s1.ComputeWordInverseDocumentFreq ln t =
          .ok (ln ((s1.GetDocumentCount : R) / ((0 : Nat) : R))) ∧
        SearchServer.accumulatePlusWords s1 ln document_predicate (t :: rest) acc =
          SearchServer.accumulatePlusWords s1 ln document_predicate rest acc) := by
  have hcount : s1.word_to_document_freqs_.count t = true := by
    induction h with
    | refl => exact ht
    | call ops s2 op _ hok ih => exact applyOp_term_count s2 op hok t ih
  exact ⟨hcount, fun hdf ln document_predicate rest acc =>
    accumulatePlusWords_empty_term s1 ln document_predicate t rest acc hcount hdf⟩

/-- Witness of C27, amended: the term `fluffy` through `RemoveDocument(1)` on
`sampleTwo`. -/
theorem term_entries_persist_witness :
    Steps sampleTwo [Op.remove 1] sampleAfterRemoval ∧
    sampleTwo.word_to_document_freqs_.count "fluffy".toList = true ∧
    sampleAfterRemoval.word_to_document_freqs_.count "fluffy".toList = true ∧
    (sampleAfterRemoval.documentFrequency "fluffy".toList = 0 →
      ∀ (ln : ℚ → ℚ) (document_predicate : Int → DocumentStatus → Int → Bool)
        (rest : List Str) (acc : ConcurrentMap ℚ),
        sampleAfterRemoval.ComputeWordInverseDocumentFreq ln "fluffy".toList =
          .ok (ln ((sampleAfterRemoval.GetDocumentCount : ℚ) / ((0 : Nat) : ℚ))) ∧
        SearchServer.accumulatePlusWords sampleAfterRemoval ln document_predicate
            ("fluffy".toList :: rest) acc =
          SearchServer.accumulatePlusWords sampleAfterRemoval ln document_predicate rest acc) :=
  ⟨Steps.call _ _ _ _ (Steps.refl sampleTwo) (by decide), by decide,
    term_entries_persist sampleTwo sampleAfterRemoval [Op.remove 1]
      (Steps.call _ _ _ _ (Steps.refl sampleTwo) (by decide)) "fluffy".toList (by decide)⟩

/-! ## The documents `FindTopDocuments` returns -/

theorem score_isSome {R : Type} [LinearOrderedField R] (s : SearchServer R) (ln : R → R)
    (document_predicate : Int → DocumentStatus → Int → Bool) (query : Query) (d : Int) :
    (s.score ln document_predicate query d).isSome =
      (s.accepts document_predicate d &&
        query.plus_words.any (fun t => (s.posting t d).isSome) &&
        !query.minus_words.any (fun t => (s.posting t d).isSome)) := by
  unfold SearchServer.score
  by_cases hm : query.minus_words.any (fun t => (s.posting t d).isSome) = true
  · rw [if_pos hm, hm]
    simp
  · rw [if_neg hm, SearchServer.foldl_bump]
    have hm1 : query.minus_words.any (fun t => (s.posting t d).isSome) = false := by
      simpa using hm
    rw [hm1]
    by_cases hacc : s.accepts document_predicate d = true
    · by_cases hp : query.plus_words.any (fun t => (s.posting t d).isSome) = true
      · have hne : query.plus_words.filterMap
            (fun t => s.termScore ln document_predicate t d) ≠ [] := by
          obtain ⟨t, ht, hpt⟩ := List.any_eq_true.mp hp
          obtain ⟨tf, htf⟩ := Option.isSome_iff_exists.mp hpt
          intro hnil
          have := List.filterMap_eq_nil_iff.mp hnil t ht
          simp [SearchServer.termScore, hacc, htf] at this
        rw [if_neg hne, hacc, hp]
        rfl
      · have hnil : query.plus_words.filterMap
            (fun t => s.termScore ln document_predicate t d) = [] := by
          rw [List.filterMap_eq_nil_iff]
          intro t ht
          have hpt : (s.posting t d).isSome = false := by
            cases h : (s.posting t d).isSome with
            | false => rfl
            | true => exact absurd (List.any_eq_true.mpr ⟨t, ht, h⟩) hp
          have hnone : s.posting t d = none := by
            cases h : s.posting t d with
            | none => rfl
            | some x => simp [h] at hpt
          simp [SearchServer.termScore, hnone]
        have hp1 : query.plus_words.any (fun t => (s.posting t d).isSome) = false := by
          simpa using hp
        rw [if_pos hnil, hp1]
        simp
    · have hnil : query.plus_words.filterMap
          (fun t => s.termScore ln document_predicate t d) = [] := by
        rw [List.filterMap_eq_nil_iff]
        intro t _
        simp [SearchServer.termScore, hacc]
      have hacc1 : s.accepts document_predicate d = false := by simpa using hacc
      rw [if_pos hnil, hacc1]
      simp

theorem qualifies_eq_score {R : Type} [LinearOrderedField R] (s : SearchServer R)
    (hs : SearchServer.WellFormed s) (ln : R → R)
    (document_predicate : Int → DocumentStatus → Int → Bool) (query : Query) (d : Int) :
    s.qualifies document_predicate query d = (s.score ln document_predicate query d).isSome := by
  rw [score_isSome]
  unfold SearchServer.qualifies
  by_cases hacc : s.accepts document_predicate d = true
  · obtain ⟨data, hdata, _⟩ := SearchServer.count_of_accepts s document_predicate d hacc
    have hlive : s.isLive d = true := by
      unfold SearchServer.isLive
      rw [← hs.ids_documents d]
      exact (OrderedMap.count_eq_true_iff _ _).mpr ⟨data, hdata⟩
    rw [hlive, hacc]
    simp
  · have hacc1 : s.accepts document_predicate d = false := by simpa using hacc
    rw [hacc1]
    simp

/-- C28: in a reachable state, for a query that parses and a predicate for
which at most `MAX_RESULT_DOCUMENT_COUNT` live documents qualify, the ids of the
documents `FindTopDocuments` returns are exactly the live ids that satisfy the
predicate, have a posting for some plus-word of the query and none for any
minus-word, each returned once; the relevance plays no part: a qualifying
document all of whose matched plus-words occur in every document is returned
with relevance `0` (for a logarithm with `ln 1 = 0`). -/
theorem find_top_documents_exact {R : Type} [LinearOrderedField R] (s : SearchServer R)
    (hs : Reachable s) (ln : R → R) (raw_query : Str)
    (document_predicate : Int → DocumentStatus → Int → Bool) (query : Query)
    (hq : s.ParseQuery raw_query true = .ok query)
    (hfew : (s.document_ids_.toList.filter (s.qualifies document_predicate query)).length ≤
      MAX_RESULT_DOCUMENT_COUNT) :
    ∃ docs, s.FindTopDocuments ln raw_query document_predicate = .ok docs ∧
      (∀ d, (∃ doc ∈ docs, doc.id = d) ↔ s.qualifies document_predicate query d = true) ∧
      (docs.map (fun doc => doc.id)).Nodup ∧
      docs.length =
        (s.document_ids_.toList.filter (s.qualifies document_predicate query)).length ∧
      (ln 1 = 0 → ∀ d, s.qualifies document_predicate query d = true →
        (∀ t ∈ query.plus_words, (s.posting t d).isSome = true →
          s.documentFrequency t = s.GetDocumentCount) →
        ∃ doc ∈ docs, doc.id = d ∧ doc.relevance = 0) := by
  have hwf := Reachable.wellFormed hs
  obtain ⟨acc1, cand, _, _, hfind, htop⟩ :=
    SearchServer.FindTopDocuments_eq s hwf ln raw_query document_predicate query hq
  have hkey : ∀ d, d ∈ cand.keys ↔ s.qualifies document_predicate query d = true := by
    intro d
    rw [OrderedMap.mem_keys, hfind d, qualifies_eq_score s hwf ln, Option.isSome_iff_exists]
  have hperm : cand.keys.Perm
      (s.document_ids_.toList.filter (s.qualifies document_predicate query)) := by
    rw [List.perm_ext_iff_of_nodup (OrderedMap.nodup_keys cand)
      ((OrderedSet.nodup_toList _).filter _)]
    intro d
    rw [hkey d, List.mem_filter, OrderedSet.mem_toList_iff_contains]
    constructor
    · intro h
      refine ⟨?_, h⟩
      unfold SearchServer.qualifies at h
      simp only [Bool.and_eq_true] at h
      exact h.1.1.1
    · exact fun h => h.2
  have hsize : (cand.toList.map
      (fun p => (⟨p.1, p.2, s.ratingOf p.1⟩ : Document R))).length ≤
        MAX_RESULT_DOCUMENT_COUNT := by
    rw [List.length_map, OrderedMap.length_toList]
    unfold OrderedMap.size
    rw [hperm.length_eq]
    exact hfew
  have hids : List.Perm ((sort SearchServer.compareDocuments (cand.toList.map
      (fun p => (⟨p.1, p.2, s.ratingOf p.1⟩ : Document R)))).map (fun doc => doc.id))
        cand.keys := by
    refine ((sort_perm _ _).map _).trans ?_
    rw [List.map_map, ← OrderedMap.map_fst_toList]
    exact List.Perm.refl _
  rw [List.take_of_length_le (by rw [length_sort]; exact hsize)] at htop
  have hmem : ∀ d, (∃ doc ∈ sort SearchServer.compareDocuments (cand.toList.map
      (fun p => (⟨p.1, p.2, s.ratingOf p.1⟩ : Document R))), doc.id = d) ↔
        s.qualifies document_predicate query d = true := by
    intro d
    rw [← hkey d, ← hids.mem_iff, List.mem_map]
  refine ⟨_, htop, hmem, ?_, ?_, ?_⟩
  · exact hids.nodup_iff.mpr (OrderedMap.nodup_keys cand)
  · have := hids.length_eq
    rw [List.length_map] at this
    rw [this, hperm.length_eq]
  · intro hone d hd hall
    obtain ⟨doc, hdoc, hid⟩ := (hmem d).mpr hd
    refine ⟨doc, hdoc, hid, ?_⟩
    obtain ⟨⟨a, r⟩, hp, rfl⟩ := List.mem_map.mp ((mem_sort _ _ _).mp hdoc)
    have hscore := (OrderedMap.mem_toList cand a r).mp hp
    rw [hfind a] at hscore
    simp only at hid
    subst hid
    have hsum := SearchServer.score_eq_sum s ln document_predicate query a r hscore
    have hcount : 0 < s.GetDocumentCount := by
      obtain ⟨data, hdata, _⟩ := SearchServer.count_of_accepts s document_predicate a
        (SearchServer.accepts_of_score s ln document_predicate query a r hscore)
      exact OrderedMap.size_pos_of_count _ a ((OrderedMap.count_eq_true_iff _ _).mpr ⟨data, hdata⟩)
    show r = 0
    rw [hsum]
    apply List.sum_eq_zero
    intro x hx
    obtain ⟨t, ht, rfl⟩ := List.mem_map.mp hx
    rw [List.mem_filter] at ht
    have hne : ((s.GetDocumentCount : Nat) : R) ≠ 0 := by
      exact_mod_cast hcount.ne'
    unfold SearchServer.inverseDocumentFrequency
    rw [hall t ht.1 ht.2, div_self hne, hone, mul_zero]

/-- Witness of C28 on `sampleTwo`, for the query `cat`: the term occurs in both
documents. -/
theorem find_top_documents_exact_witness :
    Reachable sampleTwo ∧
    sampleTwo.ParseQuery "cat".toList true = .ok ⟨["cat".toList], []⟩ ∧
    (sampleTwo.document_ids_.toList.filter
      (sampleTwo.qualifies (fun _ _ _ => true) ⟨["cat".toList], []⟩)).length ≤
        MAX_RESULT_DOCUMENT_COUNT ∧
    ∃ docs, sampleTwo.FindTopDocuments sampleLn "cat".toList (fun _ _ _ => true) = .ok docs ∧
      (∀ d, (∃ doc ∈ docs, doc.id = d) ↔
        sampleTwo.qualifies (fun _ _ _ => true) ⟨["cat".toList], []⟩ d = true) ∧
      (docs.map (fun doc => doc.id)).Nodup ∧
      docs.length = (sampleTwo.document_ids_.toList.filter
        (sampleTwo.qualifies (fun _ _ _ => true) ⟨["cat".toList], []⟩)).length ∧
      (sampleLn 1 = 0 → ∀ d,
        sampleTwo.qualifies (fun _ _ _ => true) ⟨["cat".toList], []⟩ d = true →
        (∀ t ∈ (⟨["cat".toList], []⟩ : Query).plus_words,
          (sampleTwo.posting t d).isSome = true →
          sampleTwo.documentFrequency t = sampleTwo.GetDocumentCount) →
        ∃ doc ∈ docs, doc.id = d ∧ doc.relevance = 0) :=
  ⟨⟨sampleTwoOps, sampleTwo_history⟩, rfl, by decide,
    find_top_documents_exact sampleTwo ⟨sampleTwoOps, sampleTwo_history⟩ sampleLn "cat".toList
      (fun _ _ _ => true) ⟨["cat".toList], []⟩ rfl (by decide)⟩

/-! ## What the queries observe of a state -/

theorem ParseQuery_congr {R : Type} [LinearOrderedField R] (s s1 : SearchServer R)
    (h : s1.stop_words_ = s.stop_words_) (text : Str) (sort_flag : Bool) :
    s1.ParseQuery text sort_flag = s.ParseQuery text sort_flag := by
  have hword : ∀ w, s1.ParseQueryWord w = s.ParseQueryWord w := by
    intro w
    unfold SearchServer.ParseQueryWord SearchServer.IsStopWord
    rw [h]
  have hloop : ∀ words result, s1.ParseQueryLoop words result = s.ParseQueryLoop words result := by
    intro words
    induction words with
    | nil =>
      intro result
      rfl
    | cons w rest ih =>
      intro result
      unfold SearchServer.ParseQueryLoop
      rw [hword w]
      cases s.ParseQueryWord w with
      | error e => rfl
      | ok query_word => simp only [ih]
  unfold SearchServer.ParseQuery
  rw [hloop]

theorem documentFrequency_congr {R : Type} [LinearOrderedField R] (s s1 : SearchServer R)
    (t : Str) (h : ∀ d, s1.posting t d = s.posting t d) :
    s1.documentFrequency t = s.documentFrequency t := by
  unfold SearchServer.posting at h
  unfold SearchServer.documentFrequency
  cases h1 : s1.word_to_document_freqs_.find? t with
  | none =>
    cases h0 : s.word_to_document_freqs_.find? t with
    | none => rfl
    | some p0 =>
      simp only [h1, h0, Option.none_bind, Option.some_bind] at h
      simp only [Option.map_none', Option.getD_none, Option.map_some', Option.getD_some]
      exact ((OrderedMap.size_eq_zero_iff p0).mpr (fun d => (h d).symm)).symm
  | some p1 =>
    cases h0 : s.word_to_document_freqs_.find? t with
    | none =>
      simp only [h1, h0, Option.none_bind, Option.some_bind] at h
      simp only [Option.map_none', Option.getD_none, Option.map_some', Option.getD_some]
      exact (OrderedMap.size_eq_zero_iff p1).mpr h
    | some p0 =>
      simp only [h1, h0, Option.some_bind] at h
      simp only [Option.map_some', Option.getD_some]
      exact OrderedMap.size_eq_of_count p1 p0 (fun d => by simp [OrderedMap.count, h d])

/-- Two states with the same postings and the same metadata assign the same
candidate entries and ratings. -/
theorem score_congr {R : Type} [LinearOrderedField R] (s s1 : SearchServer R)
    (hpost : ∀ t d, s1.posting t d = s.posting t d)
    (hdocs : ∀ d, s1.documents_.find? d = s.documents_.find? d) (ln : R → R)
    (document_predicate : Int → DocumentStatus → Int → Bool) (query : Query) (d : Int) :
    s1.score ln document_predicate query d = s.score ln document_predicate query d ∧
    s1.ratingOf d = s.ratingOf d := by
  have hcount : s1.GetDocumentCount = s.GetDocumentCount := by
    unfold SearchServer.GetDocumentCount
    exact OrderedMap.size_eq_of_count _ _ (fun k => by simp [OrderedMap.count, hdocs k])
  have hterm : ∀ t, s1.termScore ln document_predicate t d =
      s.termScore ln document_predicate t d := by
    intro t
    unfold SearchServer.termScore SearchServer.accepts SearchServer.inverseDocumentFrequency
    rw [hdocs d, hpost t d, hcount, documentFrequency_congr s s1 t (hpost t)]
  refine ⟨?_, ?_⟩
  · unfold SearchServer.score
    simp only [hpost, hterm]
  · unfold SearchServer.ratingOf
    rw [hdocs d]

/-- The results of `FindTopDocuments` depend on the stop words, the postings and
the metadata only. -/
theorem FindTopDocuments_congr {R : Type} [LinearOrderedField R] (s s1 : SearchServer R)
    (hs : SearchServer.WellFormed s) (hs1 : SearchServer.WellFormed s1)
    (hstop : s1.stop_words_ = s.stop_words_)
    (hpost : ∀ t d, s1.posting t d = s.posting t d)
    (hdocs : ∀ d, s1.documents_.find? d = s.documents_.find? d) (ln : R → R)
    (raw_query : Str) (document_predicate : Int → DocumentStatus → Int → Bool) :
    s1.FindTopDocuments ln raw_query document_predicate =
      s.FindTopDocuments ln raw_query document_predicate := by
  have hparse := ParseQuery_congr s s1 hstop raw_query true
  cases hq : s.ParseQuery raw_query true with
  | error e =>
    rw [hq] at hparse
    unfold SearchServer.FindTopDocuments
    rw [hq, hparse]
  | ok query =>
    rw [hq] at hparse
    obtain ⟨_, cand, _, _, hfind, htop⟩ :=
      SearchServer.FindTopDocuments_eq s hs ln raw_query document_predicate query hq
    obtain ⟨_, cand1, _, _, hfind1, htop1⟩ :=
      SearchServer.FindTopDocuments_eq s1 hs1 ln raw_query document_predicate query hparse
    have hlist : cand1.toList = cand.toList := by
      apply OrderedMap.toList_eq_of_find
      intro d
      rw [hfind1 d, hfind d]
      exact (score_congr s s1 hpost hdocs ln document_predicate query d).1
    have hrating : s1.ratingOf = s.ratingOf :=
      funext (fun d => (score_congr s s1 hpost hdocs ln document_predicate ⟨[], []⟩ d).2)
    rw [htop, htop1, hlist, hrating]

/-- The results of `MatchDocument`, with either strategy, depend on the stop
words, the live ids, the postings and the metadata only. -/
theorem MatchDocument_congr {R : Type} [LinearOrderedField R] (s s1 : SearchServer R)
    (hstop : s1.stop_words_ = s.stop_words_)
    (hids : ∀ d, s1.document_ids_.contains d = s.document_ids_.contains d)
    (hpost : ∀ t d, s1.posting t d = s.posting t d)
    (hdocs : ∀ d, s1.documents_.find? d = s.documents_.find? d)
    (raw_query : Str) (document_id : Int) :
    s1.MatchDocument raw_query document_id = s.MatchDocument raw_query document_id ∧
    s1.MatchDocumentPar raw_query document_id = s.MatchDocumentPar raw_query document_id := by
  have hchk : s1.wordChecker document_id = s.wordChecker document_id := by
    funext t
    rw [wordChecker_eq, wordChecker_eq, hpost]
  refine ⟨?_, ?_⟩
  · unfold SearchServer.MatchDocument
    simp only [matchMinusWords_eq, matchPlusWords_eq, hpost, hids, hdocs,
      ParseQuery_congr s s1 hstop]
  · unfold SearchServer.MatchDocumentPar
    simp only [hchk, hids, hdocs, ParseQuery_congr s s1 hstop]

/-! ## Adding and removing a document -/

/-- Without the parallel removal every forward-index row belongs to a document
with metadata. -/
theorem History.rows_live {R : Type} [LinearOrderedField R] {ops : List Op}
    {s : SearchServer R} (h : History ops s) (hseq : ∀ op ∈ ops, Op.isRemovePar op = false) :
    ∀ d, s.document_to_word_freqs_.count d = true → s.documents_.count d = true := by
  induction h with
  | create stop_words s hc =>
    unfold SearchServer.create at hc
    by_cases hv : (MakeUniqueNonEmptyStrings stop_words).toList.all IsValidWord = true
    · simp only [hv, if_true, Except.ok.injEq] at hc
      subst hc
      intro d hd
      cases hd
    · simp [hv] at hc
  | call ops s op _ hok ih =>
    have ih1 := ih (fun o ho => hseq o (List.mem_cons_of_mem _ ho))
    have hop := hseq op (List.mem_cons_self _ _)
    cases op with
    | add document_id document status ratings =>
      simp only [applyOp] at hok ⊢
      intro d hd
      unfold OrderedMap.count at hd ⊢
      rw [SearchServer.AddDocument_documents s _ _ _ _ hok d]
      by_cases hdi : d = document_id
      · simp [hdi]
      · rw [SearchServer.AddDocument_row_of_ne s _ _ _ _ d hdi] at hd
        rw [if_neg hdi]
        exact ih1 d hd
    | remove document_id =>
      simp only [applyOp] at hok ⊢
      obtain ⟨_, h2, _, h4, _⟩ := SearchServer.RemoveDocument_fields s document_id hok
      intro d hd
      unfold OrderedMap.count at hd ⊢
      rw [h4, OrderedMap.find?_erase] at hd
      rw [h2, OrderedMap.find?_erase]
      by_cases hdi : d = document_id
      · simp [hdi] at hd
      · rw [if_neg hdi] at hd ⊢
        exact ih1 d hd
    | removePar document_id => simp [Op.isRemovePar] at hop

/-- What `AddDocument` followed by the sequential `RemoveDocument` of the same
id leaves of a state in which the id has no metadata and no forward-index
row. -/
theorem add_then_remove {R : Type} [LinearOrderedField R] (s : SearchServer R)
    (hs : SearchServer.WellFormed s) (document_id : Int) (document : Str)
    (status : DocumentStatus) (ratings : List Int)
    (hadd : (s.AddDocument document_id document status ratings).error = none)
    (hrow : s.document_to_word_freqs_.find? document_id = none)
    (htoken : s.indexableWords document ≠ []) :
    ((s.AddDocument document_id document status ratings).state.RemoveDocument
      document_id).error = none ∧
    ((s.AddDocument document_id document status ratings).state.RemoveDocument
      document_id).state.stop_words_ = s.stop_words_ ∧
    (∀ d, ((s.AddDocument document_id document status ratings).state.RemoveDocument
      document_id).state.documents_.find? d = s.documents_.find? d) ∧
    (∀ d, ((s.AddDocument document_id document status ratings).state.RemoveDocument
      document_id).state.document_ids_.contains d = s.document_ids_.contains d) ∧
    (∀ d, ((s.AddDocument document_id document status ratings).state.RemoveDocument
      document_id).state.document_to_word_freqs_.find? d = s.document_to_word_freqs_.find? d) ∧
    (∀ t d, ((s.AddDocument document_id document status ratings).state.RemoveDocument
      document_id).state.posting t d = s.posting t d) := by
  have hwf1 := hs.afterAdd document_id document status ratings hadd
  have hnew := (SearchServer.AddDocument_not_count s _ _ _ _ hadd).2.2
  have hdead : s.document_ids_.contains document_id = false := by
    rw [← hs.ids_documents document_id, OrderedMap.count_eq_false_iff]
    exact hnew
  obtain ⟨w, hw⟩ := List.exists_mem_of_ne_nil _ htoken
  have hrow1 : (s.AddDocument document_id document status ratings).state.document_to_word_freqs_.count
      document_id = true := by
    have hentry := SearchServer.AddDocument_rowEntry s document_id document status ratings hadd
      document_id w
    rw [if_pos ⟨rfl, hw⟩] at hentry
    unfold SearchServer.rowEntry at hentry
    cases hf : (s.AddDocument document_id document status
        ratings).state.document_to_word_freqs_.find? document_id with
    | none =>
      rw [hf] at hentry
      cases hentry
    | some row => simp [OrderedMap.count, hf]
  have hok : ((s.AddDocument document_id document status ratings).state.RemoveDocument
      document_id).error = none := by
    rw [(SearchServer.RemoveDocument_error hwf1 document_id).1, if_pos hrow1]
  obtain ⟨h1, h2, h3, h4, _⟩ := SearchServer.RemoveDocument_fields _ document_id hok
  refine ⟨hok, ?_, ?_, ?_, ?_, ?_⟩
  · rw [h1, SearchServer.AddDocument_stop_words]
  · intro d
    rw [h2, OrderedMap.find?_erase, SearchServer.AddDocument_documents s _ _ _ _ hadd d]
    by_cases hd : d = document_id
    · rw [if_pos hd, hd, hnew]
    · rw [if_neg hd, if_neg hd]
  · intro d
    rw [h3, OrderedSet.contains_erase, SearchServer.AddDocument_document_ids s _ _ _ _ hadd d]
    by_cases hd : d = document_id
    · simp [hd, hdead]
    · simp [hd]
  · intro d
    rw [h4, OrderedMap.find?_erase]
    by_cases hd : d = document_id
    · rw [if_pos hd, hd, hrow]
    · rw [if_neg hd, SearchServer.AddDocument_row_of_ne s _ _ _ _ d hd]
  · intro t d
    rw [SearchServer.RemoveDocument_posting _ document_id hok t d,
      SearchServer.AddDocument_posting s _ _ _ _ hadd t d,
      SearchServer.AddDocument_rowEntry s _ _ _ _ hadd document_id t]
    have hnone : ∀ t1, s.posting t1 document_id = none := by
      intro t1
      cases hp : s.posting t1 document_id with
      | none => rfl
      | some tf =>
        have := hs.posting_live t1 document_id tf hp
        rw [(OrderedMap.count_eq_false_iff _ _).mpr hnew] at this
        cases this
    have hrnone : s.rowEntry document_id t = none := by
      simp [SearchServer.rowEntry, hrow]
    by_cases hd : d = document_id
    · subst hd
      by_cases ht : t ∈ s.indexableWords document
      · simp [ht, hnone t]
      · simp [ht, hrnone]
    · simp [hd]

/-- C29: in a state reached by `AddDocument` and the sequential
`RemoveDocument` only, for a non-negative id that is not live and a valid text
with at least one indexable token, `AddDocument(id, text, ...)` succeeds, the
sequential `RemoveDocument(id)` after it succeeds, and the state they leave has
the same document count, the same live ids in ascending order, the same
`GetWordFrequencies(j)` for every `j`, and the same results of
`FindTopDocuments` and of `MatchDocument` (with either strategy) for every
query as the state before the `AddDocument`. -/
theorem add_remove_round_trip {R : Type} [LinearOrderedField R] (s : SearchServer R)
    (ops : List Op) (h : History ops s) (hseq : ∀ op ∈ ops, Op.isRemovePar op = false)
    (document_id : Int) (document : Str) (status : DocumentStatus) (ratings : List Int)
    (hid : 0 ≤ document_id) (hlive : s.isLive document_id = false)
    (hvalid : IsValidWord document = true) (htoken : s.indexableWords document ≠ []) :
    (s.AddDocument document_id document status ratings).error = none ∧
    ((s.AddDocument document_id document status ratings).state.RemoveDocument
      document_id).error = none ∧
    ((s.AddDocument document_id document status ratings).state.RemoveDocument
      document_id).state.GetDocumentCount = s.GetDocumentCount ∧
    ((s.AddDocument document_id document status ratings).state.RemoveDocument
      document_id).state.document_ids_.toList = s.document_ids_.toList ∧
    (∀ j, ((s.AddDocument document_id document status ratings).state.RemoveDocument
      document_id).state.GetWordFrequencies j = s.GetWordFrequencies j) ∧
    (∀ (ln : R → R) (raw_query : Str) (document_predicate : Int → DocumentStatus → Int → Bool),
      ((s.AddDocument document_id document status ratings).state.RemoveDocument
        document_id).state.FindTopDocuments ln raw_query document_predicate =
      s.FindTopDocuments ln raw_query document_predicate) ∧
    (∀ (raw_query : Str) (j : Int),
      ((s.AddDocument document_id document status ratings).state.RemoveDocument
        document_id).state.MatchDocument raw_query j = s.MatchDocument raw_query j ∧
      ((s.AddDocument document_id document status ratings).state.RemoveDocument
        document_id).state.MatchDocumentPar raw_query j = s.MatchDocumentPar raw_query j) := by
  have hwf := h.wellFormedState
  have hcount : s.documents_.count document_id = false := by
    rw [hwf.ids_documents]
    exact hlive
  have hadd : (s.AddDocument document_id document status ratings).error = none := by
    rw [SearchServer.AddDocument_error]
    have : ¬ (IsValidWord document = false ∨ document_id < 0 ∨
        s.documents_.count document_id = true) := by
      rw [hvalid, hcount]
      simp
      omega
    rw [if_neg this]
  have hrow : s.document_to_word_freqs_.find? document_id = none := by
    cases hf : s.document_to_word_freqs_.find? document_id with
    | none => rfl
    | some row =>
      have := h.rows_live hseq document_id (by simp [OrderedMap.count, hf])
      rw [hcount] at this
      cases this
  obtain ⟨hok, hstop, hdocs, hids, hrows, hpost⟩ :=
    add_then_remove s hwf document_id document status ratings hadd hrow htoken
  have hwf2 := (hwf.afterAdd document_id document status ratings hadd).afterRemove document_id hok
  refine ⟨hadd, hok, ?_, ?_, ?_, ?_, ?_⟩
  · unfold SearchServer.GetDocumentCount
    exact OrderedMap.size_eq_of_count _ _ (fun k => by simp [OrderedMap.count, hdocs k])
  · exact OrderedSet.toList_eq_of_contains _ _ hids
  · intro j
    unfold SearchServer.GetWordFrequencies OrderedMap.count
    rw [hrows j]
  · intro ln raw_query document_predicate
    exact FindTopDocuments_congr s _ hwf hwf2 hstop hpost hdocs ln raw_query document_predicate
  · intro raw_query j
    exact MatchDocument_congr s _ hstop hids hpost hdocs raw_query j

/-- Witness of C29 on `sampleTwo`: document 5 with the text `dog cat eyes` is
added and removed. -/
theorem add_remove_round_trip_witness :
    History sampleTwoOps sampleTwo ∧
    (∀ op ∈ sampleTwoOps, Op.isRemovePar op = false) ∧
    sampleTwo.isLive 5 = false ∧
    IsValidWord "dog cat eyes".toList = true ∧
    sampleTwo.indexableWords "dog cat eyes".toList ≠ [] ∧
    (sampleTwo.AddDocument 5 "dog cat eyes".toList DocumentStatus.ACTUAL [3]).error = none ∧
    ((sampleTwo.AddDocument 5 "dog cat eyes".toList DocumentStatus.ACTUAL [3]).state.RemoveDocument
      5).error = none ∧
    ((sampleTwo.AddDocument 5 "dog cat eyes".toList DocumentStatus.ACTUAL [3]).state.RemoveDocument
      5).state.GetDocumentCount = sampleTwo.GetDocumentCount ∧
    ((sampleTwo.AddDocument 5 "dog cat eyes".toList DocumentStatus.ACTUAL [3]).state.RemoveDocument
      5).state.document_ids_.toList = sampleTwo.document_ids_.toList ∧
    (∀ j, ((sampleTwo.AddDocument 5 "dog cat eyes".toList DocumentStatus.ACTUAL
      [3]).state.RemoveDocument 5).state.GetWordFrequencies j = sampleTwo.GetWordFrequencies j) ∧
    (∀ (ln : ℚ → ℚ) (raw_query : Str) (document_predicate : Int → DocumentStatus → Int → Bool),
      ((sampleTwo.AddDocument 5 "dog cat eyes".toList DocumentStatus.ACTUAL
        [3]).state.RemoveDocument 5).state.FindTopDocuments ln raw_query document_predicate =
      sampleTwo.FindTopDocuments ln raw_query document_predicate) ∧
    (∀ (raw_query : Str) (j : Int),
      ((sampleTwo.AddDocument 5 "dog cat eyes".toList DocumentStatus.ACTUAL
        [3]).state.RemoveDocument 5).state.MatchDocument raw_query j =
        sampleTwo.MatchDocument raw_query j ∧
      ((sampleTwo.AddDocument 5 "dog cat eyes".toList DocumentStatus.ACTUAL
        [3]).state.RemoveDocument 5).state.MatchDocumentPar raw_query j =
        sampleTwo.MatchDocumentPar raw_query j) :=
  ⟨sampleTwo_history, by decide, by decide, by decide, by decide,
    add_remove_round_trip sampleTwo sampleTwoOps sampleTwo_history (by decide) 5
      "dog cat eyes".toList DocumentStatus.ACTUAL [3] (by decide) (by decide) (by decide)
      (by decide)⟩

/-! ## `AddDocument` in rounded arithmetic -/

namespace SearchServer

variable {R : Type} [LinearOrderedField R]

theorem AddDocumentFl_error (fl : R → R) (s : SearchServer R) (document_id : Int)
    (document : Str) (status : DocumentStatus) (ratings : List Int) :
    (s.AddDocumentFl fl document_id document status ratings).error =
      if IsValidWord document = false ∨ document_id < 0 ∨ s.documents_.count document_id = true
      then some Error.invalid_argument else none := by
  unfold AddDocumentFl
  by_cases hv : IsValidWord document = true
  · by_cases hid : document_id < 0 ∨ s.documents_.count document_id = true
    · simp [hv, hid]
    · rw [SplitIntoWordsNoStop_ok s document hv]
      simp [hv, hid]
  · simp [hv]

theorem AddDocumentFl_state (fl : R → R) (s : SearchServer R) (document_id : Int)
    (document : Str) (status : DocumentStatus) (ratings : List Int)
    (h : (s.AddDocumentFl fl document_id document status ratings).error = none) :
    (s.AddDocumentFl fl document_id document status ratings).state =
      { (s.indexableWords document).foldl
          (addWordFl fl document_id (fl (1 / ((s.indexableWords document).length : R)))) s with
        documents_ := ((s.indexableWords document).foldl
          (addWordFl fl document_id
            (fl (1 / ((s.indexableWords document).length : R)))) s).documents_.emplace
            document_id ⟨ComputeAverageRating ratings, status⟩
        document_ids_ := ((s.indexableWords document).foldl
          (addWordFl fl document_id
            (fl (1 / ((s.indexableWords document).length : R)))) s).document_ids_.insert
            document_id } := by
  rw [AddDocumentFl_error] at h
  by_cases hc : IsValidWord document = false ∨ document_id < 0 ∨ s.documents_.count document_id = true
  · simp [hc] at h
  · have hv : IsValidWord document = true := by
      cases hv : IsValidWord document with
      | true => rfl
      | false => exact absurd (Or.inl hv) hc
    have hid : ¬ (document_id < 0 ∨ s.documents_.count document_id = true) :=
      fun h1 => hc (Or.inr h1)
    unfold AddDocumentFl
    rw [SplitIntoWordsNoStop_ok s document hv]
    simp [hv, hid]

theorem posting_addWordFl (fl : R → R) (s : SearchServer R) (document_id : Int) (inv : R)
    (word : Str) (w : Str) (d : Int) :
    (addWordFl fl document_id inv s word).posting w d =
      if w = word ∧ d = document_id then some (fl ((s.posting word document_id).getD 0 + inv))
      else s.posting w d := by
  unfold posting addWordFl
  simp only [OrderedMap.find?_insert]
  by_cases hw : w = word
  · subst hw
    by_cases hd : d = document_id
    · subst hd
      cases hf : s.word_to_document_freqs_.find? w <;> simp [OrderedMap.find?_insert]
    · cases hf : s.word_to_document_freqs_.find? w <;> simp [OrderedMap.find?_insert, hd]
  · simp [hw]

theorem rowEntry_addWordFl (fl : R → R) (s : SearchServer R) (document_id : Int) (inv : R)
    (word : Str) (d : Int) (w : Str) :
    (addWordFl fl document_id inv s word).rowEntry d w =
      if w = word ∧ d = document_id then some (fl ((s.rowEntry document_id word).getD 0 + inv))
      else s.rowEntry d w := by
  unfold rowEntry addWordFl
  simp only [OrderedMap.find?_insert]
  by_cases hd : d = document_id
  · subst hd
    by_cases hw : w = word
    · subst hw
      cases hf : s.document_to_word_freqs_.find? d <;> simp [OrderedMap.find?_insert]
    · cases hf : s.document_to_word_freqs_.find? d <;> simp [OrderedMap.find?_insert, hw]
  · simp [hd]

theorem row_addWordFl_of_ne (fl : R → R) (s : SearchServer R) (document_id : Int) (inv : R)
    (word : Str) (d : Int) (hd : d ≠ document_id) :
    (addWordFl fl document_id inv s word).document_to_word_freqs_.find? d =
      s.document_to_word_freqs_.find? d := by
  unfold addWordFl
  simp [OrderedMap.find?_insert, hd]

theorem foldl_addWordFl_fixed (fl : R → R) (document_id : Int) (inv : R) (words : List Str)
    (s : SearchServer R) :
    (words.foldl (addWordFl fl document_id inv) s).stop_words_ = s.stop_words_ ∧
    (words.foldl (addWordFl fl document_id inv) s).documents_ = s.documents_ ∧
    (words.foldl (addWordFl fl document_id inv) s).document_ids_ = s.document_ids_ := by
  induction words generalizing s with
  | nil => exact ⟨rfl, rfl, rfl⟩
  | cons w rest ih => exact ih (addWordFl fl document_id inv s w)

theorem accumulate_succ (fl : R → R) (inv : R) (k : Nat) (start : R) :
    accumulate fl inv (k + 1) start = accumulate fl inv k (fl (start + inv)) := by
  unfold accumulate
  rw [Function.iterate_succ_apply]

theorem posting_foldl_addWordFl (fl : R → R) (document_id : Int) (inv : R) (words : List Str)
    (s : SearchServer R) (w : Str) (d : Int) :
    (words.foldl (addWordFl fl document_id inv) s).posting w d =
      if d = document_id ∧ w ∈ words then
        some (accumulate fl inv (words.count w) ((s.posting w document_id).getD 0))
      else s.posting w d := by
  induction words generalizing s with
  | nil => simp
  | cons a rest ih =>
    rw [List.foldl_cons, ih, posting_addWordFl, posting_addWordFl]
    by_cases hd : d = document_id
    · subst hd
      by_cases hwa : w = a
      · subst hwa
        by_cases hr : w ∈ rest
        · simp [hr, accumulate_succ]
        · simp [hr, List.count_eq_zero_of_not_mem hr, accumulate]
      · have hne : ¬ a = w := fun h => hwa h.symm
        by_cases hr : w ∈ rest
        · simp [hr, hwa, List.count_cons, hne]
        · simp [hr, hwa]
    · simp [hd]

theorem rowEntry_foldl_addWordFl (fl : R → R) (document_id : Int) (inv : R) (words : List Str)
    (s : SearchServer R) (d : Int) (w : Str) :
    (words.foldl (addWordFl fl document_id inv) s).rowEntry d w =
      if d = document_id ∧ w ∈ words then
        some (accumulate fl inv (words.count w) ((s.rowEntry document_id w).getD 0))
      else s.rowEntry d w := by
  induction words generalizing s with
  | nil => simp
  | cons a rest ih =>
    rw [List.foldl_cons, ih, rowEntry_addWordFl, rowEntry_addWordFl]
    by_cases hd : d = document_id
    · subst hd
      by_cases hwa : w = a
      · subst hwa
        by_cases hr : w ∈ rest
        · simp [hr, accumulate_succ]
        · simp [hr, List.count_eq_zero_of_not_mem hr, accumulate]
      · have hne : ¬ a = w := fun h => hwa h.symm
        by_cases hr : w ∈ rest
        · simp [hr, hwa, List.count_cons, hne]
        · simp [hr, hwa]
    · simp [hd]

theorem row_foldl_addWordFl_of_ne (fl : R → R) (document_id : Int) (inv : R) (words : List Str)
    (s : SearchServer R) (d : Int) (hd : d ≠ document_id) :
    (words.foldl (addWordFl fl document_id inv) s).document_to_word_freqs_.find? d =
      s.document_to_word_freqs_.find? d := by
  induction words generalizing s with
  | nil => rfl
  | cons a rest ih => rw [List.foldl_cons, ih, row_addWordFl_of_ne _ _ _ _ _ _ hd]

theorem AddDocumentFl_not_count (fl : R → R) (s : SearchServer R) (document_id : Int)
    (document : Str) (status : DocumentStatus) (ratings : List Int)
    (h : (s.AddDocumentFl fl document_id document status ratings).error = none) :
    IsValidWord document = true ∧ 0 ≤ document_id ∧ s.documents_.find? document_id = none := by
  rw [AddDocumentFl_error] at h
  by_cases hc : IsValidWord document = false ∨ document_id < 0 ∨ s.documents_.count document_id = true
  · simp [hc] at h
  · push_neg at hc
    obtain ⟨h1, h2, h3⟩ := hc
    refine ⟨by simpa using h1, by omega, ?_⟩
    simpa [OrderedMap.count] using h3

theorem AddDocumentFl_stop_words (fl : R → R) (s : SearchServer R) (document_id : Int)
    (document : Str) (status : DocumentStatus) (ratings : List Int)
    (h : (s.AddDocumentFl fl document_id document status ratings).error = none) :
    (s.AddDocumentFl fl document_id document status ratings).state.stop_words_ = s.stop_words_ := by
  rw [AddDocumentFl_state fl s _ _ _ _ h]
  exact (foldl_addWordFl_fixed _ _ _ _ s).1

theorem AddDocumentFl_posting (fl : R → R) (s : SearchServer R) (document_id : Int)
    (document : Str) (status : DocumentStatus) (ratings : List Int)
    (h : (s.AddDocumentFl fl document_id document status ratings).error = none) (w : Str)
    (d : Int) :
    (s.AddDocumentFl fl document_id document status ratings).state.posting w d =
      if d = document_id ∧ w ∈ s.indexableWords document then
        some (accumulate fl (fl (1 / ((s.indexableWords document).length : R)))
          ((s.indexableWords document).count w) ((s.posting w document_id).getD 0))
      else s.posting w d := by
  rw [AddDocumentFl_state fl s _ _ _ _ h, ← posting_foldl_addWordFl]
  rfl

theorem AddDocumentFl_rowEntry (fl : R → R) (s : SearchServer R) (document_id : Int)
    (document : Str) (status : DocumentStatus) (ratings : List Int)
    (h : (s.AddDocumentFl fl document_id document status ratings).error = none) (d : Int)
    (w : Str) :
    (s.AddDocumentFl fl document_id document status ratings).state.rowEntry d w =
      if d = document_id ∧ w ∈ s.indexableWords document then
        some (accumulate fl (fl (1 / ((s.indexableWords document).length : R)))
          ((s.indexableWords document).count w) ((s.rowEntry document_id w).getD 0))
      else s.rowEntry d w := by
  rw [AddDocumentFl_state fl s _ _ _ _ h, ← rowEntry_foldl_addWordFl]
  rfl

theorem AddDocumentFl_documents (fl : R → R) (s : SearchServer R) (document_id : Int)
    (document : Str) (status : DocumentStatus) (ratings : List Int)
    (h : (s.AddDocumentFl fl document_id document status ratings).error = none) (d : Int) :
    (s.AddDocumentFl fl document_id document status ratings).state.documents_.find? d =
      if d = document_id then some ⟨ComputeAverageRating ratings, status⟩
      else s.documents_.find? d := by
  have hn := (AddDocumentFl_not_count fl s _ _ _ _ h).2.2
  rw [AddDocumentFl_state fl s _ _ _ _ h]
  simp only [(foldl_addWordFl_fixed _ _ _ _ s).2.1, OrderedMap.find?_emplace, hn,
    Option.getD_none]

theorem AddDocumentFl_row_of_ne (fl : R → R) (s : SearchServer R) (document_id : Int)
    (document : Str) (status : DocumentStatus) (ratings : List Int)
    (h : (s.AddDocumentFl fl document_id document status ratings).error = none) (d : Int)
    (hd : d ≠ document_id) :
    (s.AddDocumentFl fl document_id document status ratings).state.document_to_word_freqs_.find?
      d = s.document_to_word_freqs_.find? d := by
  rw [AddDocumentFl_state fl s _ _ _ _ h]
  exact row_foldl_addWordFl_of_ne _ _ _ _ s d hd

/-- In exact arithmetic `AddDocumentFl` is `AddDocument`. -/
theorem AddDocumentFl_exact (s : SearchServer R) (document_id : Int) (document : Str)
    (status : DocumentStatus) (ratings : List Int) :
    s.AddDocumentFl (fun x => x) document_id document status ratings =
      s.AddDocument document_id document status ratings := rfl

end SearchServer

/-- An id no successful call has added has no forward-index row and no
posting, in rounded arithmetic too. -/
theorem HistoryFl.never_added_fl {R : Type} [LinearOrderedField R] {fl : R → R} {ops : List Op}
    {s : SearchServer R} (h : HistoryFl fl ops s) (document_id : Int)
    (hnever : ∀ op ∈ ops, Op.adds document_id op = false) :
    s.document_to_word_freqs_.find? document_id = none ∧
      ∀ w, s.posting w document_id = none := by
  induction h with
  | create stop_words s hc =>
    unfold SearchServer.create at hc
    by_cases hv : (MakeUniqueNonEmptyStrings stop_words).toList.all IsValidWord = true
    · simp only [hv, if_true, Except.ok.injEq] at hc
      subst hc
      exact ⟨rfl, fun w => rfl⟩
    · simp [hv] at hc
  | call ops s op _ hok ih =>
    obtain ⟨ih1, ih2⟩ := ih (fun o ho => hnever o (List.mem_cons_of_mem _ ho))
    have hop := hnever op (List.mem_cons_self _ _)
    cases op with
    | add d document status ratings =>
      have hd : document_id ≠ d := by
        intro heq
        simp [Op.adds, heq] at hop
      simp only [applyOpFl] at hok ⊢
      refine ⟨?_, fun w => ?_⟩
      · rw [SearchServer.AddDocumentFl_row_of_ne fl s d document status ratings hok document_id hd]
        exact ih1
      · rw [SearchServer.AddDocumentFl_posting fl s d document status ratings hok]
        simp only [hd, false_and, if_false]
        exact ih2 w
    | remove d =>
      simp only [applyOpFl] at hok ⊢
      refine ⟨?_, fun w => ?_⟩
      · rw [(SearchServer.RemoveDocument_fields s d hok).2.2.2.1, OrderedMap.find?_erase]
        by_cases hd : document_id = d
        · simp [hd]
        · simp [hd, ih1]
      · rw [SearchServer.RemoveDocument_posting s d hok]
        split
        · rfl
        · exact ih2 w
    | removePar d =>
      simp only [applyOpFl] at hok ⊢
      refine ⟨?_, fun w => ?_⟩
      · rw [(SearchServer.RemoveDocumentPar_fields s d hok).2.1]
        exact ih1
      · rw [SearchServer.RemoveDocumentPar_posting s d hok]
        split
        · rfl
        · exact ih2 w

/-- In a history of additions only, in rounded arithmetic, every added id has
metadata, and its forward-index row binds each indexable token of its text to
the value accumulated over its occurrences. -/
theorem HistoryFl.rows_of_adds_fl {R : Type} [LinearOrderedField R] {fl : R → R} {ops : List Op}
    {s : SearchServer R} (h : HistoryFl fl ops s) (hadds : ∀ op ∈ ops, Op.isAdd op = true) :
    ∀ document_id document status ratings, Op.add document_id document status ratings ∈ ops →
      (∃ data, s.documents_.find? document_id = some data) ∧
      ∀ t, s.rowEntry document_id t =
        if t ∈ s.indexableWords document then
          some (accumulate fl (fl (1 / ((s.indexableWords document).length : R)))
            ((s.indexableWords document).count t) 0)
        else none := by
  induction h with
  | create stop_words s hc =>
    intro document_id document status ratings hmem
    cases hmem
  | call ops s op hist hok ih =>
    have ih1 := ih (fun o ho => hadds o (List.mem_cons_of_mem _ ho))
    have hop := hadds op (List.mem_cons_self _ _)
    cases op with
    | remove d => simp [Op.isAdd] at hop
    | removePar d => simp [Op.isAdd] at hop
    | add d document1 status1 ratings1 =>
      simp only [applyOpFl] at hok ⊢
      have hfresh := (SearchServer.AddDocumentFl_not_count fl s d document1 status1 ratings1 hok).2.2
      have hstop := SearchServer.AddDocumentFl_stop_words fl s d document1 status1 ratings1 hok
      have hnever : ∀ o ∈ ops, Op.adds d o = false := by
        intro o ho
        cases o with
        | remove _ => rfl
        | removePar _ => rfl
        | add d2 document2 status2 ratings2 =>
          by_cases hd : d2 = d
          · subst hd
            obtain ⟨⟨data, hdata⟩, _⟩ := ih1 d2 document2 status2 ratings2 ho
            rw [hdata] at hfresh
            cases hfresh
          · simp [Op.adds, hd]
      have hrow : ∀ t, s.rowEntry d t = none := by
        intro t
        simp [SearchServer.rowEntry, (hist.never_added_fl d hnever).1]
      intro document_id document status ratings hmem
      rw [indexableWords_congr s _ hstop]
      rcases List.mem_cons.mp hmem with heq | hin
      · cases heq
        refine ⟨?_, fun t => ?_⟩
        · rw [SearchServer.AddDocumentFl_documents fl s _ _ _ _ hok]
          simp
        · rw [SearchServer.AddDocumentFl_rowEntry fl s _ _ _ _ hok, hrow t]
          by_cases ht : t ∈ s.indexableWords document1
          · simp [ht]
          · simp [ht]
      · obtain ⟨⟨data, hdata⟩, hrows⟩ := ih1 document_id document status ratings hin
        have hne : document_id ≠ d := by
          intro heq
          rw [heq, hfresh] at hdata
          cases hdata
        refine ⟨?_, fun t => ?_⟩
        · rw [SearchServer.AddDocumentFl_documents fl s _ _ _ _ hok, if_neg hne]
          exact ⟨data, hdata⟩
        · rw [SearchServer.AddDocumentFl_rowEntry fl s _ _ _ _ hok]
          simp only [hne, false_and, if_false]
          exact hrows t

/-! ### The accumulated value -/

theorem accumulate_step {R : Type} [LinearOrderedField R] (fl : R → R) (inv : R) (k : Nat)
    (start : R) :
    accumulate fl inv (k + 1) start = fl (accumulate fl inv k start + inv) := by
  unfold accumulate
  rw [Function.iterate_succ_apply']

/-- In exact arithmetic `k` additions of `inv` to `0` give `k * inv`. -/
theorem accumulate_exact {R : Type} [LinearOrderedField R] (fl : R → R) (hfl : ∀ x, fl x = x)
    (inv : R) (k : Nat) : accumulate fl inv k 0 = (k : R) * inv := by
  induction k with
  | zero => simp [accumulate]
  | succ k ih =>
    rw [accumulate_step, hfl, ih]
    push_cast
    ring

theorem le_of_rel_error {R : Type} [LinearOrderedField R] (fl : R → R) (u : R)
    (hfl : ∀ x, |fl x - x| ≤ u * |x|) (x : R) (hx : 0 ≤ x) :
    (1 - u) * x ≤ fl x ∧ fl x ≤ (1 + u) * x := by
  have h := hfl x
  rw [abs_of_nonneg hx, abs_le] at h
  constructor <;> nlinarith [h.1, h.2]

/-- With relative rounding error at most `u ≤ 1` per operation, `k` additions
of `inv ≥ 0` to `0` give a value between `k * inv * (1 - u)^k` and
`k * inv * (1 + u)^k`. -/
theorem accumulate_bounds {R : Type} [LinearOrderedField R] (fl : R → R) (u : R) (hu0 : 0 ≤ u)
    (hu1 : u ≤ 1) (hfl : ∀ x, |fl x - x| ≤ u * |x|) (inv : R) (hinv : 0 ≤ inv) (k : Nat) :
    (k : R) * inv * (1 - u) ^ k ≤ accumulate fl inv k 0 ∧
      accumulate fl inv k 0 ≤ (k : R) * inv * (1 + u) ^ k := by
  induction k with
  | zero => simp [accumulate]
  | succ k ih =>
    obtain ⟨ih1, ih2⟩ := ih
    have hlow0 : (0 : R) ≤ (k : R) * inv * (1 - u) ^ k :=
      mul_nonneg (mul_nonneg (Nat.cast_nonneg k) hinv) (pow_nonneg (by linarith) k)
    have hx : 0 ≤ accumulate fl inv k 0 + inv := by linarith
    obtain ⟨h1, h2⟩ := le_of_rel_error fl u hfl _ hx
    rw [accumulate_step]
    have hp1 : (1 - u) ^ k ≤ 1 := pow_le_one₀ (by linarith) (by linarith)
    have hp2 : (1 : R) ≤ (1 + u) ^ k := one_le_pow₀ (by linarith)
    have hk : (0 : R) ≤ (k : R) := Nat.cast_nonneg k
    constructor
    · refine le_trans ?_ h1
      have : ((k + 1 : Nat) : R) * inv * (1 - u) ^ (k + 1) =
          (1 - u) * ((k : R) * inv * (1 - u) ^ k + inv * (1 - u) ^ k) := by
        push_cast
        ring
      rw [this]
      apply mul_le_mul_of_nonneg_left _ (by linarith)
      have : inv * (1 - u) ^ k ≤ inv := by
        calc inv * (1 - u) ^ k ≤ inv * 1 := mul_le_mul_of_nonneg_left hp1 hinv
          _ = inv := mul_one inv
      linarith
    · refine le_trans h2 ?_
      have : ((k + 1 : Nat) : R) * inv * (1 + u) ^ (k + 1) =
          (1 + u) * ((k : R) * inv * (1 + u) ^ k + inv * (1 + u) ^ k) := by
        push_cast
        ring
      rw [this]
      apply mul_le_mul_of_nonneg_left _ (by linarith)
      have : inv ≤ inv * (1 + u) ^ k := by
        calc inv = inv * 1 := (mul_one inv).symm
          _ ≤ inv * (1 + u) ^ k := mul_le_mul_of_nonneg_left hp2 hinv
      linarith

theorem one_add_pow_le {R : Type} [LinearOrderedField R] (u : R) (hu0 : 0 ≤ u) (m : Nat)
    (hm : (m : R) * u ≤ 1 / 2) : (1 + u) ^ m ≤ 1 + 2 * (m : R) * u := by
  induction m with
  | zero => simp
  | succ m ih =>
    have hm1 : (m : R) * u ≤ 1 / 2 := by
      push_cast at hm
      nlinarith
    have ih1 := ih hm1
    have hk : (0 : R) ≤ (m : R) := Nat.cast_nonneg m
    rw [pow_succ]
    push_cast
    have h1 : (1 + u) ^ m * (1 + u) ≤ (1 + 2 * (m : R) * u) * (1 + u) :=
      mul_le_mul_of_nonneg_right ih1 (by linarith)
    have h2 : 2 * (m : R) * u * u ≤ u := by
      have : 2 * ((m : R) * u) ≤ 1 := by linarith
      nlinarith
    nlinarith

theorem one_sub_pow_ge {R : Type} [LinearOrderedField R] (u : R) (hu1 : u ≤ 1) (m : Nat) : 1 - (m : R) * u ≤ (1 - u) ^ m := by
  have := one_add_mul_le_pow (show (-2 : R) ≤ -u by linarith) m
  have h2 : (1 : R) + (m : R) * -u = 1 - (m : R) * u := by ring
  have h3 : (1 : R) + -u = 1 - u := by ring
  rw [h2, h3] at this
  exact this

/-! ### Rounding to the nearest `double` -/

theorem lgLoop_spec (k : Nat) : ∀ n, n ≤ k → 1 ≤ n →
    2 ^ lgLoop k n ≤ n ∧ n < 2 ^ (lgLoop k n + 1) := by
  induction k with
  | zero => intro n h1 h2; omega
  | succ k ih =>
    intro n h1 h2
    unfold lgLoop
    by_cases h : n ≥ 2
    · rw [if_pos h]
      obtain ⟨i1, i2⟩ := ih (n / 2) (by omega) (by omega)
      rw [pow_succ, pow_succ]
      rw [pow_succ] at i2
      constructor <;> omega
    · rw [if_neg h]
      have : n = 1 := by omega
      subst this
      simp

theorem lg_spec (n : Nat) (h : 1 ≤ n) : 2 ^ lg n ≤ n ∧ n < 2 ^ (lg n + 1) :=
  lgLoop_spec n n le_rfl h

theorem roundHalfEven_error (num den : Nat) (hden : 0 < den) :
    |((roundHalfEven num den : Nat) : ℚ) - (num : ℚ) / (den : ℚ)| ≤ 1 / 2 := by
  have hd : (0 : ℚ) < (den : ℚ) := by exact_mod_cast hden
  have hdiv : (num : ℚ) = (den : ℚ) * ((num / den : Nat) : ℚ) + ((num % den : Nat) : ℚ) := by
    exact_mod_cast (Nat.div_add_mod num den).symm
  have hmod : ((num % den : Nat) : ℚ) < (den : ℚ) := by exact_mod_cast Nat.mod_lt num hden
  have hmod0 : (0 : ℚ) ≤ ((num % den : Nat) : ℚ) := Nat.cast_nonneg _
  have hq : (num : ℚ) / (den : ℚ) = ((num / den : Nat) : ℚ) + ((num % den : Nat) : ℚ) / den := by
    rw [div_eq_iff hd.ne', add_mul, div_mul_cancel₀ _ hd.ne', mul_comm]
    exact hdiv
  have hlow : ∀ (c : 2 * (num % den) ≤ den),
      |((num / den : Nat) : ℚ) - (num : ℚ) / (den : ℚ)| ≤ 1 / 2 := by
    intro c
    have c1 : 2 * ((num % den : Nat) : ℚ) ≤ (den : ℚ) := by exact_mod_cast c
    rw [hq, abs_le]
    have : ((num % den : Nat) : ℚ) / den ≤ 1 / 2 := by
      rw [div_le_iff₀ hd]
      linarith
    have h0 : 0 ≤ ((num % den : Nat) : ℚ) / den := div_nonneg hmod0 hd.le
    constructor <;> linarith
  have hup : ∀ (c : den ≤ 2 * (num % den)),
      |((num / den + 1 : Nat) : ℚ) - (num : ℚ) / (den : ℚ)| ≤ 1 / 2 := by
    intro c
    have c1 : (den : ℚ) ≤ 2 * ((num % den : Nat) : ℚ) := by exact_mod_cast c
    rw [hq, abs_le]
    have : 1 / 2 ≤ ((num % den : Nat) : ℚ) / den := by
      rw [le_div_iff₀ hd]
      linarith
    have h1 : ((num % den : Nat) : ℚ) / den ≤ 1 := by
      rw [div_le_iff₀ hd]
      linarith
    push_cast
    constructor <;> linarith
  unfold roundHalfEven
  split
  · exact hlow (by omega)
  · split
    · exact hup (by omega)
    · split
      · exact hlow (by omega)
      · exact hup (by omega)

theorem two_zpow_eq (e : Int) :
    ((2 ^ e.toNat : Nat) : ℚ) / ((2 ^ (-e).toNat : Nat) : ℚ) = (2 : ℚ) ^ e := by
  rcases le_total 0 e with h | h
  · obtain ⟨n, rfl⟩ := Int.eq_ofNat_of_zero_le h
    have : (-(n : Int)).toNat = 0 := by omega
    rw [this]
    simp
  · obtain ⟨n, hn⟩ := Int.eq_ofNat_of_zero_le (show 0 ≤ -e by omega)
    have he : e = -(n : Int) := by omega
    subst he
    have : (-(n : Int)).toNat = 0 := by omega
    rw [this]
    simp

theorem scaled_quotient (p d : Nat) (hd : 0 < d) (e : Int) :
    ((p * 2 ^ (-e).toNat : Nat) : ℚ) / ((d * 2 ^ e.toNat : Nat) : ℚ) =
      (p : ℚ) / (d : ℚ) / (2 : ℚ) ^ e := by
  rw [← two_zpow_eq e]
  have h1 : ((2 ^ e.toNat : Nat) : ℚ) ≠ 0 := by positivity
  have h2 : ((2 ^ (-e).toNat : Nat) : ℚ) ≠ 0 := by positivity
  have h3 : (d : ℚ) ≠ 0 := by positivity
  push_cast
  push_cast at h1 h2
  field_simp

theorem exponent53_spec (p d : Nat) (hp : 0 < p) (hd : 0 < d) :
    (2 : ℚ) ^ (52 : Nat) ≤ (p : ℚ) / (d : ℚ) / (2 : ℚ) ^ (exponent53 p d) := by
  have hdq : (0 : ℚ) < (d : ℚ) := by exact_mod_cast hd
  have h2 : ∀ e : Int, (0 : ℚ) < (2 : ℚ) ^ e := fun e => zpow_pos (by norm_num) e
  unfold exponent53
  split
  · obtain ⟨hp1, _⟩ := lg_spec p hp
    obtain ⟨_, hd2⟩ := lg_spec d hd
    have hp1q : (2 : ℚ) ^ (lg p : Int) ≤ (p : ℚ) := by
      rw [zpow_natCast]
      exact_mod_cast hp1
    have hd2q : (d : ℚ) ≤ (2 : ℚ) ^ ((lg d : Int) + 1) := by
      have : (d : ℚ) ≤ ((2 ^ (lg d + 1) : Nat) : ℚ) := by exact_mod_cast hd2.le
      rw [show ((lg d : Int) + 1) = ((lg d + 1 : Nat) : Int) by push_cast; rfl, zpow_natCast]
      exact_mod_cast this
    rw [le_div_iff₀ (h2 _), le_div_iff₀ hdq]
    calc (2 : ℚ) ^ (52 : Nat) * (2 : ℚ) ^ ((lg p : Int) - (lg d : Int) - 52 - 1) * (d : ℚ)
        ≤ (2 : ℚ) ^ (52 : Nat) * (2 : ℚ) ^ ((lg p : Int) - (lg d : Int) - 52 - 1) *
            (2 : ℚ) ^ ((lg d : Int) + 1) :=
          mul_le_mul_of_nonneg_left hd2q (mul_nonneg (by positivity) (h2 _).le)
      _ = (2 : ℚ) ^ (lg p : Int) := by
          rw [← zpow_natCast, ← zpow_add₀ (by norm_num), ← zpow_add₀ (by norm_num)]
          congr 1
          push_cast
          ring
      _ ≤ (p : ℚ) := hp1q
  · rename_i hc
    have hc1 := Nat.le_of_not_lt hc
    have hB : (0 : ℚ) < ((d * 2 ^ ((lg p : Int) - (lg d : Int) - 52).toNat : Nat) : ℚ) := by
      have : 0 < d * 2 ^ ((lg p : Int) - (lg d : Int) - 52).toNat := by positivity
      exact_mod_cast this
    rw [← scaled_quotient p d hd, le_div_iff₀ hB]
    exact_mod_cast hc1

theorem roundPos_error (p d : Nat) (hp : 0 < p) (hd : 0 < d) :
    |roundPos p d - (p : ℚ) / (d : ℚ)| ≤ 1 / 2 ^ 53 * ((p : ℚ) / (d : ℚ)) := by
  have hz : (0 : ℚ) < (2 : ℚ) ^ (exponent53 p d) := zpow_pos (by norm_num) _
  have hB : 0 < d * 2 ^ (exponent53 p d).toNat := by positivity
  have hm := roundHalfEven_error (p * 2 ^ (-(exponent53 p d)).toNat)
    (d * 2 ^ (exponent53 p d).toNat) hB
  rw [scaled_quotient p d hd] at hm
  have hq := exponent53_spec p d hp hd
  have hr : roundPos p d =
      ((roundHalfEven (p * 2 ^ (-(exponent53 p d)).toNat)
        (d * 2 ^ (exponent53 p d).toNat) : Nat) : ℚ) * (2 : ℚ) ^ (exponent53 p d) := by
    unfold roundPos
    rw [Nat.cast_mul, mul_div_assoc, two_zpow_eq]
  have hx : (p : ℚ) / (d : ℚ) =
      (p : ℚ) / (d : ℚ) / (2 : ℚ) ^ (exponent53 p d) * (2 : ℚ) ^ (exponent53 p d) :=
    (div_mul_cancel₀ _ hz.ne').symm
  rw [hr]
  generalize ((roundHalfEven (p * 2 ^ (-(exponent53 p d)).toNat)
        (d * 2 ^ (exponent53 p d).toNat) : Nat) : ℚ) = m at hm ⊢
  generalize (p : ℚ) / (d : ℚ) / (2 : ℚ) ^ (exponent53 p d) = q at hm hq hx
  rw [hx, ← sub_mul, abs_mul, abs_of_pos hz]
  have h53 : (2 : ℚ) ^ 53 = 2 * 2 ^ (52 : Nat) := by norm_num
  calc |m - q| * (2 : ℚ) ^ (exponent53 p d) ≤ 1 / 2 * (2 : ℚ) ^ (exponent53 p d) :=
        mul_le_mul_of_nonneg_right hm hz.le
    _ ≤ 1 / 2 ^ 53 * q * (2 : ℚ) ^ (exponent53 p d) := by
        apply mul_le_mul_of_nonneg_right _ hz.le
        rw [h53, div_mul_eq_mul_div, one_mul, le_div_iff₀ (by positivity)]
        linarith
    _ = 1 / 2 ^ 53 * (q * (2 : ℚ) ^ (exponent53 p d)) := by ring

/-- Rounding to the nearest `double` has relative error at most `2^-53`. -/
theorem roundDouble_error (x : ℚ) : |roundDouble x - x| ≤ 1 / 2 ^ 53 * |x| := by
  unfold roundDouble
  split
  · rename_i h
    simp [h]
  · rename_i h0
    split
    · rename_i hpos
      have hnum : 0 < x.num := Rat.num_pos.mpr hpos
      have hxe : ((x.num.toNat : Nat) : ℚ) / (x.den : ℚ) = x := by
        have : ((x.num.toNat : Nat) : ℚ) = ((x.num : Int) : ℚ) := by
          have := Int.toNat_of_nonneg hnum.le
          exact_mod_cast congrArg (fun z : Int => (z : ℚ)) this
        rw [this]
        exact Rat.num_div_den x
      have := roundPos_error x.num.toNat x.den (by omega) x.den_pos
      rw [hxe] at this
      rwa [abs_of_pos hpos]
    · rename_i hpos
      have hneg : x < 0 := lt_of_le_of_ne (not_lt.mp hpos) h0
      have hnum : 0 < (-x).num := Rat.num_pos.mpr (by linarith)
      have hxe : (((-x).num.toNat : Nat) : ℚ) / (x.den : ℚ) = -x := by
        have : (((-x).num.toNat : Nat) : ℚ) = (((-x).num : Int) : ℚ) := by
          have := Int.toNat_of_nonneg hnum.le
          exact_mod_cast congrArg (fun z : Int => (z : ℚ)) this
        rw [this]
        have hden : x.den = (-x).den := by simp
        rw [hden]
        exact Rat.num_div_den (-x)
      have := roundPos_error (-x).num.toNat x.den (by omega) x.den_pos
      rw [hxe] at this
      rw [abs_of_neg hneg]
      rw [show -roundPos (-x).num.toNat x.den - x = -(roundPos (-x).num.toNat x.den - -x) by ring,
        abs_neg]
      exact this


/-- With relative rounding error at most `u` per operation, the value `k`
additions of the rounded `1 / n` leave differs from `k / n` by a factor between
`1 - m * u` and `1 + 2 * m * u`, for every `m > k` with `m * u ≤ 1 / 2`. -/
theorem accumulate_near {R : Type} [LinearOrderedField R] (fl : R → R) (u : R)
    (hfl : ∀ x, |fl x - x| ≤ u * |x|) (n k m : Nat) (hn : 0 < n) (hk : k + 1 ≤ m)
    (hsmall : (m : R) * u ≤ 1 / 2) :
    (k : R) / (n : R) * (1 - (m : R) * u) ≤ accumulate fl (fl (1 / (n : R))) k 0 ∧
      accumulate fl (fl (1 / (n : R))) k 0 ≤ (k : R) / (n : R) * (1 + 2 * (m : R) * u) := by
  have hu0 : 0 ≤ u := by
    have := hfl 1
    rw [abs_one, mul_one] at this
    exact le_trans (abs_nonneg _) this
  have hm1 : (1 : R) ≤ (m : R) := by
    have : 1 ≤ m := by omega
    exact_mod_cast this
  have hu1 : u ≤ 1 := by nlinarith
  have hnR : (0 : R) < (n : R) := by exact_mod_cast hn
  have hinvx : (0 : R) ≤ 1 / (n : R) := by positivity
  obtain ⟨hi1, hi2⟩ := le_of_rel_error fl u hfl _ hinvx
  have hinv0 : 0 ≤ fl (1 / (n : R)) :=
    le_trans (mul_nonneg (by linarith) hinvx) hi1
  obtain ⟨ha1, ha2⟩ := accumulate_bounds fl u hu0 hu1 hfl _ hinv0 k
  have hkR : (0 : R) ≤ (k : R) := Nat.cast_nonneg k
  have hkn : (0 : R) ≤ (k : R) / (n : R) := div_nonneg hkR hnR.le
  have hpow_up : (1 + u) ^ (k + 1) ≤ 1 + 2 * (m : R) * u :=
    le_trans (pow_le_pow_right₀ (by linarith) hk) (one_add_pow_le u hu0 m hsmall)
  have hpow_low : 1 - (m : R) * u ≤ (1 - u) ^ (k + 1) :=
    le_trans (one_sub_pow_ge u hu1 m)
      (pow_le_pow_of_le_one (by linarith) (by linarith) hk)
  have h1u : (0 : R) ≤ 1 - u := by linarith
  constructor
  · calc (k : R) / (n : R) * (1 - (m : R) * u)
        ≤ (k : R) / (n : R) * (1 - u) ^ (k + 1) := mul_le_mul_of_nonneg_left hpow_low hkn
      _ = (k : R) * ((1 - u) * (1 / (n : R))) * (1 - u) ^ k := by
          rw [pow_succ]
          field_simp
          ring
      _ ≤ (k : R) * fl (1 / (n : R)) * (1 - u) ^ k :=
          mul_le_mul_of_nonneg_right (mul_le_mul_of_nonneg_left hi1 hkR) (pow_nonneg h1u k)
      _ ≤ _ := ha1
  · calc accumulate fl (fl (1 / (n : R))) k 0
        ≤ (k : R) * fl (1 / (n : R)) * (1 + u) ^ k := ha2
      _ ≤ (k : R) * ((1 + u) * (1 / (n : R))) * (1 + u) ^ k :=
          mul_le_mul_of_nonneg_right (mul_le_mul_of_nonneg_left hi2 hkR)
            (pow_nonneg (by linarith) k)
      _ = (k : R) / (n : R) * (1 + u) ^ (k + 1) := by
          rw [pow_succ]
          field_simp
          ring
      _ ≤ (k : R) / (n : R) * (1 + 2 * (m : R) * u) := mul_le_mul_of_nonneg_left hpow_up hkn

theorem sampleEmpty_historyFl : HistoryFl roundDouble [] sampleEmpty :=
  HistoryFl.create ["in".toList, "the".toList] sampleEmpty rfl

theorem sampleTen_historyFl :
    HistoryFl roundDouble [Op.add 1 sampleTenWords DocumentStatus.ACTUAL []] sampleTen :=
  HistoryFl.call _ _ _ sampleEmpty_historyFl (by decide)

theorem sampleNine_historyFl :
    HistoryFl roundDouble [Op.add 1 sampleNineWords DocumentStatus.ACTUAL []] sampleNine :=
  HistoryFl.call _ _ _ sampleEmpty_historyFl (by decide)

/-! ## Term frequencies as the program stores them -/

/-- C8, amended: when `AddDocument(id, text, ...)` succeeds for an id that no
earlier call has added, the row `GetWordFrequencies(id)` afterwards has as keys
exactly the non-stop tokens of the text; a term `t` with `k` occurrences among
the `n` non-stop tokens is bound to the value that `k` rounded additions of the
rounded quotient `1 / n` leave, starting from `0`, and the inverted index holds
the same value at `(t, id)`.  With relative rounding error at most `u` per
operation and `(k + 1) * u ≤ 1 / 2`, that value differs from `k / n` by at most
`2 * (k + 1) * u * (k / n)`; in exact arithmetic (`u = 0`) it is `k / n`. -/
theorem add_document_stored_frequencies {R : Type} [LinearOrderedField R] (fl : R → R) (u : R)
    (hfl : ∀ x, |fl x - x| ≤ u * |x|) (ops : List Op) (s : SearchServer R)
    (h : HistoryFl fl ops s) (document_id : Int) (document : Str) (status : DocumentStatus)
    (ratings : List Int) (hnever : ∀ op ∈ ops, Op.adds document_id op = false)
    (hok : (s.AddDocumentFl fl document_id document status ratings).error = none) :
    (∀ t, t ∈ ((s.AddDocumentFl fl document_id document status ratings).state.GetWordFrequencies
        document_id).keys ↔ t ∈ s.indexableWords document) ∧
    (∀ t ∈ s.indexableWords document,
      ((s.AddDocumentFl fl document_id document status ratings).state.GetWordFrequencies
          document_id).find? t =
        some (accumulate fl (fl (1 / ((s.indexableWords document).length : R)))
          ((s.indexableWords document).count t) 0) ∧
      (s.AddDocumentFl fl document_id document status ratings).state.posting t document_id =
        some (accumulate fl (fl (1 / ((s.indexableWords document).length : R)))
          ((s.indexableWords document).count t) 0) ∧
      ((((s.indexableWords document).count t + 1 : Nat) : R) * u ≤ 1 / 2 →
        |accumulate fl (fl (1 / ((s.indexableWords document).length : R)))
            ((s.indexableWords document).count t) 0 -
          ((s.indexableWords document).count t : R) / ((s.indexableWords document).length : R)| ≤
        2 * (((s.indexableWords document).count t + 1 : Nat) : R) * u *
          (((s.indexableWords document).count t : R) /
            ((s.indexableWords document).length : R))) ∧
      (u = 0 →
        accumulate fl (fl (1 / ((s.indexableWords document).length : R)))
            ((s.indexableWords document).count t) 0 =
          ((s.indexableWords document).count t : R) /
            ((s.indexableWords document).length : R))) := by
  obtain ⟨hrow, hpost⟩ := h.never_added_fl document_id hnever
  have hre : ∀ t, s.rowEntry document_id t = none := by
    intro t
    simp [SearchServer.rowEntry, hrow]
  have hfind : ∀ t, ((s.AddDocumentFl fl document_id document status ratings).state.GetWordFrequencies
      document_id).find? t =
      if t ∈ s.indexableWords document then
        some (accumulate fl (fl (1 / ((s.indexableWords document).length : R)))
          ((s.indexableWords document).count t) 0)
      else none := by
    intro t
    rw [find?_GetWordFrequencies, SearchServer.AddDocumentFl_rowEntry fl s _ _ _ _ hok, hre t]
    by_cases ht : t ∈ s.indexableWords document
    · simp [ht]
    · simp [ht]
  have hbound : ∀ t ∈ s.indexableWords document,
      (((s.indexableWords document).count t + 1 : Nat) : R) * u ≤ 1 / 2 →
        |accumulate fl (fl (1 / ((s.indexableWords document).length : R)))
            ((s.indexableWords document).count t) 0 -
          ((s.indexableWords document).count t : R) / ((s.indexableWords document).length : R)| ≤
        2 * (((s.indexableWords document).count t + 1 : Nat) : R) * u *
          (((s.indexableWords document).count t : R) /
            ((s.indexableWords document).length : R)) := by
    intro t ht hsmall
    have hn : 0 < (s.indexableWords document).length := List.length_pos_of_mem ht
    obtain ⟨h1, h2⟩ := accumulate_near fl u hfl (s.indexableWords document).length
      ((s.indexableWords document).count t) ((s.indexableWords document).count t + 1) hn le_rfl
      hsmall
    have hu0 : 0 ≤ u := by
      have := hfl 1
      rw [abs_one, mul_one] at this
      exact le_trans (abs_nonneg _) this
    have hq : (0 : R) ≤ ((s.indexableWords document).count t : R) /
        ((s.indexableWords document).length : R) :=
      div_nonneg (Nat.cast_nonneg _) (Nat.cast_nonneg _)
    have hm : (0 : R) ≤ (((s.indexableWords document).count t + 1 : Nat) : R) :=
      Nat.cast_nonneg _
    have hprod : 0 ≤ (((s.indexableWords document).count t + 1 : Nat) : R) * u *
        (((s.indexableWords document).count t : R) / ((s.indexableWords document).length : R)) :=
      mul_nonneg (mul_nonneg hm hu0) hq
    rw [abs_le]
    constructor <;> nlinarith
  refine ⟨fun t => ?_, fun t ht => ⟨?_, ?_, hbound t ht, fun hu => ?_⟩⟩
  · rw [OrderedMap.mem_keys, hfind t]
    by_cases ht : t ∈ s.indexableWords document
    · simp [ht]
    · simp [ht]
  · rw [hfind t, if_pos ht]
  · rw [SearchServer.AddDocumentFl_posting fl s _ _ _ _ hok, hpost t]
    simp [ht]
  · have := hbound t ht (by rw [hu]; simp)
    rw [hu] at this
    simp only [mul_zero, zero_mul, abs_nonpos_iff] at this
    exact sub_eq_zero.mp this

/-- Witness of C8, amended: adding the text `a a a b c d e f g h` as document 1
to the empty sample server, in binary64 arithmetic. -/
theorem add_document_stored_frequencies_witness :
    (∀ x, |roundDouble x - x| ≤ 1 / 2 ^ 53 * |x|) ∧
    HistoryFl roundDouble [] sampleEmpty ∧
    (∀ op ∈ ([] : List Op), Op.adds 1 op = false) ∧
    (sampleEmpty.AddDocumentFl roundDouble 1 sampleTenWords DocumentStatus.ACTUAL []).error =
      none ∧
    (∀ t, t ∈ ((sampleEmpty.AddDocumentFl roundDouble 1 sampleTenWords DocumentStatus.ACTUAL
        []).state.GetWordFrequencies 1).keys ↔ t ∈ sampleEmpty.indexableWords sampleTenWords) ∧
    ∀ t ∈ sampleEmpty.indexableWords sampleTenWords,
      ((sampleEmpty.AddDocumentFl roundDouble 1 sampleTenWords DocumentStatus.ACTUAL
          []).state.GetWordFrequencies 1).find? t =
        some (accumulate roundDouble
          (roundDouble (1 / ((sampleEmpty.indexableWords sampleTenWords).length : ℚ)))
          ((sampleEmpty.indexableWords sampleTenWords).count t) 0) :=
  ⟨roundDouble_error, sampleEmpty_historyFl, by simp, by decide,
    (add_document_stored_frequencies roundDouble (1 / 2 ^ 53) roundDouble_error []
      sampleEmpty sampleEmpty_historyFl 1 sampleTenWords DocumentStatus.ACTUAL [] (by simp)
      (by decide)).1,
    fun t ht => ((add_document_stored_frequencies roundDouble (1 / 2 ^ 53) roundDouble_error []
      sampleEmpty sampleEmpty_historyFl 1 sampleTenWords DocumentStatus.ACTUAL [] (by simp)
      (by decide)).2 t ht).1⟩

/-- C8 at a counterexample: `AddDocument(1, "a a a b c d e f g h", ACTUAL, {})`
on the empty sample server succeeds; the term `a` occurs 3 times among 10
tokens; in binary64 arithmetic the forward index and the inverted index bind it
to `1351079888211149 / 2^52` (0.30000000000000004), which is neither `3 / 10`
nor the `double` nearest to it, `5404319552844595 / 2^54`. -/
theorem stored_frequency_differs_from_quotient :
    HistoryFl roundDouble [] sampleEmpty ∧
    (sampleEmpty.AddDocumentFl roundDouble 1 sampleTenWords DocumentStatus.ACTUAL []).error =
      none ∧
    (sampleEmpty.indexableWords sampleTenWords).count "a".toList = 3 ∧
    (sampleEmpty.indexableWords sampleTenWords).length = 10 ∧
    ((sampleEmpty.AddDocumentFl roundDouble 1 sampleTenWords DocumentStatus.ACTUAL
        []).state.GetWordFrequencies 1).find? "a".toList =
      some (1351079888211149 / 4503599627370496) ∧
    (sampleEmpty.AddDocumentFl roundDouble 1 sampleTenWords DocumentStatus.ACTUAL
        []).state.posting "a".toList 1 = some (1351079888211149 / 4503599627370496) ∧
    roundDouble (3 / 10) = 5404319552844595 / 18014398509481984 ∧
    (1351079888211149 / 4503599627370496 : ℚ) ≠ 3 / 10 ∧
    (1351079888211149 / 4503599627370496 : ℚ) ≠ 5404319552844595 / 18014398509481984 :=
  ⟨sampleEmpty_historyFl, by decide, by decide, by decide, by decide!, by decide!, by decide!,
    by norm_num, by norm_num⟩

/-- C9, amended: after a successful `AddDocument(id, text, ...)` whose text has
`n ≥ 1` indexable tokens, and as long as no document has been removed, with
relative rounding error at most `u` per operation and `(n + 1) * u ≤ 1 / 2`, the
values of `GetWordFrequencies(id)` sum to 1 within `2 * (n + 1) * u` and each
lies in `(0, 1 + 2 * (n + 1) * u]`.  For `double` (`u = 2^-53`) and a text of at
most 4000000 indexable tokens the sum is 1 within `1e-9` and each value is at
most `1 + 1e-9`; in exact arithmetic (`u = 0`) the sum is 1 and each value lies
in `(0, 1]`. -/
theorem word_frequencies_sum_near_one {R : Type} [LinearOrderedField R] (fl : R → R) (u : R)
    (hfl : ∀ x, |fl x - x| ≤ u * |x|) (ops : List Op) (s : SearchServer R)
    (h : HistoryFl fl ops s) (hadds : ∀ op ∈ ops, Op.isAdd op = true)
    (document_id : Int) (document : Str) (status : DocumentStatus) (ratings : List Int)
    (hmem : Op.add document_id document status ratings ∈ ops)
    (htoken : s.indexableWords document ≠ [])
    (hsmall : (((s.indexableWords document).length + 1 : Nat) : R) * u ≤ 1 / 2) :
    |((s.GetWordFrequencies document_id).toList.map Prod.snd).sum - 1| ≤
      2 * (((s.indexableWords document).length + 1 : Nat) : R) * u ∧
    (∀ p ∈ (s.GetWordFrequencies document_id).toList,
      0 < p.2 ∧ p.2 ≤ 1 + 2 * (((s.indexableWords document).length + 1 : Nat) : R) * u) ∧
    (u ≤ 1 / 2 ^ 53 → (s.indexableWords document).length ≤ 4000000 →
      |((s.GetWordFrequencies document_id).toList.map Prod.snd).sum - 1| ≤ 1 / 10 ^ 9 ∧
      ∀ p ∈ (s.GetWordFrequencies document_id).toList, p.2 ≤ 1 + 1 / 10 ^ 9) := by
  obtain ⟨_, hrows⟩ := h.rows_of_adds_fl hadds document_id document status ratings hmem
  have hn : 0 < (s.indexableWords document).length := List.length_pos.mpr htoken
  have hlen : (0 : R) < ((s.indexableWords document).length : R) := by exact_mod_cast hn
  have hu0 : 0 ≤ u := by
    have := hfl 1
    rw [abs_one, mul_one] at this
    exact le_trans (abs_nonneg _) this
  have hfind : ∀ t, (s.GetWordFrequencies document_id).find? t =
      if t ∈ s.indexableWords document then
        some (accumulate fl (fl (1 / ((s.indexableWords document).length : R)))
          ((s.indexableWords document).count t) 0)
      else none := by
    intro t
    rw [find?_GetWordFrequencies, hrows t]
  have hkeys : ∀ t, t ∈ (s.GetWordFrequencies document_id).keys ↔
      t ∈ s.indexableWords document := by
    intro t
    rw [OrderedMap.mem_keys, hfind t]
    by_cases ht : t ∈ s.indexableWords document
    · simp [ht]
    · simp [ht]
  have hlist := toList_eq_map_of_find (s.GetWordFrequencies document_id)
    (fun k => accumulate fl (fl (1 / ((s.indexableWords document).length : R)))
      ((s.indexableWords document).count k) 0)
    (fun k hk => by rw [hfind k, if_pos ((hkeys k).mp hk)])
  have hnear : ∀ k ∈ s.indexableWords document,
      ((s.indexableWords document).count k : R) / ((s.indexableWords document).length : R) *
          (1 - (((s.indexableWords document).length + 1 : Nat) : R) * u) ≤
        accumulate fl (fl (1 / ((s.indexableWords document).length : R)))
          ((s.indexableWords document).count k) 0 ∧
      accumulate fl (fl (1 / ((s.indexableWords document).length : R)))
          ((s.indexableWords document).count k) 0 ≤
        ((s.indexableWords document).count k : R) / ((s.indexableWords document).length : R) *
          (1 + 2 * (((s.indexableWords document).length + 1 : Nat) : R) * u) := by
    intro k _
    exact accumulate_near fl u hfl _ _ _ hn
      (Nat.succ_le_succ (List.count_le_length _ _)) hsmall
  have hperm : (s.GetWordFrequencies document_id).keys.Perm (s.indexableWords document).dedup :=
    (List.perm_ext_iff_of_nodup (OrderedMap.nodup_keys _) (List.nodup_dedup _)).mpr
      (fun t => by rw [hkeys t, List.mem_dedup])
  have hsum : ((s.GetWordFrequencies document_id).toList.map Prod.snd).sum =
      ((s.indexableWords document).dedup.map (fun k =>
        accumulate fl (fl (1 / ((s.indexableWords document).length : R)))
          ((s.indexableWords document).count k) 0)).sum := by
    rw [hlist, List.map_map]
    exact (hperm.map _).sum_eq
  have hone : ((s.indexableWords document).dedup.map (fun k =>
      ((s.indexableWords document).count k : R) /
        ((s.indexableWords document).length : R))).sum = 1 := by
    rw [sum_map_cast_div, sum_map_count_dedup]
    exact div_self (ne_of_gt hlen)
  have hscale : ∀ c : R, ((s.indexableWords document).dedup.map (fun k =>
      ((s.indexableWords document).count k : R) /
        ((s.indexableWords document).length : R) * c)).sum = c := by
    intro c
    rw [List.sum_map_mul_right, hone, one_mul]
  have hlow : 1 - (((s.indexableWords document).length + 1 : Nat) : R) * u ≤
      ((s.GetWordFrequencies document_id).toList.map Prod.snd).sum := by
    rw [hsum, ← hscale (1 - (((s.indexableWords document).length + 1 : Nat) : R) * u)]
    exact List.sum_le_sum (fun k hk => (hnear k (List.mem_dedup.mp hk)).1)
  have hup : ((s.GetWordFrequencies document_id).toList.map Prod.snd).sum ≤
      1 + 2 * (((s.indexableWords document).length + 1 : Nat) : R) * u := by
    rw [hsum, ← hscale (1 + 2 * (((s.indexableWords document).length + 1 : Nat) : R) * u)]
    exact List.sum_le_sum (fun k hk => (hnear k (List.mem_dedup.mp hk)).2)
  have hm0 : (0 : R) ≤ (((s.indexableWords document).length + 1 : Nat) : R) * u :=
    mul_nonneg (Nat.cast_nonneg _) hu0
  have habs : |((s.GetWordFrequencies document_id).toList.map Prod.snd).sum - 1| ≤
      2 * (((s.indexableWords document).length + 1 : Nat) : R) * u := by
    rw [abs_le]
    constructor <;> linarith
  have hval : ∀ p ∈ (s.GetWordFrequencies document_id).toList,
      0 < p.2 ∧ p.2 ≤ 1 + 2 * (((s.indexableWords document).length + 1 : Nat) : R) * u := by
    intro p hp
    rw [hlist] at hp
    obtain ⟨k, hk, rfl⟩ := List.mem_map.mp hp
    have hkin := (hkeys k).mp hk
    have hcount : 0 < (s.indexableWords document).count k := List.count_pos_iff.mpr hkin
    have hle : (s.indexableWords document).count k ≤ (s.indexableWords document).length :=
      List.count_le_length _ _
    have hq0 : (0 : R) < ((s.indexableWords document).count k : R) /
        ((s.indexableWords document).length : R) := div_pos (by exact_mod_cast hcount) hlen
    have hq1 : ((s.indexableWords document).count k : R) /
        ((s.indexableWords document).length : R) ≤ 1 := by
      rw [div_le_one hlen]
      exact_mod_cast hle
    obtain ⟨h1, h2⟩ := hnear k hkin
    constructor
    · refine lt_of_lt_of_le (mul_pos hq0 (by linarith)) h1
    · refine le_trans h2 ?_
      calc ((s.indexableWords document).count k : R) / ((s.indexableWords document).length : R) *
            (1 + 2 * (((s.indexableWords document).length + 1 : Nat) : R) * u)
          ≤ 1 * (1 + 2 * (((s.indexableWords document).length + 1 : Nat) : R) * u) :=
            mul_le_mul_of_nonneg_right hq1 (by linarith)
        _ = _ := one_mul _
  refine ⟨habs, hval, fun hu hmax => ?_⟩
  have hcast : (((s.indexableWords document).length + 1 : Nat) : R) ≤ 4000001 := by
    have : (s.indexableWords document).length + 1 ≤ 4000001 := by omega
    exact_mod_cast this
  have htiny : 2 * (((s.indexableWords document).length + 1 : Nat) : R) * u ≤ 1 / 10 ^ 9 := by
    calc 2 * (((s.indexableWords document).length + 1 : Nat) : R) * u
        ≤ 2 * 4000001 * (1 / 2 ^ 53) :=
          mul_le_mul (by linarith) hu hu0 (by norm_num)
      _ ≤ 1 / 10 ^ 9 := by norm_num
  exact ⟨le_trans habs htiny, fun p hp => le_trans (hval p hp).2 (by linarith)⟩

/-- Witness of C9, amended: the document of nine words `a`, in binary64
arithmetic. -/
theorem word_frequencies_sum_near_one_witness :
    (∀ x, |roundDouble x - x| ≤ 1 / 2 ^ 53 * |x|) ∧
    HistoryFl roundDouble [Op.add 1 sampleNineWords DocumentStatus.ACTUAL []] sampleNine ∧
    (∀ op ∈ [Op.add 1 sampleNineWords DocumentStatus.ACTUAL []], Op.isAdd op = true) ∧
    Op.add 1 sampleNineWords DocumentStatus.ACTUAL [] ∈
      [Op.add 1 sampleNineWords DocumentStatus.ACTUAL []] ∧
    sampleNine.indexableWords sampleNineWords ≠ [] ∧
    (((sampleNine.indexableWords sampleNineWords).length + 1 : Nat) : ℚ) * (1 / 2 ^ 53) ≤ 1 / 2 ∧
    |((sampleNine.GetWordFrequencies 1).toList.map Prod.snd).sum - 1| ≤
      2 * (((sampleNine.indexableWords sampleNineWords).length + 1 : Nat) : ℚ) * (1 / 2 ^ 53) :=
  ⟨roundDouble_error, sampleNine_historyFl, by decide, by simp, by decide,
    by rw [show (sampleNine.indexableWords sampleNineWords).length = 9 by decide]; norm_num,
    (word_frequencies_sum_near_one roundDouble (1 / 2 ^ 53) roundDouble_error _ sampleNine
      sampleNine_historyFl (by decide) 1 sampleNineWords DocumentStatus.ACTUAL [] (by simp)
      (by decide)
      (by rw [show (sampleNine.indexableWords sampleNineWords).length = 9 by decide]
          norm_num)).1⟩

/-- C9 at a counterexample: after `AddDocument(1, "a a a a a a a a a", ACTUAL,
{})` on the empty sample server, in binary64 arithmetic, the only value of
`GetWordFrequencies(1)` is `4503599627370497 / 2^52` (1.0000000000000002): it
is greater than 1, and so is the sum of the values. -/
theorem stored_frequency_exceeds_one :
    HistoryFl roundDouble [Op.add 1 sampleNineWords DocumentStatus.ACTUAL []] sampleNine ∧
    (∀ op ∈ [Op.add 1 sampleNineWords DocumentStatus.ACTUAL []], Op.isAdd op = true) ∧
    sampleNine.indexableWords sampleNineWords ≠ [] ∧
    (sampleNine.GetWordFrequencies 1).toList =
      [("a".toList, 4503599627370497 / 4503599627370496)] ∧
    (1 : ℚ) < 4503599627370497 / 4503599627370496 ∧
    ((sampleNine.GetWordFrequencies 1).toList.map Prod.snd).sum ≠ 1 :=
  ⟨sampleNine_historyFl, by decide, by decide, by decide!, by norm_num, by decide!⟩

end SearchEngine
